import Mathlib

/-!
Verification of the bwalign core (`src/bwalign/utils.py`) against its
specification.  The Python functions are shallowly embedded: strings become
`List Char`, Python ints become `Int`/`Nat`, the float value `-inf` used as a
score sentinel becomes `⊥ : WithBot Int` (all finite scores are integers in
the source, and `int(x)` on such a float is the identity), and Python dicts
become functions into `Option`.  Dynamic-programming tables are expressed by
structural recursion on rows, which computes exactly the row-major fill order
of the source loops, so that all definitions evaluate by `rfl`/`decide`.
-/

namespace BWAlign

/-! ### Python slicing and indexing

`pySlice l a b` is Python's `l[a:b]` on a string of length `l.length`:
negative bounds count from the end, and both bounds are clamped to
`[0, length]`. `pyGet l i` is Python's `l[i]` for `i > -len` (negative `i`
counts from the end); the source only indexes in range. -/

def pyBound (n : Nat) (x : Int) : Nat :=
  if x < 0 then ((n : Int) + x).toNat else min x.toNat n

def pySlice (l : List Char) (a b : Int) : List Char :=
  (l.take (pyBound l.length b)).drop (pyBound l.length a)

def pyGet (l : List Char) (i : Int) : Char :=
  if i < 0 then l.getD ((l.length : Int) + i).toNat '$' else l.getD i.toNat '$'

/-! ### CIGAR encoder (`calculate_cigar`)

The fold state is `(runs, match, ins, del)` exactly as in the source; a run
is a pair (length, operation letter).  The source renders each run as
`f"{n}{letter}"` and joins; `calculate_cigar` below does the same, while the
claims about run lengths are stated on `cigarRuns`. -/

def cigarStep (st : List (Nat × Char) × Nat × Nat × Nat) (col : Char × Char) :
    List (Nat × Char) × Nat × Nat × Nat :=
  let cig := st.1
  let m := st.2.1
  let ins := st.2.2.1
  let del := st.2.2.2
  if col.1 = '-' ∧ col.2 ≠ '-' then
    (cig ++ (if 0 < m then [(m, 'M')] else []), 0, ins, del + 1)
  else if col.1 ≠ '-' ∧ col.2 = '-' then
    (cig ++ (if 0 < m then [(m, 'M')] else []), 0, ins + 1, del)
  else
    (cig ++ (if 0 < ins then [(ins, 'I')] else []) ++ (if 0 < del then [(del, 'D')] else []),
      m + 1, 0, 0)

def cigarFlush (st : List (Nat × Char) × Nat × Nat × Nat) : List (Nat × Char) :=
  st.1 ++ (if 0 < st.2.1 then [(st.2.1, 'M')] else [])
       ++ (if 0 < st.2.2.1 then [(st.2.2.1, 'I')] else [])
       ++ (if 0 < st.2.2.2 then [(st.2.2.2, 'D')] else [])

def cigarRuns (alignment_s alignment_t : List Char) : List (Nat × Char) :=
  cigarFlush ((alignment_s.zip alignment_t).foldl cigarStep ([], 0, 0, 0))

def calculate_cigar (alignment_s alignment_t : List Char) : String :=
  String.join ((cigarRuns alignment_s alignment_t).map
    (fun p => toString p.1 ++ String.mk [p.2]))

/-- Sum of all run lengths of a CIGAR run list. -/
def runTotal : List (Nat × Char) → Nat
  | [] => 0
  | p :: l => p.1 + runTotal l

/-- Sum of the run lengths whose operation letter is `c1` or `c2`. -/
def opSum (c1 c2 : Char) : List (Nat × Char) → Nat
  | [] => 0
  | p :: l => (if p.2 = c1 ∨ p.2 = c2 then p.1 else 0) + opSum c1 c2 l

/-- Length of a string with all gap characters removed. -/
def stripLen (l : List Char) : Nat :=
  (l.filter (fun c => c ≠ '-')).length

/-! ### Banded alignment score (`banded_alignment`)

`bandedCell mr mmp indp bp s t i j` is the value of the score matrix
`l[i][j]` of `banded_alignment`: `l[0][0] = 0`; any other cell outside the
band `|j-i| < bp` is `-inf`; border cells inside the band are gap-penalty
multiples; interior cells inside the band take the maximum of the three
moves.  Recursion is structural: row `i+1` is defined from row `i`, and a
cell from its left neighbour in the same row. -/

def matchScore (mr mmp : Int) (s t : List Char) (i j : Nat) : Int :=
  if s.getD (i - 1) '$' = t.getD (j - 1) '$' then mr else -mmp

def bandedRowAux (mr mmp indp : Int) (bp : Int) (s t : List Char)
    (prev : Nat → WithBot Int) (i : Nat) : Nat → WithBot Int
  | 0 => if (((0 : Int) - (i : Int)).natAbs : Int) < bp
      then (((i : Int) * (-indp) : Int) : WithBot Int) else ⊥
  | j + 1 =>
    if ((((j : Int) + 1) - (i : Int)).natAbs : Int) < bp then
      max (max (prev (j + 1) + ((-indp : Int) : WithBot Int))
               (bandedRowAux mr mmp indp bp s t prev i j + ((-indp : Int) : WithBot Int)))
          (prev j + ((matchScore mr mmp s t i (j + 1) : Int) : WithBot Int))
    else ⊥

def bandedCell (mr mmp indp : Int) (bp : Int) (s t : List Char) : Nat → Nat → WithBot Int
  | 0 => fun j =>
      if j = 0 then ((0 : Int) : WithBot Int)
      else if ((j : Int) < bp) then (((j : Int) * (-indp) : Int) : WithBot Int)
      else ⊥
  | i + 1 => bandedRowAux mr mmp indp bp s t (bandedCell mr mmp indp bp s t i) (i + 1)

def banded_alignment (mr mmp indp : Int) (bp : Int) (s t : List Char) : WithBot Int :=
  bandedCell mr mmp indp bp s t s.length t.length

/-! ### Banded alignment with backtrace (`BandedAlignmentWithBackTrack`)

The score matrix of the backtrace variant differs from `banded_alignment`:
its whole row 0 and column 0 are set to gap multiples regardless of the band
(the source falls into `if i == 0` / `if j == 0` before the band test). -/

def wbtRowAux (mr mmp indp : Int) (bp : Int) (s t : List Char)
    (prev : Nat → WithBot Int) (i : Nat) : Nat → WithBot Int
  | 0 => (((i : Int) * (-indp) : Int) : WithBot Int)
  | j + 1 =>
    if ((((j : Int) + 1) - (i : Int)).natAbs : Int) < bp then
      max (max (prev (j + 1) + ((-indp : Int) : WithBot Int))
               (wbtRowAux mr mmp indp bp s t prev i j + ((-indp : Int) : WithBot Int)))
          (prev j + ((matchScore mr mmp s t i (j + 1) : Int) : WithBot Int))
    else ⊥

def wbtCell (mr mmp indp : Int) (bp : Int) (s t : List Char) : Nat → Nat → WithBot Int
  | 0 => fun j => (((j : Int) * (-indp) : Int) : WithBot Int)
  | i + 1 => wbtRowAux mr mmp indp bp s t (wbtCell mr mmp indp bp s t i) (i + 1)

/-- Backtrack pointers: down (`'d'`), right (`'r'`), diagonal (`'dr'`). -/
inductive Ptr where
  | d : Ptr
  | r : Ptr
  | dr : Ptr
deriving DecidableEq, Repr

/-- `bPtr … i j` is the entry `b[i][j]` of the backtrack matrix: it is set
when cell `(i+1, j+1)` of the score matrix is inside the band, by the cascade
of equality tests of the source. -/
def bPtr (mr mmp indp : Int) (bp : Int) (s t : List Char) (i j : Nat) : Option Ptr :=
  if (((j : Int) - (i : Int)).natAbs : Int) < bp then
    let v := wbtCell mr mmp indp bp s t (i + 1) (j + 1)
    if v = wbtCell mr mmp indp bp s t i (j + 1) + ((-indp : Int) : WithBot Int) then some Ptr.d
    else if v = wbtCell mr mmp indp bp s t (i + 1) j + ((-indp : Int) : WithBot Int) then
      some Ptr.r
    else if v = wbtCell mr mmp indp bp s t i j +
        ((matchScore mr mmp s t (i + 1) (j + 1) : Int) : WithBot Int) then some Ptr.dr
    else none
  else none

/-! `backtrack(b, s, t, i, j, band)` recurses with `i, j ≥ -1`; we shift both
indices up by one, so `btCell … i j` is the source's `backtrack` at
`(i - 1, j - 1)`; the top-level call at `(len s - 1, len t - 1)` becomes
`btCell … (len s) (len t)`. -/

def btRowAux (b : Nat → Nat → Option Ptr) (s t : List Char) (bp : Int)
    (prev : Nat → List Char × List Char) (i1 : Nat) : Nat → List Char × List Char
  | 0 => (s.take i1, List.replicate i1 '-')
  | j + 1 =>
    if b (i1 - 1) j = some Ptr.d ∧ (((j : Int) - ((i1 : Int) - 1)).natAbs : Int) < bp then
      let p := prev (j + 1)
      (p.1 ++ [s.getD (i1 - 1) '$'], p.2 ++ ['-'])
    else if b (i1 - 1) j = some Ptr.r ∧ (((j : Int) - ((i1 : Int) - 1)).natAbs : Int) < bp then
      let p := btRowAux b s t bp prev i1 j
      (p.1 ++ ['-'], p.2 ++ [t.getD j '$'])
    else
      let p := prev j
      (p.1 ++ [s.getD (i1 - 1) '$'], p.2 ++ [t.getD j '$'])

def btCell (b : Nat → Nat → Option Ptr) (s t : List Char) (bp : Int) :
    Nat → Nat → List Char × List Char
  | 0 => fun j => if j = 0 then ([], []) else (List.replicate j '-', t.take j)
  | i + 1 => btRowAux b s t bp (btCell b s t bp i) (i + 1)

def BandedAlignmentWithBackTrack (mr mmp indp : Int) (bp : Int) (s t : List Char) :
    WithBot Int × List Char × List Char :=
  (wbtCell mr mmp indp bp s t s.length t.length,
   btCell (bPtr mr mmp indp bp s t) s t bp s.length t.length)

/-! ### Seed-extension driver (`compute_max_seed`)

State of the scan is `(best_score, best_idx, best_seed)`, initialised to
`(-inf, -1, -1)`.  Candidate windows are taken with Python slicing, with no
range check, exactly as in the source. -/

def compute_max_seed (ref read : List Char) (seed_idxes : List (List Int))
    (mr mmp indp bw : Int) (read_length : Int) :
    Option (Int × WithBot Int × List Char × List Char) :=
  if seed_idxes.length = 0 then none
  else
    let st := seed_idxes.enum.foldl
      (fun st p =>
        p.2.foldl
          (fun st ref_idx =>
            let seg := pySlice ref (ref_idx - (p.1 : Int)) (ref_idx - (p.1 : Int) + read_length)
            let score := banded_alignment mr mmp indp bw seg read
            if st.1 < score then (score, ref_idx, (p.1 : Int)) else st)
          st)
      ((⊥ : WithBot Int), (-1 : Int), (-1 : Int))
    let seg := pySlice ref (st.2.1 - st.2.2) (st.2.1 - st.2.2 + read_length)
    let w := BandedAlignmentWithBackTrack mr mmp indp bw seg read
    some (st.2.1, st.1, w.2.1, w.2.2)

/-! ### Partial suffix array (`partial_suffix_array`)

The Python dict is embedded as a function `Nat → Option Nat` built by the
source's loop `for idx in sa: if sa[idx] % k == 0: partial[idx] = sa[idx]`,
which uses the values drawn from `sa` as indices into `sa`. -/

/-- A Python dict assignment `d[key] = val` on a dict embedded as a function. -/
def fnUpdate (d : Nat → Option Nat) (key val : Nat) : Nat → Option Nat :=
  fun j => if j = key then some val else d j

def partial_suffix_array (sa : List Nat) (k : Nat) : Nat → Option Nat :=
  sa.foldl
    (fun d idx =>
      if sa.getD idx 0 % k = 0 then fnUpdate d idx (sa.getD idx 0) else d)
    (fun _ => none)

/-- The documented intended semantics of the partial suffix array (this
definition follows the spec's words, for the refinement claim C6): record
`i ↦ sa[i]` for each row `i < |sa|` with `sa[i] mod k = 0`. -/
def psaIntended (sa : List Nat) (k : Nat) : Nat → Option Nat := fun i =>
  if i < sa.length ∧ sa.getD i 0 % k = 0 then some (sa.getD i 0) else none

/-! ### Suffix array (`suffix_array`)

The source stores one record per suffix (`class suffix`), carrying its index
and a pair of ranks.  Python's `sorted` with key `(rank[0], rank[1])` is a
stable sort; any two stable sorts by the same key agree, and for this
algorithm even the stability is irrelevant to the final output (records with
equal keys receive equal ranks), so we embed it as insertion sort by the
lexicographic key order `ple`.  The `while (k < 2*len)` loop doubles `k`
starting from 4, so it performs finitely many iterations; we embed it with a
fuel parameter (`2*len` is far more than enough, and the loop body is only
taken under the source's own guard `k < 2*len`). -/

structure PySuffix where
  index : Nat
  rank0 : Int
  rank1 : Int
deriving DecidableEq, Repr

def sufDummy : PySuffix := ⟨0, 0, 0⟩

def get_rank (c : Char) : Int := (c.toNat : Int) - ('a'.toNat : Int)

/-- The sort key order: lexicographic on `(rank0, rank1)`. -/
def ple (x y : PySuffix) : Prop :=
  x.rank0 < y.rank0 ∨ (x.rank0 = y.rank0 ∧ x.rank1 ≤ y.rank1)

instance : DecidableRel ple := fun x y => by
  unfold ple; infer_instance

instance : IsTotal PySuffix ple :=
  ⟨fun x y => by unfold ple; omega⟩

instance : IsTrans PySuffix ple :=
  ⟨fun x y z hxy hyz => by unfold ple at *; omega⟩

/-- The initial records: suffix `i` with rank pair
`(ord(T[i]) - ord('a'), ord(T[i+1]) - ord('a'))`, second component −1 when
`i` is the last position. -/
def initSuffixes (text : List Char) : List PySuffix :=
  (List.range text.length).map (fun i =>
    { index := i, rank0 := get_rank (text.getD i '$'),
      rank1 := if i + 1 < text.length then get_rank (text.getD (i + 1) '$') else -1 })

/-- Rank reassignment (first inner loop of the `while`): walk the sorted
list; a record whose `(rank0, rank1)` pair equals the previous record's
original pair receives the same new rank, otherwise the rank increments.
`prevR0, prevR1` is the previous record's original pair, `cur` the rank it
received. -/
def rankPassAux (prevR0 prevR1 cur : Int) : List PySuffix → List PySuffix
  | [] => []
  | x :: xs =>
    if x.rank0 = prevR0 ∧ x.rank1 = prevR1 then
      { x with rank0 := cur } :: rankPassAux x.rank0 x.rank1 cur xs
    else
      { x with rank0 := cur + 1 } :: rankPassAux x.rank0 x.rank1 (cur + 1) xs

def rankPass : List PySuffix → List PySuffix
  | [] => []
  | x :: xs => { x with rank0 := 0 } :: rankPassAux x.rank0 x.rank1 0 xs

/-- A Python list assignment `ind[key] = val` on `ind` embedded as a function. -/
def natUpdate (f : Nat → Nat) (key val : Nat) : Nat → Nat :=
  fun j => if j = key then val else f j

/-- The assignments `ind[suffixes[i].index] = i` for `i = 0 … n−1` performed
during the rank-reassignment loop. -/
def indPass (ind : Nat → Nat) (ss : List PySuffix) : Nat → Nat :=
  (List.range ss.length).foldl (fun f p => natUpdate f (ss.getD p sufDummy).index p) ind

/-- Second inner loop: `rank[1] = suffixes[ind[index + k//2]].rank[0]` when
`index + k//2 < n`, else −1. -/
def rank1Pass (ss : List PySuffix) (ind : Nat → Nat) (half : Nat) : List PySuffix :=
  ss.map (fun x =>
    { x with rank1 :=
        if x.index + half < ss.length then (ss.getD (ind (x.index + half)) sufDummy).rank0
        else -1 })

def saLoopF (n : Nat) : Nat → List PySuffix → (Nat → Nat) → Nat → List PySuffix
  | 0, ss, _, _ => ss
  | fuel + 1, ss, ind, k =>
    if k < 2 * n then
      let ss1 := rankPass ss
      let ind1 := indPass ind ss1
      let ss2 := rank1Pass ss1 ind1 (k / 2)
      let ss3 := List.insertionSort ple ss2
      saLoopF n fuel ss3 ind1 (2 * k)
    else ss

def suffix_array (text : List Char) : List Nat :=
  let ss0 := List.insertionSort ple (initSuffixes text)
  (saLoopF text.length (2 * text.length) ss0 (fun _ => 0) 4).map PySuffix.index

/-- Strict lexicographic order on strings under code-point order, with a
proper prefix ordered before its extensions (Python's `<` on `str`). -/
def sufLt : List Char → List Char → Bool
  | [], [] => false
  | [], _ :: _ => true
  | _ :: _, [] => false
  | a :: as, b :: bs => if a < b then true else if b < a then false else sufLt as bs

/-- The width-`h` prefix of the suffix of `T` at offset `i`. -/
def pref (T : List Char) (h i : Nat) : List Char := (T.drop i).take h

/-- Lexicographic ≤ on width-`h` suffix prefixes. -/
def prefLeP (T : List Char) (h i j : Nat) : Prop :=
  sufLt (pref T h i) (pref T h j) = true ∨ pref T h i = pref T h j

/-- `T`'s last character occurs nowhere else in `T` (e.g. a terminal
sentinel).  This is the hypothesis under which the prefix-doubling
implementation is sound; see the C2 counterexample for its failure
otherwise. -/
def lastUnique (T : List Char) : Prop :=
  ∀ i, i < T.length - 1 → T.getD i '$' ≠ T.getD (T.length - 1) '$'

instance (T : List Char) : Decidable (lastUnique T) := by
  unfold lastUnique; infer_instance

/-! ### BWT and FM-index auxiliaries

Python dicts become functions into `Option`; the two functions that index a
fixed 256-entry array by `ord(char)` raise `IndexError` for characters with
code point ≥ 256, which is modelled by returning `none` for such inputs.
`bwt[idx-1]` uses Python's negative indexing for `idx = 0` (via `pyGet`). -/

def bwt_from_suffix_array (text : List Char) (sa : List Nat) : List Char :=
  sa.map (fun (idx : Nat) => pyGet text ((idx : Int) - 1))

/-- `compute_rank_arr`: one pass, appending the running count of the current
character (the `counts` dict is a function defaulting to 0). -/
def compute_rank_arr (bwt : List Char) : List Nat :=
  (bwt.foldl
    (fun (st : List Nat × (Char → Nat)) char =>
      let c := st.2 char + 1
      (st.1 ++ [c], fun d => if d = char then c else st.2 d))
    ([], fun _ => 0)).1

/-- `compute_first_occurrences`: `counts[ord(char)] += 1` raises for code
points ≥ 256 (`none`); otherwise every character of `bwt` is first keyed to
0, and the scan over codes 0…255 assigns each present character the number
of characters of smaller code. -/
def compute_first_occurrences (bwt : List Char) : Option (Char → Option Nat) :=
  if ∀ c ∈ bwt, c.toNat < 256 then
    let C0 : Char → Option Nat :=
      bwt.foldl (fun (C : Char → Option Nat) char =>
        fun d => if d = char then some 0 else C d) (fun _ => none)
    let counts : Nat → Nat :=
      bwt.foldl (fun (cnt : Nat → Nat) char =>
        fun i => if i = char.toNat then cnt i + 1 else cnt i) (fun _ => 0)
    some ((List.range 256).foldl
      (fun (st : (Char → Option Nat) × Nat) i =>
        if counts i ≠ 0 then
          ((fun d => if d = Char.ofNat i then some st.2 else st.1 d), st.2 + counts i)
        else (st.1, st.2 + counts i))
      (C0, 0)).1
  else none

/-- `compute_checkpoint_arrs`: snapshots of the 256-entry running count
array at every index divisible by 5 (`C = 5` in the source); code points
≥ 256 raise (`none`).  The snapshot maps a code point to its count. -/
def compute_checkpoint_arrs (bwt : List Char) : Option (Int → Option (Nat → Nat)) :=
  if ∀ c ∈ bwt, c.toNat < 256 then
    some ((List.range bwt.length).foldl
      (fun (st : (Int → Option (Nat → Nat)) × (Nat → Nat)) i =>
        let rank2 := fun d =>
          if d = (bwt.getD i '$').toNat then st.2 d + 1 else st.2 d
        if i % 5 = 0 then
          ((fun kk => if kk = (i : Int) then some rank2 else st.1 kk), rank2)
        else (st.1, rank2))
      ((fun _ => none), (fun _ => 0))).1
  else none

/-- `compute_rank` (the occurrence count `occ`): nearest checkpoint at
`idx - idx % C` (a missing key is a `KeyError`, `none`), then a linear
rescan up to and including `idx`.  `idx` is a Python int; `%` is Python's
(`Int.emod`), and `bwt[j]` uses Python indexing. -/
def compute_rank (bwt : List Char) (idx : Int) (ranks : Int → Option (Nat → Nat))
    (symbol : Char) (C : Int) : Option Nat :=
  let d := idx % C
  match ranks (idx - d) with
  | none => none
  | some chk =>
    some ((List.range d.toNat).foldl
      (fun (r : Nat) (o : Nat) =>
        if pyGet bwt (idx - d + 1 + (o : Int)) = symbol then r + 1 else r)
      (chk symbol.toNat))

/-- The loop of `bw_better_match_pattern`, processing the pattern from its
last character to its first (the list argument is the reversed pattern).
`top`/`bot` are Python ints; a failing `compute_rank` propagates as `none`. -/
def bwMatchLoop (bwt : List Char) (fo : Char → Option Nat)
    (ranks : Int → Option (Nat → Nat)) : List Char → Int → Int → Option (Int × Int)
  | [], top, bot => some (top, bot + 1)
  | symbol :: rest, top, bot =>
    match fo symbol with
    | none => some (0, 0)
    | some foc =>
      match compute_rank bwt top ranks symbol 5, compute_rank bwt bot ranks symbol 5 with
      | some top_rank, some bot_rank =>
        let marker := pyGet bwt top = symbol
        let top2 : Int := foc + top_rank - (if marker then 1 else 0)
        let bot2 : Int := foc + bot_rank - 1
        if bot2 - top2 < 0 then some (0, 0)
        else bwMatchLoop bwt fo ranks rest top2 bot2
      | _, _ => none

def bw_better_match_pattern (bwt : List Char) (pattern : List Char)
    (first_occurrences : Char → Option Nat) (ranks : Int → Option (Nat → Nat)) :
    Option (Int × Int) :=
  bwMatchLoop bwt first_occurrences ranks pattern.reverse 0 ((bwt.length : Int) - 1)

/-- The `while True` walk of `compute_idxes_from_top_bot`: repeatedly apply
the LF step `p ← C[bwt[p]] + rank[p] − 1` until the row is a key of the
partial suffix array; the move is made at least once.  The source loop has
no bound; the fuel parameter only serves totality, and the correctness
theorem shows `len(bwt) + 1` steps always suffice on real input (`p` stays
in `[0, len(bwt))` there, so plain `Nat` indexing is faithful). -/
def lfWalk (bwt : List Char) (occurrences : Char → Option Nat) (rank : List Nat)
    (partial_s_array : Nat → Option Nat) : Nat → Nat → Nat → Option (Nat × Nat)
  | 0, _, _ => none
  | fuel + 1, p, plus_count =>
    let predecessor := bwt.getD p '$'
    match occurrences predecessor with
    | none => none
    | some foc =>
      let p2 := foc + rank.getD p 0 - 1
      if (partial_s_array p2).isSome then some (p2, plus_count + 1)
      else lfWalk bwt occurrences rank partial_s_array fuel p2 (plus_count + 1)

def compute_idxes_from_top_bot (start stop : Int) (partial_s_array : Nat → Option Nat)
    (bwt : List Char) (rank : List Nat) (occurrences : Char → Option Nat) :
    Option (List Nat) :=
  ((List.range (stop - start).toNat).map (fun (o : Nat) => (start + (o : Int)).toNat)).mapM
    (fun i =>
      match lfWalk bwt occurrences rank partial_s_array (bwt.length + 1) i 0 with
      | none => none
      | some (p, plus_count) =>
        some (((partial_s_array p).getD 0 + plus_count) % bwt.length))

/-- `leadsWith w l`: `w` is an initial run of `l`. -/
def leadsWith : List Char → List Char → Bool
  | [], _ => true
  | _ :: _, [] => false
  | a :: as, b :: bs => a = b && leadsWith as bs

/-- The starting offsets of `w` in `text`, in increasing order. -/
def occList (w text : List Char) : List Nat :=
  (List.range (text.length + 1 - w.length)).filter (fun i => leadsWith w (text.drop i))

/-- The row of the suffix array holding suffix `v` (proof layer). -/
def rowOf (sa : List Nat) (v : Nat) : Nat := sa.indexOf v

/-- First column of the sorted rotation matrix: the first character of the
suffix in row `r` (proof layer). -/
def fcol (T : List Char) (sa : List Nat) (r : Nat) : Char := T.getD (sa.getD r 0) '$'

/-- Occurrences of `c` among the first `m` characters of `l` (proof layer). -/
def cntOcc (l : List Char) (c : Char) (m : Nat) : Nat :=
  (l.take m).countP (fun d => decide (d = c))

/-- Number of characters of `l` smaller than `c` (proof layer). -/
def cntLt (l : List Char) (c : Char) : Nat := l.countP (fun d => decide (d < c))

/-- Row `r`'s suffix starts with the word `w` (proof layer). -/
def matchRow (T : List Char) (sa : List Nat) (w : List Char) (r : Nat) : Bool :=
  leadsWith w (T.drop (sa.getD r 0))

/-- The code-point scan of `compute_first_occurrences`, as a function of the
number of codes processed (proof layer; `foScan cnt C0 256` is the fold the
source performs). -/
def foScan (cnt : Nat → Nat) (C0 : Char → Option Nat) (m : Nat) :
    (Char → Option Nat) × Nat :=
  (List.range m).foldl
    (fun (st : (Char → Option Nat) × Nat) i =>
      if cnt i ≠ 0 then
        ((fun d => if d = Char.ofNat i then some st.2 else st.1 d), st.2 + cnt i)
      else (st.1, st.2 + cnt i))
    (C0, 0)

/-- The index scan of `compute_checkpoint_arrs`, as a function of the number
of BWT positions processed (proof layer). -/
def cpsScan (L : List Char) (m : Nat) : (Int → Option (Nat → Nat)) × (Nat → Nat) :=
  (List.range m).foldl
    (fun (st : (Int → Option (Nat → Nat)) × (Nat → Nat)) i =>
      let rank2 := fun d =>
        if d = (L.getD i '$').toNat then st.2 d + 1 else st.2 d
      if i % 5 = 0 then
        ((fun kk => if kk = (i : Int) then some rank2 else st.1 kk), rank2)
      else (st.1, rank2))
    ((fun _ => none), (fun _ => 0))

/-- The last-to-first map on rows: the row holding the suffix that starts
one position to the left (cyclically) of row `q`'s suffix (proof layer). -/
def lfRow (T : List Char) (sa : List Nat) (q : Nat) : Nat :=
  rowOf sa ((sa.getD q 0 + T.length - 1) % T.length)

/-- Recursive model of the `compute_rank_arr` fold, relative to the running
counts `cnt` (proof layer). -/
def rankArrFrom (cnt : Char → Nat) : List Char → List Nat
  | [] => []
  | c :: tl => (cnt c + 1) :: rankArrFrom (fun d => if d = c then cnt c + 1 else cnt d) tl

/-! Proof-layer definitions for the suffix-array development. -/

/-- The new rank a record at position `p` receives in `rankPassAux`, given
the previous record's original pair and the running rank. -/
def newRank (pr0 pr1 cur : Int) : List PySuffix → Nat → Int
  | [], _ => cur
  | x :: _, 0 => if x.rank0 = pr0 ∧ x.rank1 = pr1 then cur else cur + 1
  | x :: xs, p + 1 =>
      newRank x.rank0 x.rank1 (if x.rank0 = pr0 ∧ x.rank1 = pr1 then cur else cur + 1) xs p

/-- The new rank of position `p` after `rankPass`. -/
def newRank0 : List PySuffix → Nat → Int
  | [], _ => 0
  | _ :: _, 0 => 0
  | x :: xs, p + 1 => newRank x.rank0 x.rank1 0 xs p

/-- The rank pair stored at position `p`. -/
def posPair (ss : List PySuffix) (p : Nat) : Int × Int :=
  ((ss.getD p sufDummy).rank0, (ss.getD p sufDummy).rank1)

/-- Invariant tying the rank pairs of the records to the width-`h` prefixes
of the suffixes they denote: the sort key order agrees with the prefix
order. -/
def Reflect (T : List Char) (h : Nat) (ss : List PySuffix) : Prop :=
  ∀ x ∈ ss, ∀ y ∈ ss, (ple x y ↔ prefLeP T h x.index y.index)

/-! ## Theorems -/

/-! ### CIGAR lemmas -/

theorem runTotal_append (a b : List (Nat × Char)) :
    runTotal (a ++ b) = runTotal a + runTotal b := by
  induction a with
  | nil => simp [runTotal]
  | cons p l ih => simp [runTotal, ih]; omega

theorem opSum_append (c1 c2 : Char) (a b : List (Nat × Char)) :
    opSum c1 c2 (a ++ b) = opSum c1 c2 a + opSum c1 c2 b := by
  induction a with
  | nil => simp [opSum]
  | cons p l ih => simp [opSum, ih]; omega

theorem stripLen_nil : stripLen [] = 0 := rfl

theorem stripLen_cons (c : Char) (l : List Char) :
    stripLen (c :: l) = (if c = '-' then 0 else 1) + stripLen l := by
  by_cases h : c = '-' <;> simp [stripLen, List.filter_cons, h] <;> omega

/-- The combined "done plus pending" measure for total run length. -/
def cigTotal (st : List (Nat × Char) × Nat × Nat × Nat) : Nat :=
  runTotal st.1 + st.2.1 + st.2.2.1 + st.2.2.2

/-- The combined measure for M and D runs. -/
def cigMD (st : List (Nat × Char) × Nat × Nat × Nat) : Nat :=
  opSum 'M' 'D' st.1 + st.2.1 + st.2.2.2

/-- The combined measure for M and I runs. -/
def cigMI (st : List (Nat × Char) × Nat × Nat × Nat) : Nat :=
  opSum 'M' 'I' st.1 + st.2.1 + st.2.2.1

theorem cigTotal_flush (st : List (Nat × Char) × Nat × Nat × Nat) :
    runTotal (cigarFlush st) = cigTotal st := by
  unfold cigarFlush cigTotal
  simp only [runTotal_append]
  split_ifs <;> simp [runTotal] <;> omega

theorem cigMD_flush (st : List (Nat × Char) × Nat × Nat × Nat) :
    opSum 'M' 'D' (cigarFlush st) = cigMD st := by
  unfold cigarFlush cigMD
  simp only [opSum_append]
  split_ifs <;> simp [opSum] <;> omega

theorem cigMI_flush (st : List (Nat × Char) × Nat × Nat × Nat) :
    opSum 'M' 'I' (cigarFlush st) = cigMI st := by
  unfold cigarFlush cigMI
  simp only [opSum_append]
  split_ifs <;> simp [opSum] <;> omega

theorem cigTotal_step (st : List (Nat × Char) × Nat × Nat × Nat) (col : Char × Char) :
    cigTotal (cigarStep st col) = cigTotal st + 1 := by
  unfold cigarStep cigTotal
  split_ifs <;> simp [runTotal_append, runTotal] <;> split_ifs <;> simp [runTotal] <;> omega

theorem cigMD_step (st : List (Nat × Char) × Nat × Nat × Nat) (col : Char × Char)
    (hcol : ¬(col.1 = '-' ∧ col.2 = '-')) :
    cigMD (cigarStep st col) = cigMD st + (if col.2 = '-' then 0 else 1) := by
  unfold cigarStep cigMD
  split_ifs <;> simp_all [opSum_append, opSum] <;> split_ifs <;> simp_all [opSum] <;> omega

theorem cigMI_step (st : List (Nat × Char) × Nat × Nat × Nat) (col : Char × Char)
    (hcol : ¬(col.1 = '-' ∧ col.2 = '-')) :
    cigMI (cigarStep st col) = cigMI st + (if col.1 = '-' then 0 else 1) := by
  unfold cigarStep cigMI
  split_ifs <;> simp_all [opSum_append, opSum] <;> split_ifs <;> simp_all [opSum] <;> omega

theorem cigTotal_foldl (cs : List (Char × Char)) :
    ∀ st, cigTotal (cs.foldl cigarStep st) = cigTotal st + cs.length := by
  induction cs with
  | nil => intro st; simp
  | cons col cs ih =>
    intro st
    simp only [List.foldl_cons, ih, cigTotal_step, List.length_cons]
    omega

theorem cigMD_foldl (cs : List (Char × Char)) :
    ∀ st, (∀ p ∈ cs, ¬(p.1 = '-' ∧ p.2 = '-')) →
      cigMD (cs.foldl cigarStep st) = cigMD st + stripLen (cs.map Prod.snd) := by
  induction cs with
  | nil => intro st _; simp [stripLen_nil]
  | cons col cs ih =>
    intro st h
    have h1 := h col (List.mem_cons_self _ _)
    have h2 : ∀ p ∈ cs, ¬(p.1 = '-' ∧ p.2 = '-') := fun p hp => h p (List.mem_cons_of_mem _ hp)
    simp only [List.foldl_cons, ih _ h2, cigMD_step st col h1, List.map_cons, stripLen_cons]
    by_cases hc : col.2 = '-' <;> simp [hc] <;> omega

theorem cigMI_foldl (cs : List (Char × Char)) :
    ∀ st, (∀ p ∈ cs, ¬(p.1 = '-' ∧ p.2 = '-')) →
      cigMI (cs.foldl cigarStep st) = cigMI st + stripLen (cs.map Prod.fst) := by
  induction cs with
  | nil => intro st _; simp [stripLen_nil]
  | cons col cs ih =>
    intro st h
    have h1 := h col (List.mem_cons_self _ _)
    have h2 : ∀ p ∈ cs, ¬(p.1 = '-' ∧ p.2 = '-') := fun p hp => h p (List.mem_cons_of_mem _ hp)
    simp only [List.foldl_cons, ih _ h2, cigMI_step st col h1, List.map_cons, stripLen_cons]
    by_cases hc : col.1 = '-' <;> simp [hc] <;> omega

/-- C8 counterexample: with `alignment_s = "-A"` and `alignment_t = "AA"`
(equal length, no doubly-gapped column) the CIGAR is `1D1M`, whose M and D
run lengths sum to 2, while `alignment_s` stripped of gaps has length 1.
The M+D sum matches the *other* string, refuting the claim as stated. -/
theorem C8_counterexample :
    (['-', 'A'] : List Char).length = (['A', 'A'] : List Char).length ∧
    (∀ p ∈ (['-', 'A'] : List Char).zip (['A', 'A'] : List Char),
      ¬(p.1 = '-' ∧ p.2 = '-')) ∧
    ¬(opSum 'M' 'D' (cigarRuns ['-', 'A'] ['A', 'A']) = stripLen ['-', 'A']) := by
  decide

/-- C8 (amended): for equal-length gapped strings with no doubly-gapped
column, the CIGAR run lengths sum to the common length; the M and D runs sum
to the gap-stripped length of `alignment_t`; and the M and I runs sum to the
gap-stripped length of `alignment_s` (D consumes the second string, I the
first: the converse of the claim's attribution). -/
theorem C8_theorem (as ts : List Char) (hlen : as.length = ts.length)
    (hgap : ∀ p ∈ as.zip ts, ¬(p.1 = '-' ∧ p.2 = '-')) :
    runTotal (cigarRuns as ts) = as.length ∧
    opSum 'M' 'D' (cigarRuns as ts) = stripLen ts ∧
    opSum 'M' 'I' (cigarRuns as ts) = stripLen as := by
  have hsnd : (as.zip ts).map Prod.snd = ts :=
    List.map_snd_zip as ts (le_of_eq hlen.symm)
  have hfst : (as.zip ts).map Prod.fst = as :=
    List.map_fst_zip as ts (le_of_eq hlen)
  refine ⟨?_, ?_, ?_⟩
  · have h := cigTotal_foldl (as.zip ts) ([], 0, 0, 0)
    have hl : (as.zip ts).length = as.length := by
      rw [List.length_zip as ts, hlen, min_self]
    rw [cigarRuns, cigTotal_flush, h, hl]
    simp [cigTotal, runTotal]
  · have h := cigMD_foldl (as.zip ts) ([], 0, 0, 0) hgap
    rw [cigarRuns, cigMD_flush, h, hsnd]
    simp [cigMD, opSum]
  · have h := cigMI_foldl (as.zip ts) ([], 0, 0, 0) hgap
    rw [cigarRuns, cigMI_flush, h, hfst]
    simp [cigMI, opSum]

/-- Witness for C8 at `alignment_s = "A-"`, `alignment_t = "AA"`. -/
theorem C8_witness :
    runTotal (cigarRuns ['A', '-'] ['A', 'A']) = (['A', '-'] : List Char).length ∧
    opSum 'M' 'D' (cigarRuns ['A', '-'] ['A', 'A']) = stripLen ['A', 'A'] ∧
    opSum 'M' 'I' (cigarRuns ['A', '-'] ['A', 'A']) = stripLen ['A', '-'] :=
  C8_theorem ['A', '-'] ['A', 'A'] (by decide) (by decide)

/-- Zipping commutes with simultaneous truncation. -/
theorem take_zip_take {α β : Type} :
    ∀ (n : Nat) (a : List α) (b : List β), (a.take n).zip (b.take n) = (a.zip b).take n := by
  intro n
  induction n with
  | zero => intro a b; simp
  | succ n ih =>
    intro a b
    cases a with
    | nil => simp
    | cons x xs =>
      cases b with
      | nil => simp
      | cons y ys => simp [List.take_succ_cons, List.zip_cons_cons, ih]

/-- C10: `calculate_cigar` is total and only reads the common prefix of its
two arguments: truncating both inputs to the shorter length leaves the
output unchanged (the source iterates over `zip`, which truncates). -/
theorem C10_theorem (a b : List Char) :
    calculate_cigar a b =
      calculate_cigar (a.take (min a.length b.length)) (b.take (min a.length b.length)) := by
  have hz : (a.take (min a.length b.length)).zip (b.take (min a.length b.length)) = a.zip b := by
    rw [take_zip_take]
    exact List.take_of_length_le (le_of_eq (List.length_zip a b))
  rw [calculate_cigar, calculate_cigar, cigarRuns, cigarRuns, hz]

theorem fnUpdate_ne (d : Nat → Option Nat) (key val j : Nat) (h : j ≠ key) :
    fnUpdate d key val j = d j := by
  rw [fnUpdate, if_neg h]

theorem fnUpdate_self (d : Nat → Option Nat) (key val : Nat) :
    fnUpdate d key val key = some val := by
  rw [fnUpdate, if_pos rfl]

/-- The value of the dict built by `partial_suffix_array`'s loop at key `j`,
when the keys drawn from the iteration list are distinct. -/
theorem psa_foldl_lookup (sa : List Nat) (k : Nat) :
    ∀ (l : List Nat), l.Nodup → ∀ (d : Nat → Option Nat) (j : Nat),
      (l.foldl
        (fun d idx =>
          if sa.getD idx 0 % k = 0 then fnUpdate d idx (sa.getD idx 0) else d)
        d) j
      = if j ∈ l ∧ sa.getD j 0 % k = 0 then some (sa.getD j 0) else d j := by
  intro l
  induction l with
  | nil => intro _ d j; simp
  | cons hd tl ih =>
    intro hnd d j
    have hndtl : tl.Nodup := (List.nodup_cons.mp hnd).2
    rw [List.foldl_cons, ih hndtl]
    by_cases hcj : sa.getD j 0 % k = 0
    · by_cases hmem : j ∈ tl
      · have h1 : j ∈ tl ∧ sa.getD j 0 % k = 0 := ⟨hmem, hcj⟩
        have h2 : j ∈ hd :: tl ∧ sa.getD j 0 % k = 0 := ⟨List.mem_cons_of_mem _ hmem, hcj⟩
        rw [if_pos h1, if_pos h2]
      · have h1 : ¬(j ∈ tl ∧ sa.getD j 0 % k = 0) := fun h => hmem h.1
        rw [if_neg h1]
        by_cases hj : j = hd
        · subst hj
          have h2 : j ∈ j :: tl ∧ sa.getD j 0 % k = 0 := ⟨List.mem_cons_self j tl, hcj⟩
          rw [if_pos h2, if_pos hcj, fnUpdate_self]
        · have h2 : ¬(j ∈ hd :: tl ∧ sa.getD j 0 % k = 0) :=
            fun h => (List.mem_cons.mp h.1).elim hj hmem
          rw [if_neg h2]
          by_cases hchd : sa.getD hd 0 % k = 0
          · rw [if_pos hchd, fnUpdate_ne _ _ _ _ hj]
          · rw [if_neg hchd]
    · have h1 : ¬(j ∈ tl ∧ sa.getD j 0 % k = 0) := fun h => hcj h.2
      have h2 : ¬(j ∈ hd :: tl ∧ sa.getD j 0 % k = 0) := fun h => hcj h.2
      rw [if_neg h1, if_neg h2]
      by_cases hchd : sa.getD hd 0 % k = 0
      · have hj : j ≠ hd := fun he => hcj (he ▸ hchd)
        rw [if_pos hchd, fnUpdate_ne _ _ _ _ hj]
      · rw [if_neg hchd]

theorem psa_spec (sa : List Nat) (k : Nat)
    (hperm : sa.Perm (List.range sa.length)) (hk : 1 ≤ k) :
    partial_suffix_array sa k = psaIntended sa k := by
  funext j
  have hnd : sa.Nodup := hperm.nodup_iff.mpr (List.nodup_range _)
  have hmem : j ∈ sa ↔ j < sa.length := by
    rw [hperm.mem_iff, List.mem_range]
  rw [partial_suffix_array, psa_foldl_lookup sa k sa hnd, psaIntended]
  by_cases h1 : j < sa.length <;> by_cases h2 : sa.getD j 0 % k = 0 <;>
    simp [hmem, h1, h2]

/-- C6: when `sa` is a permutation of `[0, n)`, the idiosyncratic loop of
`partial_suffix_array` (which uses values of `sa` as indices into `sa`)
computes exactly the documented mapping `i ↦ sa[i]` for rows with
`sa[i] mod k = 0`. -/
theorem C6_theorem (sa : List Nat) (k : Nat)
    (hperm : sa.Perm (List.range sa.length)) (hk : 1 ≤ k) :
    partial_suffix_array sa k = psaIntended sa k :=
  psa_spec sa k hperm hk

/-- Witness for C6 at `sa = [2, 0, 1]`, `k = 2`. -/
theorem C6_witness : partial_suffix_array [2, 0, 1] 2 = psaIntended [2, 0, 1] 2 :=
  C6_theorem [2, 0, 1] 2 (by decide) (by decide)

/-! ### Banded score versus backtrace score (C5) -/

theorem bandedRowAux_le (mr mmp indp bp : Int) (s t : List Char)
    (prev prev' : Nat → WithBot Int) (i : Nat) (h : ∀ j, prev j ≤ prev' j) :
    ∀ j, bandedRowAux mr mmp indp bp s t prev i j ≤ wbtRowAux mr mmp indp bp s t prev' i j := by
  intro j
  induction j with
  | zero =>
    rw [bandedRowAux, wbtRowAux]
    by_cases h0 : ((((0 : Int) - (i : Int)).natAbs : Int) < bp)
    · rw [if_pos h0]
    · rw [if_neg h0]; exact bot_le
  | succ j ih =>
    rw [bandedRowAux, wbtRowAux]
    by_cases hb : (((((j : Int) + 1) - (i : Int)).natAbs : Int) < bp)
    · rw [if_pos hb, if_pos hb]
      exact max_le_max
        (max_le_max (add_le_add_right (h (j + 1)) _) (add_le_add_right ih _))
        (add_le_add_right (h j) _)
    · rw [if_neg hb, if_neg hb]

theorem bandedCell_le_wbtCell (mr mmp indp bp : Int) (s t : List Char) :
    ∀ i j, bandedCell mr mmp indp bp s t i j ≤ wbtCell mr mmp indp bp s t i j := by
  intro i
  induction i with
  | zero =>
    intro j
    simp only [bandedCell, wbtCell]
    by_cases h0 : j = 0
    · subst h0; simp
    · rw [if_neg h0]
      by_cases hb : ((j : Int) < bp)
      · rw [if_pos hb]
      · rw [if_neg hb]; exact bot_le
  | succ i ih =>
    intro j
    rw [bandedCell, wbtCell]
    exact bandedRowAux_le mr mmp indp bp s t _ _ (i + 1) ih j

theorem bandedRowAux_eq (mr mmp indp bp : Int) (s t : List Char)
    (prev prev' : Nat → WithBot Int) (i : Nat)
    (hsl : (s.length : Int) < bp) (htl : (t.length : Int) < bp) (hi : i ≤ s.length)
    (h : ∀ j, j ≤ t.length → prev j = prev' j) :
    ∀ j, j ≤ t.length →
      bandedRowAux mr mmp indp bp s t prev i j = wbtRowAux mr mmp indp bp s t prev' i j := by
  intro j
  induction j with
  | zero =>
    intro _
    have hb : ((((0 : Int) - (i : Int)).natAbs : Int) < bp) := by
      have : i ≤ s.length := hi
      omega
    rw [bandedRowAux, wbtRowAux, if_pos hb]
  | succ j ih =>
    intro hj
    have hb : (((((j : Int) + 1) - (i : Int)).natAbs : Int) < bp) := by
      have h1 : i ≤ s.length := hi
      have h2 : j + 1 ≤ t.length := hj
      omega
    rw [bandedRowAux, wbtRowAux, if_pos hb, if_pos hb,
      h (j + 1) hj, h j (Nat.le_of_succ_le hj), ih (Nat.le_of_succ_le hj)]

theorem bandedCell_eq_wbtCell (mr mmp indp bp : Int) (s t : List Char)
    (hsl : (s.length : Int) < bp) (htl : (t.length : Int) < bp) :
    ∀ i, i ≤ s.length → ∀ j, j ≤ t.length →
      bandedCell mr mmp indp bp s t i j = wbtCell mr mmp indp bp s t i j := by
  intro i
  induction i with
  | zero =>
    intro _ j hj
    simp only [bandedCell, wbtCell]
    by_cases h0 : j = 0
    · subst h0; simp
    · have hb : ((j : Int) < bp) := by
        have : j ≤ t.length := hj
        omega
      rw [if_neg h0, if_pos hb]
  | succ i ih =>
    intro hi j hj
    rw [bandedCell, wbtCell]
    exact bandedRowAux_eq mr mmp indp bp s t _ _ (i + 1) hsl htl hi
      (fun j' hj' => ih (Nat.le_of_succ_le hi) j' hj') j hj

/-- C5 counterexample: with `mr=1, mmp=3, indp=1, band=1`, `s="a"`, `t="b"`,
the scan engine `banded_alignment` returns −3 while the backtrace engine
scores −2: the two engines do not agree (the backtrace engine fills the
whole border, ignoring the band). -/
theorem C5_counterexample :
    banded_alignment 1 3 1 1 ['a'] ['b'] ≠
      (BandedAlignmentWithBackTrack 1 3 1 1 ['a'] ['b']).1 := by
  decide

/-- C5 (amended): the scan score is always a lower bound for the score
component of the backtrace engine, and the two agree whenever the band is
wider than both inputs; they can differ otherwise (see the counterexample),
so the driver's reported best score need not equal the score of the
recovered alignment. -/
theorem C5_theorem (mr mmp indp bp : Int) (s t : List Char)
    (hmr : 0 ≤ mr) (hmmp : 0 ≤ mmp) (hindp : 0 ≤ indp) (hbp : 1 ≤ bp) :
    banded_alignment mr mmp indp bp s t ≤
        (BandedAlignmentWithBackTrack mr mmp indp bp s t).1 ∧
    ((s.length : Int) < bp → (t.length : Int) < bp →
      banded_alignment mr mmp indp bp s t =
        (BandedAlignmentWithBackTrack mr mmp indp bp s t).1) := by
  constructor
  · exact bandedCell_le_wbtCell mr mmp indp bp s t s.length t.length
  · intro hsl htl
    exact bandedCell_eq_wbtCell mr mmp indp bp s t hsl htl s.length le_rfl t.length le_rfl

/-- Witness for C5 at `mr=mmp=indp=1`, `band=5`, `s="ab"`, `t="b"`. -/
theorem C5_witness :
    banded_alignment 1 1 1 5 ['a', 'b'] ['b'] ≤
        (BandedAlignmentWithBackTrack 1 1 1 5 ['a', 'b'] ['b']).1 ∧
    (((['a', 'b'] : List Char).length : Int) < 5 →
      ((['b'] : List Char).length : Int) < 5 →
      banded_alignment 1 1 1 5 ['a', 'b'] ['b'] =
        (BandedAlignmentWithBackTrack 1 1 1 5 ['a', 'b'] ['b']).1) :=
  C5_theorem 1 1 1 5 ['a', 'b'] ['b'] (by decide) (by decide) (by decide) (by decide)

/-! ### Backtrace structure (C7, C9) -/

theorem filter_replicate_gap (n : Nat) :
    (List.replicate n '-').filter (fun c => c ≠ '-') = [] := by
  induction n with
  | zero => rfl
  | succ n ih => simp [List.replicate, List.filter_cons, ih]

theorem take_succ_getD (l : List Char) (n : Nat) (h : n < l.length) :
    l.take (n + 1) = l.take n ++ [l.getD n '$'] := by
  rw [List.take_succ]
  congr 1
  rw [List.getElem?_eq_getElem h]
  simp [List.getD, List.getElem?_eq_getElem h]

theorem getD_ne_gap (l : List Char) (n : Nat) (h : n < l.length)
    (hl : ∀ c ∈ l, c ≠ '-') : l.getD n '$' ≠ '-' := by
  apply hl
  rw [List.getD_eq_getElem l '$' h]
  exact List.getElem_mem h

theorem btRowAux_spec (b : Nat → Nat → Option Ptr) (s t : List Char) (bp : Int)
    (hs : ∀ c ∈ s, c ≠ '-') (ht : ∀ c ∈ t, c ≠ '-')
    (prev : Nat → List Char × List Char) (i : Nat) (hi : i + 1 ≤ s.length)
    (hprev : ∀ j, j ≤ t.length →
      (prev j).1.length = (prev j).2.length ∧
      (prev j).1.filter (fun c => c ≠ '-') = s.take i ∧
      (prev j).2.filter (fun c => c ≠ '-') = t.take j) :
    ∀ j, j ≤ t.length →
      (btRowAux b s t bp prev (i + 1) j).1.length =
        (btRowAux b s t bp prev (i + 1) j).2.length ∧
      (btRowAux b s t bp prev (i + 1) j).1.filter (fun c => c ≠ '-') = s.take (i + 1) ∧
      (btRowAux b s t bp prev (i + 1) j).2.filter (fun c => c ≠ '-') = t.take j := by
  have hsi : s.getD i '$' ≠ '-' := getD_ne_gap s i (by omega) hs
  intro j
  induction j with
  | zero =>
    intro _
    rw [btRowAux]
    refine ⟨?_, ?_, ?_⟩
    · simp [List.length_take, List.length_replicate]; omega
    · exact List.filter_eq_self.mpr
        (fun c hc => by simpa using hs c (List.mem_of_mem_take hc))
    · simp [filter_replicate_gap]
  | succ j ih =>
    intro hj
    have hjt : j < t.length := by omega
    have htj : t.getD j '$' ≠ '-' := getD_ne_gap t j hjt ht
    have hp1 := hprev (j + 1) hj
    have hpj := hprev j (by omega)
    have ihj := ih (by omega)
    rw [btRowAux]
    split_ifs with h1 h2
    · refine ⟨?_, ?_, ?_⟩
      · simp [hp1.1]
      · rw [List.filter_append, hp1.2.1]
        simp only [Nat.add_sub_cancel]
        rw [List.filter_cons, if_pos (by simpa using hsi), List.filter_nil,
          take_succ_getD s i (by omega)]
      · rw [List.filter_append, hp1.2.2]
        simp [List.filter_cons]
    · refine ⟨?_, ?_, ?_⟩
      · simp [ihj.1]
      · rw [List.filter_append, ihj.2.1]
        simp [List.filter_cons]
      · rw [List.filter_append, ihj.2.2]
        rw [List.filter_cons, if_pos (by simpa using htj), List.filter_nil,
          take_succ_getD t j hjt]
    · refine ⟨?_, ?_, ?_⟩
      · simp [hpj.1]
      · rw [List.filter_append, hpj.2.1]
        simp only [Nat.add_sub_cancel]
        rw [List.filter_cons, if_pos (by simpa using hsi), List.filter_nil,
          take_succ_getD s i (by omega)]
      · rw [List.filter_append, hpj.2.2]
        rw [List.filter_cons, if_pos (by simpa using htj), List.filter_nil,
          take_succ_getD t j hjt]

theorem btCell_spec (b : Nat → Nat → Option Ptr) (s t : List Char) (bp : Int)
    (hs : ∀ c ∈ s, c ≠ '-') (ht : ∀ c ∈ t, c ≠ '-') :
    ∀ i, i ≤ s.length → ∀ j, j ≤ t.length →
      (btCell b s t bp i j).1.length = (btCell b s t bp i j).2.length ∧
      (btCell b s t bp i j).1.filter (fun c => c ≠ '-') = s.take i ∧
      (btCell b s t bp i j).2.filter (fun c => c ≠ '-') = t.take j := by
  intro i
  induction i with
  | zero =>
    intro _ j hj
    simp only [btCell]
    by_cases h0 : j = 0
    · subst h0; simp
    · rw [if_neg h0]
      refine ⟨?_, ?_, ?_⟩
      · simp [List.length_take, List.length_replicate]; omega
      · simp [filter_replicate_gap]
      · exact List.filter_eq_self.mpr
          (fun c hc => by simpa using ht c (List.mem_of_mem_take hc))
  | succ i ih =>
    intro hi j hj
    rw [btCell]
    exact btRowAux_spec b s t bp hs ht _ i hi
      (fun j' hj' => ih (by omega) j' hj') j hj

/-- C7 counterexample: for `s = "-"` (a string containing the gap symbol)
and `t = ""`, the backtrace returns aligned strings `("-", "-")`, and
stripping `'-'` from the first aligned string yields `""`, not `s`. -/
theorem C7_counterexample :
    (BandedAlignmentWithBackTrack 1 1 1 1 ['-'] []).2.1.filter (fun c => c ≠ '-') ≠
      ['-'] := by
  decide

/-- C7 (amended): for gap-free inputs `s` and `t` (no `'-'` character, as is
the case for the biological alphabet), the two aligned strings returned by
`BandedAlignmentWithBackTrack` have equal length, and stripping `'-'` from
the first yields `s` exactly, from the second `t` exactly.  For inputs that
themselves contain `'-'` this fails (see the counterexample). -/
theorem C7_theorem (mr mmp indp bp : Int) (s t : List Char) (hbp : 1 ≤ bp)
    (hs : '-' ∉ s) (ht : '-' ∉ t) :
    (BandedAlignmentWithBackTrack mr mmp indp bp s t).2.1.length =
      (BandedAlignmentWithBackTrack mr mmp indp bp s t).2.2.length ∧
    (BandedAlignmentWithBackTrack mr mmp indp bp s t).2.1.filter (fun c => c ≠ '-') = s ∧
    (BandedAlignmentWithBackTrack mr mmp indp bp s t).2.2.filter (fun c => c ≠ '-') = t := by
  have hs' : ∀ c ∈ s, c ≠ '-' := fun c hc he => hs (he ▸ hc)
  have ht' : ∀ c ∈ t, c ≠ '-' := fun c hc he => ht (he ▸ hc)
  have h := btCell_spec (bPtr mr mmp indp bp s t) s t bp hs' ht'
    s.length le_rfl t.length le_rfl
  simpa [BandedAlignmentWithBackTrack, List.take_length] using h

/-- Witness for C7 at `mr=mmp=indp=band=1`, `s="ab"`, `t="a"`. -/
theorem C7_witness :
    (BandedAlignmentWithBackTrack 1 1 1 1 ['a', 'b'] ['a']).2.1.length =
      (BandedAlignmentWithBackTrack 1 1 1 1 ['a', 'b'] ['a']).2.2.length ∧
    (BandedAlignmentWithBackTrack 1 1 1 1 ['a', 'b'] ['a']).2.1.filter
      (fun c => c ≠ '-') = ['a', 'b'] ∧
    (BandedAlignmentWithBackTrack 1 1 1 1 ['a', 'b'] ['a']).2.2.filter
      (fun c => c ≠ '-') = ['a'] :=
  C7_theorem 1 1 1 1 ['a', 'b'] ['a'] (by decide) (by decide) (by decide)

/-- C9 counterexample: with `band=1`, `s="a"`, `t="bbb"`, the target cell
`H[1][3]` is `-inf`, yet the function returns `(-inf, "--a", "bbb")` — the
sentinel score together with non-empty aligned strings, not `(-inf, "", "")`. -/
theorem C9_counterexample :
    wbtCell 1 1 1 1 ['a'] ['b', 'b', 'b']
        (['a'] : List Char).length (['b', 'b', 'b'] : List Char).length = ⊥ ∧
    BandedAlignmentWithBackTrack 1 1 1 1 ['a'] ['b', 'b', 'b'] ≠ (⊥, [], []) := by
  decide

/-- C9 (amended): when the target cell of the score matrix is `-inf`, the
function returns `-inf` as the score, but the aligned strings are still the
full backtrace output — for gap-free `s`, `t` they strip to `s` and `t`, so
they are empty only when `s` and `t` are empty. -/
theorem C9_theorem (mr mmp indp bp : Int) (s t : List Char)
    (hbot : wbtCell mr mmp indp bp s t s.length t.length = ⊥)
    (hs : '-' ∉ s) (ht : '-' ∉ t) :
    (BandedAlignmentWithBackTrack mr mmp indp bp s t).1 = ⊥ ∧
    (BandedAlignmentWithBackTrack mr mmp indp bp s t).2.1.filter (fun c => c ≠ '-') = s ∧
    (BandedAlignmentWithBackTrack mr mmp indp bp s t).2.2.filter (fun c => c ≠ '-') = t := by
  have hs' : ∀ c ∈ s, c ≠ '-' := fun c hc he => hs (he ▸ hc)
  have ht' : ∀ c ∈ t, c ≠ '-' := fun c hc he => ht (he ▸ hc)
  have h := btCell_spec (bPtr mr mmp indp bp s t) s t bp hs' ht'
    s.length le_rfl t.length le_rfl
  refine ⟨hbot, ?_, ?_⟩
  · simpa [BandedAlignmentWithBackTrack, List.take_length] using h.2.1
  · simpa [BandedAlignmentWithBackTrack, List.take_length] using h.2.2

/-- Witness for C9 at `mr=mmp=indp=band=1`, `s="a"`, `t="bbb"`. -/
theorem C9_witness :
    (BandedAlignmentWithBackTrack 1 1 1 1 ['a'] ['b', 'b', 'b']).1 = ⊥ ∧
    (BandedAlignmentWithBackTrack 1 1 1 1 ['a'] ['b', 'b', 'b']).2.1.filter
      (fun c => c ≠ '-') = ['a'] ∧
    (BandedAlignmentWithBackTrack 1 1 1 1 ['a'] ['b', 'b', 'b']).2.2.filter
      (fun c => c ≠ '-') = ['b', 'b', 'b'] :=
  C9_theorem 1 1 1 1 ['a'] ['b', 'b', 'b'] (by decide) (by decide) (by decide)

/-! ### Seed-extension driver (C3, C4) -/

/-- C3: on a non-empty seed list whose per-offset lists are all empty, the
driver does not return the `None` sentinel: it returns a tuple with
position −1, score −inf, and an alignment of `ref[0:read_length]` against
the read.  Only a seed list that is itself empty yields `None`. -/
theorem C3_theorem :
    compute_max_seed ['A', 'A', 'A', 'A'] ['G', 'G', 'G', 'G'] [[], [], []] 1 1 1 1 4 =
      some (-1, ⊥, ['A', 'A', 'A', 'A'], ['G', 'G', 'G', 'G']) ∧
    compute_max_seed ['A', 'A', 'A', 'A'] ['G', 'G', 'G', 'G'] [] 1 1 1 1 4 = none := by
  decide

/-- C4: an out-of-reference candidate is not skipped.  With `ref = "AA"`,
`read = "A"`, `read_length = 1` and the single candidate (offset 1,
position 0), the window start `p − i = −1` is negative; Python slicing
turns the window into `""`, which scores −1 and wins, so the driver
returns position 0 — while on the seed list with that candidate removed it
returns the no-hit tuple (−1, −inf, …).  The candidate changed the result
instead of being skipped. -/
theorem C4_theorem :
    compute_max_seed ['A', 'A'] ['A'] [[], [0]] 1 1 1 2 1 =
      some (0, ((-1 : Int) : WithBot Int), ['-'], ['A']) ∧
    compute_max_seed ['A', 'A'] ['A'] [[], []] 1 1 1 2 1 =
      some (-1, ⊥, ['A'], ['A']) := by
  decide

/-! ### Lexicographic order on strings -/

theorem sufLt_irrefl (x : List Char) : sufLt x x = false := by
  induction x with
  | nil => rfl
  | cons a as ih => simp [sufLt, ih]

theorem sufLt_asymm : ∀ {x y : List Char}, sufLt x y = true → sufLt y x = false := by
  intro x
  induction x with
  | nil =>
    intro y h
    cases y with
    | nil => simpa [sufLt] using h
    | cons b bs => rfl
  | cons a as ih =>
    intro y h
    cases y with
    | nil => simp [sufLt] at h
    | cons b bs =>
      by_cases hab : a < b
      · have hba : ¬b < a := lt_asymm hab
        simp [sufLt, hab, hba]
      · by_cases hba : b < a
        · simp [sufLt, hab, hba] at h
        · have h' : sufLt as bs = true := by simpa [sufLt, hab, hba] using h
          simp [sufLt, hab, hba, ih h']

theorem sufLt_trans : ∀ {x y z : List Char},
    sufLt x y = true → sufLt y z = true → sufLt x z = true := by
  intro x
  induction x with
  | nil =>
    intro y z h1 h2
    cases z with
    | nil =>
      cases y with
      | nil => simpa [sufLt] using h1
      | cons b bs => simp [sufLt] at h2
    | cons c cs => rfl
  | cons a as ih =>
    intro y z h1 h2
    cases y with
    | nil => simp [sufLt] at h1
    | cons b bs =>
      cases z with
      | nil => simp [sufLt] at h2
      | cons c cs =>
        by_cases hab : a < b <;> by_cases hbc : b < c
        · have hac : a < c := lt_trans hab hbc
          simp [sufLt, hac]
        · have hbc' : b = c := by
            by_cases hcb : c < b
            · simp [sufLt, hbc, hcb] at h2
            · exact le_antisymm (not_lt.mp hcb) (not_lt.mp hbc)
          subst hbc'
          simp [sufLt, hab]
        · have hab' : a = b := by
            by_cases hba : b < a
            · simp [sufLt, hab, hba] at h1
            · exact le_antisymm (not_lt.mp hba) (not_lt.mp hab)
          subst hab'
          simp [sufLt, hbc]
        · have hab' : a = b := by
            by_cases hba : b < a
            · simp [sufLt, hab, hba] at h1
            · exact le_antisymm (not_lt.mp hba) (not_lt.mp hab)
          have hbc' : b = c := by
            by_cases hcb : c < b
            · simp [sufLt, hbc, hcb] at h2
            · exact le_antisymm (not_lt.mp hcb) (not_lt.mp hbc)
          subst hab'; subst hbc'
          have g1 : sufLt as bs = true := by simpa [sufLt, lt_irrefl] using h1
          have g2 : sufLt bs cs = true := by simpa [sufLt, lt_irrefl] using h2
          simp [sufLt, lt_irrefl, ih g1 g2]

theorem sufLt_conn : ∀ {x y : List Char},
    sufLt x y = false → sufLt y x = false → x = y := by
  intro x
  induction x with
  | nil =>
    intro y h1 _
    cases y with
    | nil => rfl
    | cons b bs => simp [sufLt] at h1
  | cons a as ih =>
    intro y h1 h2
    cases y with
    | nil => simp [sufLt] at h2
    | cons b bs =>
      by_cases hab : a < b
      · simp [sufLt, hab] at h1
      · by_cases hba : b < a
        · simp [sufLt, hba] at h2
        · have hab' : a = b := le_antisymm (not_lt.mp hba) (not_lt.mp hab)
          subst hab'
          have g1 : sufLt as bs = false := by simpa [sufLt, lt_irrefl] using h1
          have g2 : sufLt bs as = false := by simpa [sufLt, lt_irrefl] using h2
          rw [ih g1 g2]

theorem sufLt_ne {x y : List Char} (h : sufLt x y = true) : x ≠ y := by
  intro he; subst he; rw [sufLt_irrefl] at h; exact Bool.false_ne_true h

theorem sufLt_append_left : ∀ (a u v : List Char), sufLt (a ++ u) (a ++ v) = sufLt u v := by
  intro a u v
  induction a with
  | nil => rfl
  | cons c cs ih => simp [sufLt, lt_irrefl, ih]

theorem sufLt_self_append (a u : List Char) (hu : u ≠ []) : sufLt a (a ++ u) = true := by
  have h := sufLt_append_left a [] u
  rw [List.append_nil] at h
  rw [h]
  cases u with
  | nil => exact absurd rfl hu
  | cons c cs => rfl

theorem sufLt_take_mono (h : Nat) : ∀ (h2 : Nat), h ≤ h2 → ∀ (x y : List Char),
    sufLt (x.take h) (y.take h) = true → sufLt (x.take h2) (y.take h2) = true := by
  induction h with
  | zero =>
    intro h2 _ x y hxy
    simp [sufLt] at hxy
  | succ hh ih =>
    intro h2 hle x y hxy
    obtain ⟨h2', rfl⟩ : ∃ m, h2 = m + 1 := ⟨h2 - 1, by omega⟩
    cases x with
    | nil =>
      cases y with
      | nil => simp [sufLt] at hxy
      | cons b bs => simp [sufLt]
    | cons a as =>
      cases y with
      | nil => simp [sufLt] at hxy
      | cons b bs =>
        simp only [List.take_succ_cons, sufLt] at hxy ⊢
        by_cases hab : a < b
        · simp [hab]
        · by_cases hba : b < a
          · simp [hab, hba] at hxy
          · simp only [if_neg hab, if_neg hba] at hxy ⊢
            exact ih h2' (by omega) as bs hxy

/-! ### Prefix lemmas -/

theorem pref_append (T : List Char) (h h' i : Nat) :
    pref T (h + h') i = pref T h i ++ pref T h' (i + h) := by
  unfold pref
  rw [List.take_add]
  congr 1
  rw [List.drop_drop]

theorem pref_length (T : List Char) (h i : Nat) :
    (pref T h i).length = min h (T.length - i) := by
  simp [pref]

theorem pref_of_ge (T : List Char) (h i : Nat) (hh : T.length - i ≤ h) :
    pref T h i = T.drop i := by
  unfold pref
  apply List.take_of_length_le
  simpa using hh

theorem pref_eq_full (T : List Char) (h i j : Nat) (hi : i < T.length)
    (hj : j < T.length) (hij : i ≠ j) (he : pref T h i = pref T h j) :
    i + h ≤ T.length ∧ j + h ≤ T.length := by
  have hl := congrArg List.length he
  rw [pref_length, pref_length] at hl
  omega

theorem drop_inj (T : List Char) (i j : Nat) (hi : i ≤ T.length) (hj : j ≤ T.length)
    (he : T.drop i = T.drop j) : i = j := by
  have hl := congrArg List.length he
  simp [List.length_drop] at hl
  omega

/-- C2 counterexample: for `T = "a$a"` (whose last character also occurs at
offset 0) the function returns `[1, 0, 2]`, but the suffix at row 1
(`"a$a"`) is not lexicographically smaller than the suffix at row 2 (`"a"`):
the correct suffix array is `[1, 2, 0]`.  The initial ranking compares the
missing-character sentinel −1 against `ord('$') − ord('a') = −61` and orders
`"a$a"` before `"a"`. -/
theorem C2_counterexample :
    suffix_array ['a', '$', 'a'] = [1, 0, 2] ∧
    sufLt ((['a', '$', 'a'] : List Char).drop ((suffix_array ['a', '$', 'a']).getD 1 0))
          ((['a', '$', 'a'] : List Char).drop ((suffix_array ['a', '$', 'a']).getD 2 0))
      = false := by
  constructor
  · rfl
  · rfl

/-! ### Structure of `rankPass` -/

theorem rankPassAux_length : ∀ (l : List PySuffix) (pr0 pr1 cur : Int),
    (rankPassAux pr0 pr1 cur l).length = l.length := by
  intro l
  induction l with
  | nil => intro pr0 pr1 cur; rfl
  | cons x xs ih =>
    intro pr0 pr1 cur
    rw [rankPassAux]
    split_ifs <;> simp [ih]

theorem rankPass_length (l : List PySuffix) : (rankPass l).length = l.length := by
  cases l with
  | nil => rfl
  | cons x xs => simp [rankPass, rankPassAux_length]

theorem rankPassAux_getD : ∀ (l : List PySuffix) (pr0 pr1 cur : Int) (p : Nat),
    p < l.length →
    (rankPassAux pr0 pr1 cur l).getD p sufDummy =
      { l.getD p sufDummy with rank0 := newRank pr0 pr1 cur l p } := by
  intro l
  induction l with
  | nil => intro pr0 pr1 cur p hp; simp at hp
  | cons x xs ih =>
    intro pr0 pr1 cur p hp
    rw [rankPassAux]
    cases p with
    | zero =>
      rw [newRank]
      split_ifs with hc <;> simp
    | succ p =>
      have hp' : p < xs.length := by simpa using hp
      rw [newRank]
      split_ifs with hc
      · simp only [List.getD_cons_succ]
        exact ih x.rank0 x.rank1 cur p hp'
      · simp only [List.getD_cons_succ]
        exact ih x.rank0 x.rank1 (cur + 1) p hp' 

theorem rankPass_getD_zero (x : PySuffix) (xs : List PySuffix) :
    (rankPass (x :: xs)).getD 0 sufDummy = { x with rank0 := 0 } := rfl

theorem rankPass_getD (l : List PySuffix) (p : Nat) (hp : p < l.length) :
    (rankPass l).getD p sufDummy = { l.getD p sufDummy with rank0 := newRank0 l p } := by
  cases l with
  | nil => simp at hp
  | cons x xs =>
    cases p with
    | zero => rfl
    | succ p =>
      have hp' : p < xs.length := by simpa using hp
      simp only [rankPass, newRank0, List.getD_cons_succ]
      exact rankPassAux_getD xs x.rank0 x.rank1 0 p hp'

theorem newRank_ge : ∀ (l : List PySuffix) (pr0 pr1 cur : Int) (p : Nat),
    cur ≤ newRank pr0 pr1 cur l p := by
  intro l
  induction l with
  | nil => intro pr0 pr1 cur p; rw [newRank]
  | cons x xs ih =>
    intro pr0 pr1 cur p
    cases p with
    | zero => rw [newRank]; split_ifs <;> omega
    | succ p =>
      rw [newRank]
      split_ifs with hc
      · exact ih x.rank0 x.rank1 cur p
      · have h2 := ih x.rank0 x.rank1 (cur + 1) p
        omega

theorem newRank_succ : ∀ (l : List PySuffix) (pr0 pr1 cur : Int) (p : Nat),
    p + 1 < l.length →
    newRank pr0 pr1 cur l (p + 1) =
      newRank pr0 pr1 cur l p +
        (if (l.getD (p + 1) sufDummy).rank0 = (l.getD p sufDummy).rank0 ∧
            (l.getD (p + 1) sufDummy).rank1 = (l.getD p sufDummy).rank1 then 0 else 1) := by
  intro l
  induction l with
  | nil => intro pr0 pr1 cur p hp; simp at hp
  | cons x xs ih =>
    intro pr0 pr1 cur p hp
    cases p with
    | zero =>
      have hxs : 0 < xs.length := by simpa using hp
      cases xs with
      | nil => simp at hxs
      | cons y ys =>
        simp only [List.getD_cons_succ, List.getD_cons_zero]
        rw [newRank, newRank, newRank]
        split_ifs <;> omega
    | succ p =>
      have hp' : p + 1 < xs.length := by simpa using hp
      simp only [List.getD_cons_succ]
      rw [newRank, newRank, ih x.rank0 x.rank1 _ p hp']

/-- The new rank at position 0 of a non-empty list after `rankPass`. -/
theorem rankPass_rank0_zero (l : List PySuffix) (hl : l ≠ []) :
    ((rankPass l).getD 0 sufDummy).rank0 = 0 := by
  cases l with
  | nil => exact absurd rfl hl
  | cons x xs => rfl

theorem newRank0_succ (l : List PySuffix) (p : Nat) (hp : p + 1 < l.length) :
    newRank0 l (p + 1) =
      newRank0 l p +
        (if posPair l (p + 1) = posPair l p then 0 else 1) := by
  cases l with
  | nil => simp at hp
  | cons x xs =>
    cases p with
    | zero =>
      have hxs : 0 < xs.length := by simpa using hp
      cases xs with
      | nil => simp at hxs
      | cons y ys =>
        simp only [newRank0, posPair, List.getD_cons_succ, List.getD_cons_zero,
          Prod.mk.injEq]
        rw [newRank]
        split_ifs <;> omega
    | succ p =>
      have hp' : p + 1 < xs.length := by simpa using hp
      simp only [newRank0, posPair, List.getD_cons_succ, Prod.mk.injEq]
      rw [newRank_succ xs x.rank0 x.rank1 0 p hp']

theorem newRank0_nonneg (l : List PySuffix) (p : Nat) : 0 ≤ newRank0 l p := by
  cases l with
  | nil => rw [newRank0]
  | cons x xs =>
    cases p with
    | zero => rw [newRank0]
    | succ p => exact newRank_ge xs x.rank0 x.rank1 0 p

theorem newRank0_zero (l : List PySuffix) (hl : l ≠ []) : newRank0 l 0 = 0 := by
  cases l with
  | nil => exact absurd rfl hl
  | cons x xs => rfl

theorem newRank0_mono (l : List PySuffix) :
    ∀ p q, p ≤ q → q < l.length → newRank0 l p ≤ newRank0 l q := by
  intro p q hpq hq
  induction q with
  | zero =>
    have : p = 0 := by omega
    subst this; exact le_rfl
  | succ q ih =>
    by_cases hpq' : p = q + 1
    · subst hpq'; exact le_rfl
    · have h1 : newRank0 l p ≤ newRank0 l q := ih (by omega) (by omega)
      have h2 := newRank0_succ l q hq
      split_ifs at h2 <;> omega

theorem rankPassAux_map_index : ∀ (l : List PySuffix) (pr0 pr1 cur : Int),
    (rankPassAux pr0 pr1 cur l).map PySuffix.index = l.map PySuffix.index := by
  intro l
  induction l with
  | nil => intro pr0 pr1 cur; rfl
  | cons x xs ih =>
    intro pr0 pr1 cur
    rw [rankPassAux]
    split_ifs <;> simp [ih]

theorem rankPass_map_index (l : List PySuffix) :
    (rankPass l).map PySuffix.index = l.map PySuffix.index := by
  cases l with
  | nil => rfl
  | cons x xs => simp [rankPass, rankPassAux_map_index]

theorem rank1Pass_length (ss : List PySuffix) (ind : Nat → Nat) (half : Nat) :
    (rank1Pass ss ind half).length = ss.length := by
  simp [rank1Pass]

theorem rank1Pass_map_index (ss : List PySuffix) (ind : Nat → Nat) (half : Nat) :
    (rank1Pass ss ind half).map PySuffix.index = ss.map PySuffix.index := by
  simp [rank1Pass, List.map_map]

theorem rank1Pass_getD (ss : List PySuffix) (ind : Nat → Nat) (half : Nat)
    (p : Nat) (hp : p < ss.length) :
    (rank1Pass ss ind half).getD p sufDummy =
      { ss.getD p sufDummy with rank1 :=
          if (ss.getD p sufDummy).index + half < ss.length then
            (ss.getD (ind ((ss.getD p sufDummy).index + half)) sufDummy).rank0
          else -1 } := by
  have hp' : p < (rank1Pass ss ind half).length := by rwa [rank1Pass_length]
  rw [List.getD_eq_getElem _ sufDummy hp', List.getD_eq_getElem _ sufDummy hp]
  simp [rank1Pass]

/-! ### Structure of `indPass` -/

theorem natUpdate_hit (f : Nat → Nat) (key val : Nat) : natUpdate f key val key = val := by
  rw [natUpdate, if_pos rfl]

theorem natUpdate_miss (f : Nat → Nat) (key val j : Nat) (h : j ≠ key) :
    natUpdate f key val j = f j := by
  rw [natUpdate, if_neg h]

theorem fold_natUpdate_frozen (ss : List PySuffix) (key : Nat) :
    ∀ (L : List Nat) (f : Nat → Nat),
      (∀ q ∈ L, (ss.getD q sufDummy).index ≠ key) →
      (L.foldl (fun g q => natUpdate g (ss.getD q sufDummy).index q) f) key = f key := by
  intro L
  induction L with
  | nil => intro f _; rfl
  | cons a L ih =>
    intro f hfr
    rw [List.foldl_cons, ih _ (fun q hq => hfr q (List.mem_cons_of_mem _ hq)),
      natUpdate_miss _ _ _ _ (fun he => hfr a (List.mem_cons_self _ _) he.symm)]

theorem fold_natUpdate_lookup (ss : List PySuffix) (key : Nat) :
    ∀ (L : List Nat), L.Nodup → ∀ (f : Nat → Nat) (p : Nat), p ∈ L →
      (ss.getD p sufDummy).index = key →
      (∀ q ∈ L, (ss.getD q sufDummy).index = key → q = p) →
      (L.foldl (fun g q => natUpdate g (ss.getD q sufDummy).index q) f) key = p := by
  intro L
  induction L with
  | nil => intro _ f p hp; simp at hp
  | cons a L ih =>
    intro hnd f p hp hkey huniq
    rw [List.foldl_cons]
    by_cases hap : a = p
    · subst hap
      have haL : a ∉ L := (List.nodup_cons.mp hnd).1
      have hfr : ∀ q ∈ L, (ss.getD q sufDummy).index ≠ key := by
        intro q hq he
        exact haL ((huniq q (List.mem_cons_of_mem _ hq) he) ▸ hq)
      rw [fold_natUpdate_frozen ss key L _ hfr, hkey, natUpdate_hit]
    · have hpL : p ∈ L := (List.mem_cons.mp hp).resolve_left (fun he => hap he.symm)
      exact ih (List.nodup_cons.mp hnd).2 _ p hpL hkey
        (fun q hq he => huniq q (List.mem_cons_of_mem _ hq) he)

theorem indPass_lookup (ind0 : Nat → Nat) (ss : List PySuffix)
    (hinj : ∀ p q, p < ss.length → q < ss.length →
      (ss.getD p sufDummy).index = (ss.getD q sufDummy).index → p = q)
    (p : Nat) (hp : p < ss.length) :
    indPass ind0 ss ((ss.getD p sufDummy).index) = p := by
  rw [indPass]
  exact fold_natUpdate_lookup ss _ (List.range ss.length) (List.nodup_range _)
    ind0 p (List.mem_range.mpr hp) rfl
    (fun q hq he => hinj q p (List.mem_range.mp hq) hp he)

/-! ### Rank order after `rankPass` -/

theorem getD_mem (l : List PySuffix) (p : Nat) (hp : p < l.length) :
    l.getD p sufDummy ∈ l := by
  rw [List.getD_eq_getElem _ sufDummy hp]
  exact List.getElem_mem hp

theorem sorted_getD (ss : List PySuffix) (hs : List.Sorted ple ss) (p q : Nat)
    (hpq : p ≤ q) (hq : q < ss.length) :
    ple (ss.getD p sufDummy) (ss.getD q sufDummy) := by
  rcases Nat.lt_or_ge p q with h | h
  · have hp : p < ss.length := lt_trans h hq
    rw [List.getD_eq_getElem _ sufDummy hp, List.getD_eq_getElem _ sufDummy hq]
    exact List.pairwise_iff_getElem.mp hs p q hp hq h
  · have : p = q := by omega
    subst this
    exact Or.inr ⟨rfl, le_rfl⟩

theorem ple_antisymm_pair {x y : PySuffix} (h1 : ple x y) (h2 : ple y x) :
    x.rank0 = y.rank0 ∧ x.rank1 = y.rank1 := by
  unfold ple at h1 h2; omega

theorem ple_of_pair_eq {x y : PySuffix} (h0 : x.rank0 = y.rank0) (h1 : x.rank1 = y.rank1) :
    ple x y := Or.inr ⟨h0, le_of_eq h1⟩

/-- Equal pairs propagate along a sorted run. -/
theorem posPair_between (ss : List PySuffix) (hs : List.Sorted ple ss)
    (p r q : Nat) (h1 : p ≤ r) (h2 : r ≤ q) (hq : q < ss.length)
    (he : posPair ss p = posPair ss q) : posPair ss r = posPair ss p := by
  have hpr := sorted_getD ss hs p r h1 (by omega)
  have hrq := sorted_getD ss hs r q h2 hq
  have he0 : (ss.getD p sufDummy).rank0 = (ss.getD q sufDummy).rank0 := by
    have := congrArg Prod.fst he; simpa [posPair] using this
  have he1 : (ss.getD p sufDummy).rank1 = (ss.getD q sufDummy).rank1 := by
    have := congrArg Prod.snd he; simpa [posPair] using this
  unfold ple at hpr hrq
  unfold posPair
  have : (ss.getD r sufDummy).rank0 = (ss.getD p sufDummy).rank0 ∧
      (ss.getD r sufDummy).rank1 = (ss.getD p sufDummy).rank1 := by omega
  rw [this.1, this.2]

/-- Equal pairs receive equal new ranks (positions in order). -/
theorem newRank0_eq_of_pair_eq (ss : List PySuffix) (hs : List.Sorted ple ss) :
    ∀ p q, p ≤ q → q < ss.length → posPair ss p = posPair ss q →
      newRank0 ss p = newRank0 ss q := by
  intro p q hpq hq he
  induction q with
  | zero =>
    have hp0 : p = 0 := by omega
    subst hp0; rfl
  | succ q ih =>
    by_cases hp' : p = q + 1
    · subst hp'; rfl
    · have hpq' : p ≤ q := by omega
      have hq' : q < ss.length := by omega
      have hmid : posPair ss q = posPair ss p :=
        posPair_between ss hs p q (q + 1) hpq' (by omega) hq he
      have step := newRank0_succ ss q hq
      have hpair : posPair ss (q + 1) = posPair ss q := by
        rw [hmid, ← he]
      rw [if_pos hpair] at step
      rw [step, ← ih hpq' hq' hmid.symm]
      omega

/-- Distinct pairs receive distinct (strictly larger) new ranks. -/
theorem newRank0_lt_of_pair_ne (ss : List PySuffix) :
    ∀ p q, p ≤ q → q < ss.length → posPair ss p ≠ posPair ss q →
      newRank0 ss p < newRank0 ss q := by
  intro p q hpq hq hne
  induction q with
  | zero =>
    have hp0 : p = 0 := by omega
    subst hp0; exact absurd rfl hne
  | succ q ih =>
    by_cases hp' : p = q + 1
    · subst hp'; exact absurd rfl hne
    · have hpq' : p ≤ q := by omega
      have hq' : q < ss.length := by omega
      have step := newRank0_succ ss q hq
      by_cases hpair : posPair ss (q + 1) = posPair ss q
      · have hne' : posPair ss p ≠ posPair ss q := fun he => hne (he.trans hpair.symm)
        have := ih hpq' hq' hne'
        rw [if_pos hpair] at step
        omega
      · have hmono := newRank0_mono ss p q hpq' hq'
        rw [if_neg hpair] at step
        omega

/-- The fundamental characterisation: after `rankPass` on a sorted list, the
new primary ranks compare exactly as the old pairs did. -/
theorem newRank0_le_iff (ss : List PySuffix) (hs : List.Sorted ple ss)
    (p q : Nat) (hp : p < ss.length) (hq : q < ss.length) :
    newRank0 ss p ≤ newRank0 ss q ↔ ple (ss.getD p sufDummy) (ss.getD q sufDummy) := by
  constructor
  · intro hle
    rcases le_or_lt p q with h | h
    · exact sorted_getD ss hs p q h hq
    · by_cases hpair : posPair ss q = posPair ss p
      · have h0 : (ss.getD q sufDummy).rank0 = (ss.getD p sufDummy).rank0 := by
          have := congrArg Prod.fst hpair; simpa [posPair] using this
        have h1 : (ss.getD q sufDummy).rank1 = (ss.getD p sufDummy).rank1 := by
          have := congrArg Prod.snd hpair; simpa [posPair] using this
        exact ple_of_pair_eq h0.symm h1.symm
      · have := newRank0_lt_of_pair_ne ss q p (by omega) hp hpair
        omega
  · intro hple
    rcases le_or_lt p q with h | h
    · exact newRank0_mono ss p q h hq
    · have hqp := sorted_getD ss hs q p (by omega) hp
      have hpair := ple_antisymm_pair hple hqp
      have : posPair ss p = posPair ss q := by
        unfold posPair; rw [hpair.1, hpair.2]
      have := newRank0_eq_of_pair_eq ss hs q p (by omega) hp this.symm
      omega

theorem newRank0_eq_iff (ss : List PySuffix) (hs : List.Sorted ple ss)
    (p q : Nat) (hp : p < ss.length) (hq : q < ss.length) :
    newRank0 ss p = newRank0 ss q ↔ posPair ss p = posPair ss q := by
  constructor
  · intro he
    by_contra hne
    rcases le_or_lt p q with h | h
    · exact absurd he (ne_of_lt (newRank0_lt_of_pair_ne ss p q h hq hne))
    · exact absurd he.symm (ne_of_lt (newRank0_lt_of_pair_ne ss q p (by omega) hp
        (fun x => hne x.symm)))
  · intro he
    rcases le_or_lt p q with h | h
    · exact newRank0_eq_of_pair_eq ss hs p q h hq he
    · exact (newRank0_eq_of_pair_eq ss hs q p (by omega) hp he.symm).symm

/-! ### Index permutation facts -/

theorem index_lt (ss : List PySuffix) (n : Nat)
    (hperm : (ss.map PySuffix.index).Perm (List.range n)) (p : Nat) (hp : p < ss.length) :
    (ss.getD p sufDummy).index < n := by
  have hm : (ss.getD p sufDummy).index ∈ ss.map PySuffix.index :=
    List.mem_map_of_mem PySuffix.index (getD_mem ss p hp)
  exact List.mem_range.mp (hperm.mem_iff.mp hm)

theorem index_inj (ss : List PySuffix) (n : Nat)
    (hperm : (ss.map PySuffix.index).Perm (List.range n)) :
    ∀ p q, p < ss.length → q < ss.length →
      (ss.getD p sufDummy).index = (ss.getD q sufDummy).index → p = q := by
  intro p q hp hq he
  have hnd : (ss.map PySuffix.index).Nodup := hperm.nodup_iff.mpr (List.nodup_range n)
  have hp' : p < (ss.map PySuffix.index).length := by simpa using hp
  have hq' : q < (ss.map PySuffix.index).length := by simpa using hq
  rw [List.getD_eq_getElem _ sufDummy hp, List.getD_eq_getElem _ sufDummy hq] at he
  have hmap : (ss.map PySuffix.index)[p] = (ss.map PySuffix.index)[q] := by
    rw [List.getElem_map, List.getElem_map]
    exact he
  exact (List.Nodup.getElem_inj_iff hnd).mp hmap

theorem index_surj (ss : List PySuffix) (n : Nat)
    (hperm : (ss.map PySuffix.index).Perm (List.range n)) (v : Nat) (hv : v < n) :
    ∃ q, q < ss.length ∧ (ss.getD q sufDummy).index = v := by
  have hm : v ∈ ss.map PySuffix.index := hperm.mem_iff.mpr (List.mem_range.mpr hv)
  obtain ⟨x, hx, hxv⟩ := List.mem_map.mp hm
  obtain ⟨q, hq, hqx⟩ := List.mem_iff_getElem.mp hx
  refine ⟨q, hq, ?_⟩
  rw [List.getD_eq_getElem _ sufDummy hq, hqx, hxv]

/-! ### The loop body doubles the comparison width -/

theorem prefLeP_refl (T : List Char) (h i : Nat) : prefLeP T h i i := Or.inr rfl

theorem prefLeP_antisymm {T : List Char} {h i j : Nat}
    (h1 : prefLeP T h i j) (h2 : prefLeP T h j i) : pref T h i = pref T h j := by
  rcases h1 with h1 | h1
  · rcases h2 with h2 | h2
    · rw [sufLt_asymm h1] at h2; exact absurd h2 (by simp)
    · exact h2.symm
  · exact h1

theorem pref_take_left (T : List Char) (h h' i : Nat) :
    (pref T (h + h') i).take h = pref T h i := by
  simp [pref, List.take_take]

theorem pref_ne_nil (T : List Char) (h i : Nat) (hh : 1 ≤ h) (hi : i < T.length) :
    pref T h i ≠ [] := by
  intro he
  have := congrArg List.length he
  rw [pref_length] at this
  simp at this
  omega

theorem pref_lt_mono (T : List Char) (h h2 i j : Nat) (hle : h ≤ h2)
    (hlt : sufLt (pref T h i) (pref T h j) = true) :
    sufLt (pref T h2 i) (pref T h2 j) = true := by
  unfold pref at hlt ⊢
  exact sufLt_take_mono h h2 hle _ _ hlt

theorem ple_iff_parts (x y : PySuffix) :
    ple x y ↔ (x.rank0 < y.rank0 ∨ (x.rank0 = y.rank0 ∧ x.rank1 ≤ y.rank1)) :=
  Iff.rfl

/-- One body of the `while` loop: starting from a sorted list whose pairs
reflect width-`h` prefix order, the re-ranking, the second-rank fill and the
re-sort produce pairs reflecting width-`2h` prefix order.  (Stated for
`rank1Pass` output, before the final sort, since `Reflect` is stable under
permutation.) -/
theorem body_reflect (T : List Char) (n h : Nat) (hh : 1 ≤ h) (ss : List PySuffix)
    (hTn : T.length = n) (hlen : ss.length = n)
    (hperm : (ss.map PySuffix.index).Perm (List.range n))
    (hsort : List.Sorted ple ss) (hrefl : Reflect T h ss) (ind : Nat → Nat) :
    Reflect T (h + h) (rank1Pass (rankPass ss) (indPass ind (rankPass ss)) h) := by
  have len1 : (rankPass ss).length = n := by rw [rankPass_length, hlen]
  have map1 : (rankPass ss).map PySuffix.index = ss.map PySuffix.index :=
    rankPass_map_index ss
  have perm1 : ((rankPass ss).map PySuffix.index).Perm (List.range n) := by
    rw [map1]; exact hperm
  have d1 : ∀ p, p < n → (rankPass ss).getD p sufDummy =
      { ss.getD p sufDummy with rank0 := newRank0 ss p } := by
    intro p hp
    exact rankPass_getD ss p (by omega)
  have idx1 : ∀ r, r < n →
      ((rankPass ss).getD r sufDummy).index = (ss.getD r sufDummy).index := by
    intro r hr
    rw [d1 r hr]
  have inj1 := index_inj (rankPass ss) n perm1
  have indok : ∀ q, q < n →
      indPass ind (rankPass ss) (((rankPass ss).getD q sufDummy).index) = q := by
    intro q hq
    exact indPass_lookup ind (rankPass ss) inj1 q (by omega)
  have len2 : (rank1Pass (rankPass ss) (indPass ind (rankPass ss)) h).length = n := by
    rw [rank1Pass_length, len1]
  have d2 : ∀ p, p < n →
      (rank1Pass (rankPass ss) (indPass ind (rankPass ss)) h).getD p sufDummy =
      { (rankPass ss).getD p sufDummy with rank1 :=
          if ((rankPass ss).getD p sufDummy).index + h < n then
            ((rankPass ss).getD
              (indPass ind (rankPass ss) (((rankPass ss).getD p sufDummy).index + h))
              sufDummy).rank0
          else -1 } := by
    intro p hp
    have := rank1Pass_getD (rankPass ss) (indPass ind (rankPass ss)) h p (by omega)
    rwa [len1] at this
  have reflpos : ∀ p q, p < n → q < n →
      (ple (ss.getD p sufDummy) (ss.getD q sufDummy) ↔
        prefLeP T h (ss.getD p sufDummy).index (ss.getD q sufDummy).index) := by
    intro p q hp hq
    exact hrefl _ (getD_mem ss p (by omega)) _ (getD_mem ss q (by omega))
  have RLE : ∀ p q, p < n → q < n →
      (newRank0 ss p ≤ newRank0 ss q ↔
        prefLeP T h (ss.getD p sufDummy).index (ss.getD q sufDummy).index) := by
    intro p q hp hq
    exact (newRank0_le_iff ss hsort p q (by omega) (by omega)).trans (reflpos p q hp hq)
  have REQ : ∀ p q, p < n → q < n →
      (newRank0 ss p = newRank0 ss q ↔
        pref T h (ss.getD p sufDummy).index = pref T h (ss.getD q sufDummy).index) := by
    intro p q hp hq
    constructor
    · intro he
      have h1 : newRank0 ss p ≤ newRank0 ss q := le_of_eq he
      have h2 : newRank0 ss q ≤ newRank0 ss p := le_of_eq he.symm
      exact prefLeP_antisymm ((RLE p q hp hq).mp h1) ((RLE q p hq hp).mp h2)
    · intro he
      have h1 : prefLeP T h (ss.getD p sufDummy).index (ss.getD q sufDummy).index :=
        Or.inr he
      have h2 : prefLeP T h (ss.getD q sufDummy).index (ss.getD p sufDummy).index :=
        Or.inr he.symm
      have := (RLE p q hp hq).mpr h1
      have := (RLE q p hq hp).mpr h2
      omega
  have RLT : ∀ p q, p < n → q < n →
      (newRank0 ss p < newRank0 ss q ↔
        sufLt (pref T h (ss.getD p sufDummy).index)
              (pref T h (ss.getD q sufDummy).index) = true) := by
    intro p q hp hq
    constructor
    · intro hlt
      have hle := (RLE p q hp hq).mp (le_of_lt hlt)
      rcases hle with hle | hle
      · exact hle
      · exact absurd ((REQ p q hp hq).mpr hle) (ne_of_lt hlt)
    · intro hsuf
      have hle := (RLE p q hp hq).mpr (Or.inl hsuf)
      have hne : newRank0 ss p ≠ newRank0 ss q := by
        intro he
        exact sufLt_ne hsuf ((REQ p q hp hq).mp he)
      omega
  -- main membership argument
  intro x hx y hy
  obtain ⟨p, hp2, hxp⟩ := List.mem_iff_getElem.mp hx
  obtain ⟨q, hq2, hyq⟩ := List.mem_iff_getElem.mp hy
  have hp : p < n := by omega
  have hq : q < n := by omega
  have hx' : x = (rank1Pass (rankPass ss) (indPass ind (rankPass ss)) h).getD p sufDummy := by
    rw [List.getD_eq_getElem _ sufDummy hp2, hxp]
  have hy' : y = (rank1Pass (rankPass ss) (indPass ind (rankPass ss)) h).getD q sufDummy := by
    rw [List.getD_eq_getElem _ sufDummy hq2, hyq]
  have hxrec := (hx'.trans (d2 p hp)).trans rfl
  have hyrec := (hy'.trans (d2 q hq)).trans rfl
  have hxidx : x.index = (ss.getD p sufDummy).index := by
    rw [hxrec, d1 p hp]
  have hyidx : y.index = (ss.getD q sufDummy).index := by
    rw [hyrec, d1 q hq]
  have hxr0 : x.rank0 = newRank0 ss p := by
    rw [hxrec, d1 p hp]
  have hyr0 : y.rank0 = newRank0 ss q := by
    rw [hyrec, d1 q hq]
  have hi : (ss.getD p sufDummy).index < n := index_lt ss n hperm p (by omega)
  have hj : (ss.getD q sufDummy).index < n := index_lt ss n hperm q (by omega)
  rw [hxidx, hyidx]
  by_cases hLij : sufLt (pref T h (ss.getD p sufDummy).index)
      (pref T h (ss.getD q sufDummy).index) = true
  · -- strictly smaller h-prefix: both sides hold
    apply iff_of_true
    · rw [ple_iff_parts, hxr0, hyr0]
      exact Or.inl ((RLT p q hp hq).mpr hLij)
    · exact Or.inl (pref_lt_mono T h (h + h) _ _ (by omega) hLij)
  · by_cases hGij : sufLt (pref T h (ss.getD q sufDummy).index)
        (pref T h (ss.getD p sufDummy).index) = true
    · -- strictly larger h-prefix: both sides fail
      apply iff_of_false
      · rw [ple_iff_parts, hxr0, hyr0]
        have := (RLT q p hq hp).mpr hGij
        omega
      · intro hcon
        rcases hcon with hcon | hcon
        · have h2 := pref_lt_mono T h (h + h) _ _ (by omega) hGij
          rw [sufLt_asymm h2] at hcon
          exact absurd hcon (by simp)
        · have := congrArg (List.take h) hcon
          rw [pref_take_left, pref_take_left] at this
          rw [this, sufLt_irrefl] at hGij
          exact absurd hGij (by simp)
    · -- equal h-prefixes
      have hEq : pref T h (ss.getD p sufDummy).index = pref T h (ss.getD q sufDummy).index :=
        sufLt_conn (by simpa using hLij) (by simpa using hGij)
      have hr0eq : newRank0 ss p = newRank0 ss q := (REQ p q hp hq).mpr hEq
      by_cases hij : (ss.getD p sufDummy).index = (ss.getD q sufDummy).index
      · -- same suffix: same position, reflexivity
        have hpq : p = q := index_inj ss n hperm p q (by omega) (by omega) hij
        subst hpq
        apply iff_of_true
        · rw [ple_iff_parts, hxrec, hyrec]
          exact Or.inr ⟨rfl, le_rfl⟩
        · rw [hij]
          exact prefLeP_refl T (h + h) _
      · -- distinct suffixes with equal h-prefixes: both extend at least h
        have hfull := pref_eq_full T h _ _ (by omega) (by omega) hij hEq
        -- rank1 values of x and y
        have hxr1 : x.rank1 =
            (if (ss.getD p sufDummy).index + h < n then
              ((rankPass ss).getD
                (indPass ind (rankPass ss) ((ss.getD p sufDummy).index + h)) sufDummy).rank0
            else -1) := by
          rw [hxrec]
          have : ((rankPass ss).getD p sufDummy).index = (ss.getD p sufDummy).index := by
            rw [d1 p hp]
          rw [this]
        have hyr1 : y.rank1 =
            (if (ss.getD q sufDummy).index + h < n then
              ((rankPass ss).getD
                (indPass ind (rankPass ss) ((ss.getD q sufDummy).index + h)) sufDummy).rank0
            else -1) := by
          rw [hyrec]
          have : ((rankPass ss).getD q sufDummy).index = (ss.getD q sufDummy).index := by
            rw [d1 q hq]
          rw [this]
        have hple_r1 : ple x y ↔ x.rank1 ≤ y.rank1 := by
          rw [ple_iff_parts, hxr0, hyr0]
          constructor
          · intro hc; rcases hc with hc | hc
            · omega
            · exact hc.2
          · intro hc; exact Or.inr ⟨hr0eq, hc⟩
        -- decompose the 2h-prefixes
        have hsplit_p : pref T (h + h) (ss.getD p sufDummy).index =
            pref T h (ss.getD p sufDummy).index ++
              pref T h ((ss.getD p sufDummy).index + h) :=
          pref_append T h h _
        have hsplit_q : pref T (h + h) (ss.getD q sufDummy).index =
            pref T h (ss.getD q sufDummy).index ++
              pref T h ((ss.getD q sufDummy).index + h) :=
          pref_append T h h _
        by_cases hii : (ss.getD p sufDummy).index + h < n
        · by_cases hjj : (ss.getD q sufDummy).index + h < n
          · -- both continuations exist
            obtain ⟨pi, hpi, hpiidx⟩ := index_surj ss n hperm _ hii
            obtain ⟨qi, hqi, hqiidx⟩ := index_surj ss n hperm _ hjj
            have hxr1' : x.rank1 = newRank0 ss pi := by
              rw [hxr1, if_pos hii]
              have hlook : indPass ind (rankPass ss) ((ss.getD p sufDummy).index + h) = pi := by
                have h0 := indok pi (by omega)
                rw [idx1 pi (by omega), hpiidx] at h0
                exact h0
              rw [hlook, d1 pi (by omega)]
            have hyr1' : y.rank1 = newRank0 ss qi := by
              rw [hyr1, if_pos hjj]
              have hlook : indPass ind (rankPass ss) ((ss.getD q sufDummy).index + h) = qi := by
                have h0 := indok qi (by omega)
                rw [idx1 qi (by omega), hqiidx] at h0
                exact h0
              rw [hlook, d1 qi (by omega)]
            rw [hple_r1, hxr1', hyr1']
            have := RLE pi qi (by omega) (by omega)
            rw [hpiidx, hqiidx] at this
            rw [this]
            unfold prefLeP
            rw [hsplit_p, hsplit_q, hEq, sufLt_append_left]
            constructor
            · intro hc; rcases hc with hc | hc
              · exact Or.inl hc
              · exact Or.inr (by rw [hc])
            · intro hc; rcases hc with hc | hc
              · exact Or.inl hc
              · exact Or.inr (List.append_cancel_left hc)
          · -- q's suffix ends exactly after h characters
            have hjn : (ss.getD q sufDummy).index + h = n := by
              rcases hfull with ⟨_, h2⟩
              omega
            apply iff_of_false
            · rw [hple_r1, hxr1, hyr1, if_pos hii, if_neg hjj]
              have hnn : (0 : Int) ≤ newRank0 ss
                  (indPass ind (rankPass ss) ((ss.getD p sufDummy).index + h)) := by
                exact newRank0_nonneg ss _
              obtain ⟨pi, hpi, hpiidx⟩ := index_surj ss n hperm _ hii
              have hlook : indPass ind (rankPass ss) ((ss.getD p sufDummy).index + h) = pi := by
                have h0 := indok pi (by omega)
                rw [idx1 pi (by omega), hpiidx] at h0
                exact h0
              rw [hlook, d1 pi (by omega)]
              simp only []
              have := newRank0_nonneg ss pi
              omega
            · intro hcon
              have hqfull : pref T (h + h) (ss.getD q sufDummy).index =
                  pref T h (ss.getD q sufDummy).index := by
                rw [pref_of_ge T (h + h) _ (by omega), pref_of_ge T h _ (by omega)]
              rcases hcon with hcon | hcon
              · rw [hqfull, ← hEq, hsplit_p] at hcon
                have hne : pref T h ((ss.getD p sufDummy).index + h) ≠ [] :=
                  pref_ne_nil T h _ hh (by omega)
                have := sufLt_self_append (pref T h (ss.getD p sufDummy).index) _ hne
                rw [sufLt_asymm this] at hcon
                exact absurd hcon (by simp)
              · rw [hqfull, ← hEq, hsplit_p] at hcon
                have := congrArg List.length hcon
                rw [List.length_append] at this
                have hne : pref T h ((ss.getD p sufDummy).index + h) ≠ [] :=
                  pref_ne_nil T h _ hh (by omega)
                have : (pref T h ((ss.getD p sufDummy).index + h)).length = 0 := by omega
                exact hne (List.eq_nil_of_length_eq_zero this)
        · -- p's suffix ends exactly after h characters
          have hin : (ss.getD p sufDummy).index + h = n := by
            rcases hfull with ⟨h1, _⟩
            omega
          by_cases hjj : (ss.getD q sufDummy).index + h < n
          · -- x ends, y continues: x strictly smaller on both sides
            apply iff_of_true
            · rw [hple_r1, hxr1, hyr1, if_neg hii, if_pos hjj]
              obtain ⟨qi, hqi, hqiidx⟩ := index_surj ss n hperm _ hjj
              have hlook : indPass ind (rankPass ss) ((ss.getD q sufDummy).index + h) = qi := by
                have h0 := indok qi (by omega)
                rw [idx1 qi (by omega), hqiidx] at h0
                exact h0
              rw [hlook, d1 qi (by omega)]
              simp only []
              have := newRank0_nonneg ss qi
              omega
            · have hpfull : pref T (h + h) (ss.getD p sufDummy).index =
                  pref T h (ss.getD p sufDummy).index := by
                rw [pref_of_ge T (h + h) _ (by omega), pref_of_ge T h _ (by omega)]
              rw [prefLeP, hpfull, hsplit_q, ← hEq]
              have hne : pref T h ((ss.getD q sufDummy).index + h) ≠ [] :=
                pref_ne_nil T h _ hh (by omega)
              exact Or.inl (sufLt_self_append _ _ hne)
          · -- both end: distinct suffixes of the same length, impossible
            exfalso
            have hjn : (ss.getD q sufDummy).index + h = n := by
              rcases hfull with ⟨_, h2⟩
              omega
            exact hij (by omega)

/-! ### The initial ranking reflects width-2 prefixes -/

theorem get_rank_lt_iff (c d : Char) : get_rank c < get_rank d ↔ c < d := by
  unfold get_rank
  constructor
  · intro hlt
    show c.toNat < d.toNat
    omega
  · intro hlt
    have : c.toNat < d.toNat := hlt
    omega

theorem get_rank_le_iff (c d : Char) : get_rank c ≤ get_rank d ↔ c ≤ d := by
  unfold get_rank
  constructor
  · intro hle
    show c.toNat ≤ d.toNat
    omega
  · intro hle
    have : c.toNat ≤ d.toNat := hle
    omega

theorem get_rank_inj {c d : Char} (h : get_rank c = get_rank d) : c = d := by
  unfold get_rank at h
  have : c.toNat = d.toNat := by omega
  exact Char.eq_of_val_eq (UInt32.toNat.inj this)

/-- The width-2 prefix of the suffix at `i < n`, explicitly. -/
theorem pref_two (T : List Char) (i : Nat) (hi : i < T.length) :
    pref T 2 i = T.getD i '$' ::
      (if i + 1 < T.length then [T.getD (i + 1) '$'] else []) := by
  unfold pref
  rw [List.getD_eq_getElem _ '$' hi, List.drop_eq_getElem_cons hi, List.take_succ_cons]
  by_cases h1 : i + 1 < T.length
  · rw [if_pos h1, List.getD_eq_getElem _ '$' h1, List.drop_eq_getElem_cons h1,
      List.take_succ_cons, List.take_zero]
  · rw [if_neg h1]
    have : T.drop (i + 1) = [] := List.drop_eq_nil_of_le (by omega)
    rw [this, List.take_nil]

theorem init_length (T : List Char) : (initSuffixes T).length = T.length := by
  simp [initSuffixes]

theorem init_map_index (T : List Char) :
    (initSuffixes T).map PySuffix.index = List.range T.length := by
  rw [initSuffixes, List.map_map]
  have : (PySuffix.index ∘ fun i =>
      ({ index := i, rank0 := get_rank (T.getD i '$'),
         rank1 := if i + 1 < T.length then get_rank (T.getD (i + 1) '$') else -1 }
        : PySuffix)) = id := rfl
  rw [this, List.map_id]

theorem sufLt_cons (a b : Char) (u v : List Char) :
    sufLt (a :: u) (b :: v) =
      if a < b then true else if b < a then false else sufLt u v := rfl

theorem init_reflect (T : List Char) (hlu : lastUnique T) :
    Reflect T 2 (initSuffixes T) := by
  intro x hx y hy
  rw [initSuffixes] at hx hy
  obtain ⟨i, hi, hxi⟩ := List.mem_map.mp hx
  obtain ⟨j, hj, hyj⟩ := List.mem_map.mp hy
  rw [List.mem_range] at hi hj
  subst hxi; subst hyj
  simp only [ple_iff_parts]
  unfold prefLeP
  rw [pref_two T i hi, pref_two T j hj]
  by_cases hab : T.getD i '$' < T.getD j '$'
  · apply iff_of_true
    · exact Or.inl ((get_rank_lt_iff _ _).mpr hab)
    · exact Or.inl (by rw [sufLt_cons, if_pos hab])
  · by_cases hba : T.getD j '$' < T.getD i '$'
    · apply iff_of_false
      · have h1 := (get_rank_lt_iff (T.getD j '$') (T.getD i '$')).mpr hba
        have h2 : ¬ get_rank (T.getD i '$') = get_rank (T.getD j '$') := by
          intro he
          exact absurd (get_rank_inj he) (ne_of_gt hba)
        intro hc
        rcases hc with hc | hc
        · omega
        · exact h2 hc.1
      · intro hc
        rcases hc with hc | hc
        · rw [sufLt_cons, if_neg hab, if_pos hba] at hc
          exact absurd hc (by simp)
        · have := (List.cons_eq_cons.mp hc).1
          exact absurd this (ne_of_gt hba)
    · have hcc : T.getD i '$' = T.getD j '$' :=
        le_antisymm (not_lt.mp hba) (not_lt.mp hab)
      have hr0 : get_rank (T.getD i '$') = get_rank (T.getD j '$') := by rw [hcc]
      by_cases hi1 : i + 1 < T.length
      · by_cases hj1 : j + 1 < T.length
        · -- both suffixes have a second character
          simp only [hi1, hj1, if_true]
          constructor
          · intro hc
            have hle : get_rank (T.getD (i + 1) '$') ≤ get_rank (T.getD (j + 1) '$') := by
              rcases hc with hc | hc
              · omega
              · exact hc.2
            have hle2 := (get_rank_le_iff _ _).mp hle
            rcases lt_or_eq_of_le hle2 with hlt | heq
            · refine Or.inl ?_
              rw [sufLt_cons, if_neg hab, if_neg hba, sufLt_cons, if_pos hlt]
            · refine Or.inr ?_
              rw [hcc, heq]
          · intro hc
            have hle : T.getD (i + 1) '$' ≤ T.getD (j + 1) '$' := by
              rcases hc with hc | hc
              · rw [sufLt_cons, if_neg hab, if_neg hba, sufLt_cons] at hc
                by_cases hxy : T.getD (i + 1) '$' < T.getD (j + 1) '$'
                · exact le_of_lt hxy
                · by_cases hyx : T.getD (j + 1) '$' < T.getD (i + 1) '$'
                  · rw [if_neg hxy, if_pos hyx] at hc
                    exact absurd hc (by simp)
                  · exact not_lt.mp hyx
              · have h1 := (List.cons_eq_cons.mp hc).2
                exact le_of_eq (List.cons_eq_cons.mp h1).1
            exact Or.inr ⟨hr0, (get_rank_le_iff _ _).mpr hle⟩
        · -- j is the final position and shares its character with i: excluded
          exfalso
          have hjlast : j = T.length - 1 := by omega
          have hine : i < T.length - 1 := by omega
          exact hlu i hine (by rw [hcc, hjlast])
      · by_cases hj1 : j + 1 < T.length
        · -- i is the final position and shares its character with j: excluded
          exfalso
          have hilast : i = T.length - 1 := by omega
          have hjne : j < T.length - 1 := by omega
          exact hlu j hjne (by rw [← hcc, hilast])
        · -- both are the final position
          have hij : i = j := by omega
          subst hij
          apply iff_of_true
          · exact Or.inr ⟨rfl, le_rfl⟩
          · exact Or.inr rfl

/-! ### Assembling the loop -/

theorem reflect_of_perm (T : List Char) (h : Nat) (ss ss' : List PySuffix)
    (hp : ss.Perm ss') (hr : Reflect T h ss) : Reflect T h ss' :=
  fun x hx y hy => hr x (hp.mem_iff.mpr hx) y (hp.mem_iff.mpr hy)

theorem sorted_reflect_final (T : List Char) (n : Nat) (hTn : T.length = n)
    (ss : List PySuffix) (hlen : ss.length = n) (h : Nat) (hhn : n ≤ h)
    (hperm : (ss.map PySuffix.index).Perm (List.range n))
    (hsort : List.Sorted ple ss) (hrefl : Reflect T h ss) :
    ∀ p q, p < q → q < n →
      sufLt (T.drop ((ss.getD p sufDummy).index)) (T.drop ((ss.getD q sufDummy).index))
        = true := by
  intro p q hpq hq
  have hple := sorted_getD ss hsort p q (le_of_lt hpq) (by omega)
  have hpre := (hrefl _ (getD_mem ss p (by omega)) _ (getD_mem ss q (by omega))).mp hple
  have hi : (ss.getD p sufDummy).index < n := index_lt ss n hperm p (by omega)
  have hj : (ss.getD q sufDummy).index < n := index_lt ss n hperm q (by omega)
  have hfi : pref T h ((ss.getD p sufDummy).index) = T.drop ((ss.getD p sufDummy).index) :=
    pref_of_ge T h _ (by omega)
  have hfj : pref T h ((ss.getD q sufDummy).index) = T.drop ((ss.getD q sufDummy).index) :=
    pref_of_ge T h _ (by omega)
  rcases hpre with hlt | heq
  · rwa [hfi, hfj] at hlt
  · exfalso
    rw [hfi, hfj] at heq
    have := drop_inj T _ _ (by omega) (by omega) heq
    have := index_inj ss n hperm p q (by omega) (by omega) this
    omega

theorem saLoopF_perm (n : Nat) : ∀ (fuel : Nat) (ss : List PySuffix) (ind : Nat → Nat)
    (k : Nat), ((saLoopF n fuel ss ind k).map PySuffix.index).Perm (ss.map PySuffix.index) := by
  intro fuel
  induction fuel with
  | zero =>
    intro ss ind k
    rw [saLoopF]
  | succ fuel ih =>
    intro ss ind k
    rw [saLoopF]
    by_cases hg : k < 2 * n
    · rw [if_pos hg]
      have h1 := ih (List.insertionSort ple
        (rank1Pass (rankPass ss) (indPass ind (rankPass ss)) (k / 2)))
        (indPass ind (rankPass ss)) (2 * k)
      refine h1.trans ?_
      have h2 := (List.perm_insertionSort ple
        (rank1Pass (rankPass ss) (indPass ind (rankPass ss)) (k / 2))).map PySuffix.index
      refine h2.trans ?_
      rw [rank1Pass_map_index, rankPass_map_index]
    · rw [if_neg hg]

theorem saLoopF_sorted (T : List Char) (n : Nat) (hTn : T.length = n) :
    ∀ (fuel k h : Nat) (ss : List PySuffix) (ind : Nat → Nat),
      k = 2 * h → 1 ≤ h → 2 * n ≤ fuel + k →
      ss.length = n → (ss.map PySuffix.index).Perm (List.range n) →
      List.Sorted ple ss → Reflect T h ss →
      ∀ p q, p < q → q < n →
        sufLt (T.drop (((saLoopF n fuel ss ind k).getD p sufDummy).index))
              (T.drop (((saLoopF n fuel ss ind k).getD q sufDummy).index)) = true := by
  intro fuel
  induction fuel with
  | zero =>
    intro k h ss ind hk hh hf hlen hperm hsort hrefl p q hpq hq
    rw [saLoopF]
    exact sorted_reflect_final T n hTn ss hlen h (by omega) hperm hsort hrefl p q hpq hq
  | succ fuel ih =>
    intro k h ss ind hk hh hf hlen hperm hsort hrefl p q hpq hq
    rw [saLoopF]
    by_cases hg : k < 2 * n
    · rw [if_pos hg]
      have hhalf : k / 2 = h := by omega
      have hperm2 : ((rank1Pass (rankPass ss) (indPass ind (rankPass ss)) (k / 2)).map
          PySuffix.index).Perm (List.range n) := by
        rw [rank1Pass_map_index, rankPass_map_index]
        exact hperm
      have hrefl3 : Reflect T (h + h) (List.insertionSort ple
          (rank1Pass (rankPass ss) (indPass ind (rankPass ss)) (k / 2))) := by
        apply reflect_of_perm T (h + h) _ _
          (List.perm_insertionSort ple _).symm
        rw [hhalf]
        exact body_reflect T n h hh ss hTn hlen hperm hsort hrefl ind
      have hsort3 : List.Sorted ple (List.insertionSort ple
          (rank1Pass (rankPass ss) (indPass ind (rankPass ss)) (k / 2))) :=
        List.sorted_insertionSort ple _
      have hperm3 : ((List.insertionSort ple
          (rank1Pass (rankPass ss) (indPass ind (rankPass ss)) (k / 2))).map
            PySuffix.index).Perm (List.range n) :=
        (((List.perm_insertionSort ple _).map PySuffix.index).trans hperm2)
      have hlen3 : (List.insertionSort ple
          (rank1Pass (rankPass ss) (indPass ind (rankPass ss)) (k / 2))).length = n := by
        have := hperm3.length_eq
        simpa using this
      have hkk : 2 * k = 2 * (h + h) := by omega
      exact ih (2 * k) (h + h) _ (indPass ind (rankPass ss)) hkk (by omega) (by omega)
        hlen3 hperm3 hsort3 hrefl3 p q hpq hq
    · rw [if_neg hg]
      exact sorted_reflect_final T n hTn ss hlen h (by omega) hperm hsort hrefl p q hpq hq

theorem suffix_array_spec (T : List Char) (hT : T ≠ []) :
    (suffix_array T).Perm (List.range T.length) ∧
    (lastUnique T →
      ∀ p q, p < q → q < T.length →
        sufLt (T.drop ((suffix_array T).getD p 0)) (T.drop ((suffix_array T).getD q 0))
          = true) := by
  have hn : 0 < T.length := List.length_pos.mpr hT
  have hperm0 : ((List.insertionSort ple (initSuffixes T)).map PySuffix.index).Perm
      (List.range T.length) := by
    refine ((List.perm_insertionSort ple _).map PySuffix.index).trans ?_
    rw [init_map_index]
  have hlen0 : (List.insertionSort ple (initSuffixes T)).length = T.length := by
    have := hperm0.length_eq
    simpa using this
  have hres : suffix_array T =
      (saLoopF T.length (2 * T.length) (List.insertionSort ple (initSuffixes T))
        (fun _ => 0) 4).map PySuffix.index := rfl
  constructor
  · rw [hres]
    exact (saLoopF_perm T.length (2 * T.length) _ _ 4).trans hperm0
  · intro hlu p q hpq hq
    have hlenres : (saLoopF T.length (2 * T.length) (List.insertionSort ple (initSuffixes T))
        (fun _ => 0) 4).length = T.length := by
      have := ((saLoopF_perm T.length (2 * T.length) _ (fun _ => 0) 4).trans hperm0).length_eq
      simpa using this
    have hgp : (suffix_array T).getD p 0 =
        ((saLoopF T.length (2 * T.length) (List.insertionSort ple (initSuffixes T))
          (fun _ => 0) 4).getD p sufDummy).index := by
      rw [hres]
      have hp' : p < (saLoopF T.length (2 * T.length) (List.insertionSort ple (initSuffixes T))
          (fun _ => 0) 4).length := by omega
      have hp'' : p < ((saLoopF T.length (2 * T.length) (List.insertionSort ple
          (initSuffixes T)) (fun _ => 0) 4).map PySuffix.index).length := by
        simpa using hp'
      rw [List.getD_eq_getElem _ 0 hp'', List.getD_eq_getElem _ sufDummy hp',
        List.getElem_map]
    have hgq : (suffix_array T).getD q 0 =
        ((saLoopF T.length (2 * T.length) (List.insertionSort ple (initSuffixes T))
          (fun _ => 0) 4).getD q sufDummy).index := by
      rw [hres]
      have hq' : q < (saLoopF T.length (2 * T.length) (List.insertionSort ple (initSuffixes T))
          (fun _ => 0) 4).length := by omega
      have hq'' : q < ((saLoopF T.length (2 * T.length) (List.insertionSort ple
          (initSuffixes T)) (fun _ => 0) 4).map PySuffix.index).length := by
        simpa using hq'
      rw [List.getD_eq_getElem _ 0 hq'', List.getD_eq_getElem _ sufDummy hq',
        List.getElem_map]
    rw [hgp, hgq]
    exact saLoopF_sorted T T.length rfl (2 * T.length) 4 2
      (List.insertionSort ple (initSuffixes T)) (fun _ => 0) rfl (by omega) (by omega)
      hlen0 hperm0 (List.sorted_insertionSort ple _)
      (reflect_of_perm T 2 _ _ (List.perm_insertionSort ple _).symm (init_reflect T hlu))
      p q hpq hq

/-- C2 (amended): `suffix_array` returns a permutation of `[0, n)` for every
non-empty input; and whenever the last character of `T` occurs nowhere else
in `T` (as with a terminal sentinel), consecutive rows hold strictly
lexicographically increasing suffixes.  Without that proviso the ordering
claim fails (see the counterexample). -/
theorem C2_theorem (T : List Char) (hT : T ≠ []) :
    (suffix_array T).Perm (List.range T.length) ∧
    (lastUnique T →
      ∀ p q, p < q → q < T.length →
        sufLt (T.drop ((suffix_array T).getD p 0)) (T.drop ((suffix_array T).getD q 0))
          = true) :=
  suffix_array_spec T hT

/-- Witness for C2 at `T = "ba$"`. -/
theorem C2_witness :
    (suffix_array ['b', 'a', '$']).Perm (List.range (['b', 'a', '$'] : List Char).length) ∧
    (lastUnique ['b', 'a', '$'] →
      ∀ p q, p < q → q < (['b', 'a', '$'] : List Char).length →
        sufLt ((['b', 'a', '$'] : List Char).drop ((suffix_array ['b', 'a', '$']).getD p 0))
              ((['b', 'a', '$'] : List Char).drop ((suffix_array ['b', 'a', '$']).getD q 0))
          = true) :=
  C2_theorem ['b', 'a', '$'] (by decide)

/-! ### FM-index machinery (C1): basic facts about a sorted suffix array

Throughout, `sa` is assumed to be a permutation of `[0, |T|)` (`hperm`) whose
rows hold strictly increasing suffixes (`hsort`); `suffix_array_spec`
provides both for sentinel-terminated text. -/

theorem sa_len {T : List Char} {sa : List Nat}
    (hperm : sa.Perm (List.range T.length)) : sa.length = T.length := by
  simpa using hperm.length_eq

theorem mem_sa {T : List Char} {sa : List Nat}
    (hperm : sa.Perm (List.range T.length)) {v : Nat} (hv : v < T.length) : v ∈ sa :=
  hperm.mem_iff.mpr (List.mem_range.mpr hv)

theorem sa_getD_lt {T : List Char} {sa : List Nat}
    (hperm : sa.Perm (List.range T.length)) {p : Nat} (hp : p < T.length) :
    sa.getD p 0 < T.length := by
  have hl : sa.length = T.length := sa_len hperm
  have hmem : sa.getD p 0 ∈ sa := by
    rw [List.getD_eq_getElem _ 0 (by omega)]
    exact List.getElem_mem (by omega)
  exact List.mem_range.mp (hperm.mem_iff.mp hmem)

theorem sa_nodup {T : List Char} {sa : List Nat}
    (hperm : sa.Perm (List.range T.length)) : sa.Nodup :=
  hperm.nodup_iff.mpr (List.nodup_range _)

theorem rowOf_lt {T : List Char} {sa : List Nat}
    (hperm : sa.Perm (List.range T.length)) {v : Nat} (hv : v < T.length) :
    rowOf sa v < T.length := by
  have h := List.indexOf_lt_length.mpr (mem_sa hperm hv)
  rw [sa_len hperm] at h
  exact h

theorem sa_rowOf {T : List Char} {sa : List Nat}
    (hperm : sa.Perm (List.range T.length)) {v : Nat} (hv : v < T.length) :
    sa.getD (rowOf sa v) 0 = v := by
  have hlt : sa.indexOf v < sa.length := List.indexOf_lt_length.mpr (mem_sa hperm hv)
  rw [rowOf, List.getD_eq_getElem _ 0 hlt]
  exact List.getElem_indexOf hlt

theorem rowOf_getD {T : List Char} {sa : List Nat}
    (hperm : sa.Perm (List.range T.length)) {r : Nat} (hr : r < T.length) :
    rowOf sa (sa.getD r 0) = r := by
  have hl : sa.length = T.length := sa_len hperm
  rw [rowOf, List.getD_eq_getElem _ 0 (by omega)]
  exact List.indexOf_getElem (sa_nodup hperm) r (by omega)

theorem sa_getD_inj {T : List Char} {sa : List Nat}
    (hperm : sa.Perm (List.range T.length)) {p q : Nat}
    (hp : p < T.length) (hq : q < T.length) (h : sa.getD p 0 = sa.getD q 0) : p = q := by
  have h1 := rowOf_getD hperm hp
  have h2 := rowOf_getD hperm hq
  rw [← h1, ← h2, h]

theorem sa_lt_iff {T : List Char} {sa : List Nat}
    (hsort : ∀ p q, p < q → q < T.length →
      sufLt (T.drop (sa.getD p 0)) (T.drop (sa.getD q 0)) = true)
    {p q : Nat} (hp : p < T.length) (hq : q < T.length) :
    (sufLt (T.drop (sa.getD p 0)) (T.drop (sa.getD q 0)) = true ↔ p < q) := by
  constructor
  · intro h
    rcases Nat.lt_trichotomy p q with h1 | h1 | h1
    · exact h1
    · subst h1
      rw [sufLt_irrefl] at h
      exact absurd h (by simp)
    · have h2 := hsort q p h1 hp
      have h3 := sufLt_asymm h2
      rw [h] at h3
      exact absurd h3 (by simp)
  · intro h
    exact hsort p q h hq

theorem sufLt_head_le {a b : Char} {as bs : List Char}
    (h : sufLt (a :: as) (b :: bs) = true) : a ≤ b := by
  rw [sufLt_cons] at h
  by_cases hab : a < b
  · exact le_of_lt hab
  · by_cases hba : b < a
    · rw [if_neg hab, if_pos hba] at h
      exact absurd h (by simp)
    · exact le_of_not_lt hba

theorem drop_head_cons (T : List Char) (i : Nat) (hi : i < T.length) :
    T.drop i = T.getD i '$' :: T.drop (i + 1) := by
  rw [List.getD_eq_getElem _ _ hi]
  exact List.drop_eq_getElem_cons hi

theorem fcol_mono {T : List Char} {sa : List Nat}
    (hperm : sa.Perm (List.range T.length))
    (hsort : ∀ p q, p < q → q < T.length →
      sufLt (T.drop (sa.getD p 0)) (T.drop (sa.getD q 0)) = true)
    {p q : Nat} (hpq : p ≤ q) (hq : q < T.length) :
    fcol T sa p ≤ fcol T sa q := by
  rcases eq_or_lt_of_le hpq with he | hlt
  · subst he; exact le_refl _
  · have hp : p < T.length := lt_trans hlt hq
    have h := hsort p q hlt hq
    rw [drop_head_cons T _ (sa_getD_lt hperm hp),
        drop_head_cons T _ (sa_getD_lt hperm hq)] at h
    exact sufLt_head_le h

theorem pred_mod (n v : Nat) (hn : 1 ≤ n) (hv : v < n) :
    (v + n - 1) % n = if v = 0 then n - 1 else v - 1 := by
  by_cases h0 : v = 0
  · subst h0; rw [if_pos rfl]
    have he : 0 + n - 1 = n - 1 := by omega
    rw [he]
    exact Nat.mod_eq_of_lt (by omega)
  · rw [if_neg h0]
    have he : v + n - 1 = (v - 1) + 1 * n := by omega
    rw [he, Nat.add_mul_mod_self_right]
    exact Nat.mod_eq_of_lt (by omega)

theorem succ_mod (n v : Nat) (hv : v < n) :
    (v + 1) % n = if v = n - 1 then 0 else v + 1 := by
  by_cases h0 : v = n - 1
  · rw [if_pos h0, h0]
    have : n - 1 + 1 = n := by omega
    rw [this, Nat.mod_self]
  · rw [if_neg h0]
    exact Nat.mod_eq_of_lt (by omega)

/-! BWT shape: row `r` of the BWT holds the character cyclically preceding
suffix `sa[r]`. -/

theorem bwt_len {T : List Char} {sa : List Nat} (hperm : sa.Perm (List.range T.length)) :
    (bwt_from_suffix_array T sa).length = T.length := by
  rw [bwt_from_suffix_array, List.length_map, sa_len hperm]

theorem bwt_getD {T : List Char} {sa : List Nat}
    (hperm : sa.Perm (List.range T.length)) {r : Nat} (hr : r < T.length) :
    (bwt_from_suffix_array T sa).getD r '$' = pyGet T ((sa.getD r 0 : Int) - 1) := by
  have hl : sa.length = T.length := sa_len hperm
  rw [bwt_from_suffix_array,
      List.getD_eq_getElem _ _ (by rw [List.length_map, hl]; exact hr), List.getElem_map,
      List.getD_eq_getElem _ 0 (by omega)]

theorem bwt_getD_eq {T : List Char} {sa : List Nat} (hT : T ≠ [])
    (hperm : sa.Perm (List.range T.length)) {r : Nat} (hr : r < T.length) :
    (bwt_from_suffix_array T sa).getD r '$' =
      T.getD ((sa.getD r 0 + T.length - 1) % T.length) '$' := by
  have hn : 1 ≤ T.length := List.length_pos.mpr hT
  have hv : sa.getD r 0 < T.length := sa_getD_lt hperm hr
  rw [bwt_getD hperm hr, pyGet, pred_mod T.length _ hn hv]
  by_cases h0 : sa.getD r 0 = 0
  · rw [h0, if_pos rfl]
    have hneg : ((0 : Nat) : Int) - 1 < 0 := by norm_num
    rw [if_pos hneg]
    have h1 : ((T.length : Int) + (((0 : Nat) : Int) - 1)).toNat = T.length - 1 := by omega
    rw [h1]
  · rw [if_neg h0]
    have hpos : ¬ ((sa.getD r 0 : Int) - 1 < 0) := by omega
    rw [if_neg hpos]
    have h1 : ((sa.getD r 0 : Int) - 1).toNat = sa.getD r 0 - 1 := by omega
    rw [h1]

theorem bwt_dollar {T : List Char} {sa : List Nat} (hT : T ≠ [])
    (hsent : ∀ i, i < T.length - 1 → '$' < T.getD i '$')
    (hlast : T.getD (T.length - 1) '$' = '$')
    (hperm : sa.Perm (List.range T.length)) {r : Nat} (hr : r < T.length) :
    ((bwt_from_suffix_array T sa).getD r '$' = '$' ↔ sa.getD r 0 = 0) := by
  have hn : 1 ≤ T.length := List.length_pos.mpr hT
  have hv : sa.getD r 0 < T.length := sa_getD_lt hperm hr
  rw [bwt_getD_eq hT hperm hr, pred_mod T.length _ hn hv]
  constructor
  · intro h
    by_contra h0
    rw [if_neg h0] at h
    have hlt := hsent (sa.getD r 0 - 1) (by omega)
    rw [h] at hlt
    exact lt_irrefl _ hlt
  · intro h
    rw [if_pos h]
    exact hlast

/-! The BWT is a permutation of the text (it lists the cyclic predecessors
of the sorted suffixes). -/

theorem range_map_getD (T : List Char) :
    (List.range T.length).map (fun v => T.getD v '$') = T := by
  apply List.ext_getElem
  · simp
  · intro i h1 h2
    simp only [List.getElem_map, List.getElem_range]
    rw [List.getD_eq_getElem _ '$' h2]

theorem sa_map_getD {T : List Char} {sa : List Nat} (hperm : sa.Perm (List.range T.length))
    (f : Nat → Char) :
    (List.range T.length).map (fun r => f (sa.getD r 0)) = sa.map f := by
  have hl : sa.length = T.length := sa_len hperm
  apply List.ext_getElem
  · simp [hl]
  · intro i h1 h2
    simp only [List.getElem_map, List.getElem_range]
    rw [List.getD_eq_getElem _ 0 (by simpa using h2)]

theorem bwt_perm {T : List Char} {sa : List Nat} (hT : T ≠ [])
    (hlast : T.getD (T.length - 1) '$' = '$')
    (hperm : sa.Perm (List.range T.length)) :
    (bwt_from_suffix_array T sa).Perm T := by
  have hn : 1 ≤ T.length := List.length_pos.mpr hT
  have h1 : (bwt_from_suffix_array T sa) =
      sa.map (fun (v : Nat) => pyGet T ((v : Int) - 1)) := rfl
  have h2 : (sa.map (fun (v : Nat) => pyGet T ((v : Int) - 1))).Perm
      ((List.range T.length).map (fun (v : Nat) => pyGet T ((v : Int) - 1))) :=
    hperm.map _
  have h3 : (List.range T.length).map (fun (v : Nat) => pyGet T ((v : Int) - 1)) =
      T.getD (T.length - 1) '$' :: T.take (T.length - 1) := by
    apply List.ext_getElem
    · simp; omega
    · intro i hi1 hi2
      simp only [List.getElem_map, List.getElem_range]
      match i with
      | 0 =>
        simp only [List.getElem_cons_zero]
        rw [pyGet]
        have hneg : ((0 : Nat) : Int) - 1 < 0 := by norm_num
        rw [if_pos hneg]
        have he : ((T.length : Int) + (((0 : Nat) : Int) - 1)).toNat = T.length - 1 := by
          omega
        rw [he]
      | i + 1 =>
        simp only [List.getElem_cons_succ]
        rw [pyGet]
        have hpos : ¬ (((i + 1 : Nat) : Int) - 1 < 0) := by omega
        rw [if_neg hpos]
        have he : (((i + 1 : Nat) : Int) - 1).toNat = i := by omega
        rw [he]
        have hi' : i < T.length := by simp at hi1; omega
        have hi'' : i < (T.take (T.length - 1)).length := by simp at hi2 ⊢; omega
        rw [List.getElem_take, List.getD_eq_getElem _ '$' hi']
  have h4 : (T.getD (T.length - 1) '$' :: T.take (T.length - 1)).Perm T := by
    have hsplit : T = T.take (T.length - 1) ++ T.drop (T.length - 1) :=
      (List.take_append_drop _ T).symm
    have hd : T.drop (T.length - 1) = [T.getD (T.length - 1) '$'] := by
      rw [drop_head_cons T (T.length - 1) (by omega)]
      have : T.length - 1 + 1 = T.length := by omega
      rw [this, List.drop_length]
    have hp : (T.getD (T.length - 1) '$' :: T.take (T.length - 1)).Perm
        (T.take (T.length - 1) ++ [T.getD (T.length - 1) '$']) :=
      (List.perm_append_singleton _ _).symm
    have he : T.take (T.length - 1) ++ [T.getD (T.length - 1) '$'] = T := by
      rw [← hd, ← hsplit]
    rw [he] at hp
    exact hp
  rw [h1]
  exact h2.trans (h3 ▸ h4)

/-- The first column, as a multiset, is also the text. -/
theorem fcol_perm (T : List Char) (sa : List Nat)
    (hperm : sa.Perm (List.range T.length)) :
    ((List.range T.length).map (fun r => fcol T sa r)).Perm T := by
  have h1 : (List.range T.length).map (fun r => fcol T sa r) =
      sa.map (fun v => T.getD v '$') := by
    simp only [fcol]
    exact sa_map_getD hperm (fun v => T.getD v '$')
  rw [h1]
  have h2 : (sa.map (fun v => T.getD v '$')).Perm
      ((List.range T.length).map (fun v => T.getD v '$')) := hperm.map _
  rw [range_map_getD] at h2
  exact h2

/-! Counting helpers for the FM-index argument. -/

theorem cntOcc_zero (l : List Char) (c : Char) : cntOcc l c 0 = 0 := by
  simp [cntOcc]

theorem cntOcc_succ (l : List Char) (c : Char) (m : Nat) (hm : m < l.length) :
    cntOcc l c (m + 1) = cntOcc l c m + if l.getD m '$' = c then 1 else 0 := by
  rw [cntOcc, cntOcc, List.take_succ, List.countP_append, List.getElem?_eq_getElem hm,
      List.getD_eq_getElem _ '$' hm]
  simp [List.countP_singleton]

theorem cntOcc_mono (l : List Char) (c : Char) {m m' : Nat} (h : m ≤ m') :
    cntOcc l c m ≤ cntOcc l c m' := by
  have he : m' = m + (m' - m) := by omega
  rw [cntOcc, cntOcc, he, List.take_add, List.countP_append]
  omega

theorem cntOcc_full (l : List Char) (c : Char) :
    cntOcc l c l.length = l.countP (fun d => decide (d = c)) := by
  rw [cntOcc, List.take_length]

theorem countP_range_getD (l : List Char) (p : Char → Bool) :
    ∀ m, m ≤ l.length →
      (List.range m).countP (fun q => p (l.getD q '$')) = (l.take m).countP p := by
  intro m
  induction m with
  | zero => intro _; simp
  | succ m ih =>
    intro hm
    rw [List.range_succ, List.countP_append, ih (by omega), List.take_succ,
        List.countP_append]
    have hg : l.getD m '$' = l[m] := List.getD_eq_getElem _ '$' (by omega)
    have hg2 : l[m]? = some l[m] := List.getElem?_eq_getElem (by omega)
    simp [List.countP_singleton, hg, hg2]

theorem countP_range_lt (n b : Nat) :
    (List.range n).countP (fun p => decide (p < b)) = min b n := by
  induction n with
  | zero => simp
  | succ n ih =>
    rw [List.range_succ, List.countP_append, ih]
    by_cases h : n < b
    · simp only [List.countP_singleton, decide_eq_true_eq, if_pos h]
      omega
    · simp only [List.countP_singleton, decide_eq_true_eq, if_neg h]
      omega

theorem countP_range_interval : ∀ (n a b : Nat), b ≤ n →
    (List.range n).countP (fun p => decide (a ≤ p ∧ p < b)) = b - a := by
  intro n
  induction n with
  | zero =>
    intro a b hb
    simp only [List.range_zero, List.countP_nil]
    omega
  | succ n ih =>
    intro a b hb
    rw [List.range_succ, List.countP_append]
    by_cases hbn : b ≤ n
    · rw [ih a b hbn]
      have hnb : ¬ (a ≤ n ∧ n < b) := by omega
      simp only [List.countP_singleton, decide_eq_true_eq, if_neg hnb]
      omega
    · have hb1 : b = n + 1 := by omega
      subst hb1
      have hcg : (List.range n).countP (fun p => decide (a ≤ p ∧ p < n + 1)) =
          (List.range n).countP (fun p => decide (a ≤ p ∧ p < n)) := by
        apply List.countP_congr
        intro x hx
        have hxn : x < n := List.mem_range.mp hx
        simp only [decide_eq_true_eq]
        omega
      rw [hcg, ih a n (by omega)]
      by_cases han : a ≤ n
      · have hyes : a ≤ n ∧ n < n + 1 := by omega
        simp only [List.countP_singleton, decide_eq_true_eq, if_pos hyes]
        omega
      · have hno : ¬ (a ≤ n ∧ n < n + 1) := by omega
        simp only [List.countP_singleton, decide_eq_true_eq, if_neg hno]
        omega

theorem card_filter_range (n : Nat) (P : Nat → Prop) [DecidablePred P] :
    ((Finset.range n).filter P).card = (List.range n).countP (fun x => decide (P x)) := by
  induction n with
  | zero => simp
  | succ n ih =>
    rw [Finset.range_succ, Finset.filter_insert, List.range_succ, List.countP_append]
    by_cases h : P n
    · rw [if_pos h, Finset.card_insert_of_not_mem (by simp), ih]
      simp [h]
    · rw [if_neg h, ih]
      simp [h]

/-- Counting transfer along an injective-and-surjective map between the
rows satisfying `P` and those satisfying `Q`. -/
theorem count_bij (n : Nat) (P Q : Nat → Prop) [DecidablePred P] [DecidablePred Q]
    (g : Nat → Nat)
    (hmap : ∀ q, q < n → P q → g q < n ∧ Q (g q))
    (hinj : ∀ q1 q2, q1 < n → q2 < n → P q1 → P q2 → g q1 = g q2 → q1 = q2)
    (hsurj : ∀ p, p < n → Q p → ∃ q, q < n ∧ P q ∧ g q = p) :
    (List.range n).countP (fun x => decide (P x)) =
      (List.range n).countP (fun x => decide (Q x)) := by
  rw [← card_filter_range, ← card_filter_range]
  apply Finset.card_bij (fun a _ => g a)
  · intro a ha
    rw [Finset.mem_filter, Finset.mem_range] at ha ⊢
    obtain ⟨h1, h2⟩ := hmap a ha.1 ha.2
    exact ⟨h1, h2⟩
  · intro a1 ha1 a2 ha2 he
    rw [Finset.mem_filter, Finset.mem_range] at ha1 ha2
    exact hinj a1 a2 ha1.1 ha2.1 ha1.2 ha2.2 he
  · intro b hb
    rw [Finset.mem_filter, Finset.mem_range] at hb
    obtain ⟨q, hq1, hq2, hq3⟩ := hsurj b hb.1 hb.2
    exact ⟨q, by rw [Finset.mem_filter, Finset.mem_range]; exact ⟨hq1, hq2⟩, hq3⟩

theorem countP_rows_chars {T : List Char} {sa : List Nat}
    (hperm : sa.Perm (List.range T.length)) (p : Char → Bool) :
    (List.range T.length).countP (fun r => p (fcol T sa r)) = T.countP p := by
  have h := (fcol_perm T sa hperm).countP_eq p
  rw [← h, List.countP_map]
  rfl

theorem countP_bwt_chars {T : List Char} {sa : List Nat} (hT : T ≠ [])
    (hlast : T.getD (T.length - 1) '$' = '$')
    (hperm : sa.Perm (List.range T.length)) (p : Char → Bool) :
    (bwt_from_suffix_array T sa).countP p = T.countP p :=
  (bwt_perm hT hlast hperm).countP_eq p

/-- A downward-closed property on `[0, n)` holds exactly on an initial
segment whose length is its count. -/
theorem count_downward (n : Nat) (P : Nat → Bool)
    (hdc : ∀ r r', r' ≤ r → r < n → P r = true → P r' = true) :
    ∀ r, r < n → (P r = true ↔ r < (List.range n).countP P) := by
  induction n with
  | zero => intro r hr; omega
  | succ n ih =>
    have hdc' : ∀ r r', r' ≤ r → r < n → P r = true → P r' = true :=
      fun r r' h1 h2 h3 => hdc r r' h1 (by omega) h3
    by_cases hPn : P n = true
    · have hall : ∀ r, r < n + 1 → P r = true :=
        fun r hr => hdc n r (by omega) (by omega) hPn
      have hcount : (List.range (n + 1)).countP P = n + 1 := by
        rw [List.countP_eq_length.mpr]
        · simp
        · intro a ha
          exact hall a (List.mem_range.mp ha)
      intro r hr
      rw [hcount]
      exact ⟨fun _ => hr, fun _ => hall r hr⟩
    · have hcount : (List.range (n + 1)).countP P = (List.range n).countP P := by
        rw [List.range_succ, List.countP_append]
        simp [hPn]
      intro r hr
      rw [hcount]
      rcases Nat.lt_or_ge r n with hlt | hge
      · exact ih hdc' r hlt
      · have hrn : n = r := by omega
        subst hrn
        constructor
        · intro h; exact absurd h hPn
        · intro h
          have hle : (List.range n).countP P ≤ (List.range n).length :=
            List.countP_le_length P
          rw [List.length_range] at hle
          omega

/-! `compute_first_occurrences`: the returned dict maps each character of
the BWT to the number of strictly smaller characters of the BWT. -/

theorem char_toNat_ofNat (m : Nat) (hm : m < 55296) : (Char.ofNat m).toNat = m := by
  rw [Char.ofNat, dif_pos (Or.inl hm : Nat.isValidChar m)]
  rfl

theorem char_lt_toNat (a b : Char) : a < b ↔ a.toNat < b.toNat := Iff.rfl

theorem foC0_spec :
    ∀ (l : List Char) (C : Char → Option Nat) (d : Char),
      (l.foldl (fun (C : Char → Option Nat) char =>
        fun d => if d = char then some 0 else C d) C) d
        = if d ∈ l then some 0 else C d := by
  intro l
  induction l with
  | nil => intro C d; simp
  | cons a tl ih =>
    intro C d
    rw [List.foldl_cons, ih]
    by_cases hmem : d ∈ tl
    · rw [if_pos hmem, if_pos (List.mem_cons_of_mem a hmem)]
    · rw [if_neg hmem]
      by_cases hda : d = a
      · subst hda
        rw [if_pos rfl, if_pos (List.mem_cons_self d tl)]
      · rw [if_neg hda, if_neg (by simp [hda, hmem])]

theorem foCounts_spec :
    ∀ (l : List Char) (cnt : Nat → Nat) (i : Nat),
      (l.foldl (fun (cnt : Nat → Nat) char =>
        fun i => if i = char.toNat then cnt i + 1 else cnt i) cnt) i
        = cnt i + l.countP (fun d => decide (d.toNat = i)) := by
  intro l
  induction l with
  | nil => intro cnt i; simp
  | cons a tl ih =>
    intro cnt i
    rw [List.foldl_cons, ih, List.countP_cons]
    rcases eq_or_ne i a.toNat with hia | hia
    · subst hia
      rw [if_pos rfl]
      have hone : (if decide (a.toNat = a.toNat) = true then 1 else 0) = 1 := by simp
      rw [hone]
      omega
    · rw [if_neg hia]
      have hd : ¬ (a.toNat = i) := fun h => hia h.symm
      simp only [decide_eq_true_eq, if_neg hd]
      omega

theorem countP_code_lt_succ (l : List Char) (k : Nat) :
    l.countP (fun d => decide (d.toNat < k + 1)) =
      l.countP (fun d => decide (d.toNat < k)) +
        l.countP (fun d => decide (d.toNat = k)) := by
  induction l with
  | nil => simp
  | cons a tl ih =>
    rw [List.countP_cons, List.countP_cons, List.countP_cons, ih]
    simp only [decide_eq_true_eq]
    split_ifs <;> omega

theorem foScan_spec (L : List Char) (hchars : ∀ c ∈ L, c.toNat < 256)
    (C0 : Char → Option Nat) (hC0 : ∀ d, C0 d = if d ∈ L then some 0 else none)
    (cnt : Nat → Nat) (hcnt : ∀ i, cnt i = L.countP (fun d => decide (d.toNat = i))) :
    ∀ m, m ≤ 256 →
      (foScan cnt C0 m).2 = L.countP (fun d => decide (d.toNat < m)) ∧
      ∀ d : Char, (foScan cnt C0 m).1 d =
        if d.toNat < m ∧ d ∈ L then
          some (L.countP (fun e => decide (e.toNat < d.toNat)))
        else C0 d := by
  intro m
  induction m with
  | zero =>
    intro _
    constructor
    · simp [foScan]
    · intro d
      rw [if_neg (by simp)]
      rfl
  | succ m ih =>
    intro hm
    obtain ⟨ih2, ih1⟩ := ih (by omega)
    have hstep : foScan cnt C0 (m + 1) =
        (if cnt m ≠ 0 then
          ((fun d => if d = Char.ofNat m then some (foScan cnt C0 m).2
              else (foScan cnt C0 m).1 d), (foScan cnt C0 m).2 + cnt m)
        else ((foScan cnt C0 m).1, (foScan cnt C0 m).2 + cnt m)) := by
      conv_lhs => rw [foScan, List.range_succ, List.foldl_append]
      rfl
    have hs2 : (foScan cnt C0 (m + 1)).2 = (foScan cnt C0 m).2 + cnt m := by
      rw [hstep]
      by_cases h : cnt m ≠ 0
      · rw [if_pos h]
      · rw [if_neg h]
    constructor
    · rw [hs2, ih2, hcnt m, countP_code_lt_succ]
    · intro d
      by_cases hc : cnt m ≠ 0
      · rw [hstep, if_pos hc]
        by_cases hdm : d = Char.ofNat m
        · have hdm' : d.toNat = m := by
            rw [hdm]
            exact char_toNat_ofNat m (by omega)
          have hdmem : d ∈ L := by
            rw [hcnt m] at hc
            have hpos : 0 < L.countP (fun e => decide (e.toNat = m)) :=
              Nat.pos_of_ne_zero hc
            obtain ⟨e, hel, hem⟩ := List.countP_pos_iff.mp hpos
            have hem' : e.toNat = m := of_decide_eq_true hem
            have hde : d = e := by rw [hdm, ← hem', Char.ofNat_toNat]
            rw [hde]
            exact hel
          dsimp only
          rw [if_pos hdm, if_pos ⟨by omega, hdmem⟩, ih2, hdm']
        · dsimp only
          rw [if_neg hdm, ih1 d]
          by_cases h1 : d.toNat < m ∧ d ∈ L
          · rw [if_pos h1, if_pos ⟨by omega, h1.2⟩]
          · rw [if_neg h1]
            by_cases h2 : d.toNat < m + 1 ∧ d ∈ L
            · exfalso
              have hmem : d ∈ L := h2.2
              have hnotlt : ¬ d.toNat < m := fun hl => h1 ⟨hl, hmem⟩
              have heq : d.toNat = m := by omega
              apply hdm
              rw [← heq, Char.ofNat_toNat]
            · rw [if_neg h2]
      · rw [hstep, if_neg hc]
        dsimp only
        rw [ih1 d]
        have hcm : cnt m = 0 := not_not.mp hc
        by_cases h1 : d.toNat < m ∧ d ∈ L
        · rw [if_pos h1, if_pos ⟨by omega, h1.2⟩]
        · rw [if_neg h1]
          by_cases h2 : d.toNat < m + 1 ∧ d ∈ L
          · exfalso
            have hmem : d ∈ L := h2.2
            have hnotlt : ¬ d.toNat < m := fun hl => h1 ⟨hl, hmem⟩
            have heq : d.toNat = m := by omega
            rw [hcnt m] at hcm
            have hpos : 0 < L.countP (fun e => decide (e.toNat = m)) :=
              List.countP_pos_iff.mpr ⟨d, hmem, by simp [heq]⟩
            omega
          · rw [if_neg h2]

/-- Specification of `compute_first_occurrences` on a BWT whose characters
all have code points below 256. -/
theorem fo_spec (L : List Char) (hchars : ∀ c ∈ L, c.toNat < 256) :
    ∃ F, compute_first_occurrences L = some F ∧
      (∀ c, c ∈ L → F c = some (cntLt L c)) ∧
      (∀ c, c ∉ L → F c = none) := by
  have hC0 : ∀ d, (L.foldl (fun (C : Char → Option Nat) char =>
      fun d => if d = char then some 0 else C d) (fun _ => none)) d
      = if d ∈ L then some 0 else none := by
    intro d
    rw [foC0_spec]
  have hcnt : ∀ i, (L.foldl (fun (cnt : Nat → Nat) char =>
      fun i => if i = char.toNat then cnt i + 1 else cnt i) (fun _ => 0)) i
      = L.countP (fun d => decide (d.toNat = i)) := by
    intro i
    rw [foCounts_spec]
    omega
  have hconv : ∀ c : Char, L.countP (fun e => decide (e.toNat < c.toNat)) = cntLt L c := by
    intro c
    rw [cntLt]
    apply List.countP_congr
    intro e _
    simp only [decide_eq_true_eq]
    exact (char_lt_toNat e c).symm
  obtain ⟨hs2, hs1⟩ := foScan_spec L hchars _ hC0 _ hcnt 256 (le_refl 256)
  refine ⟨(foScan
      (L.foldl (fun (cnt : Nat → Nat) char =>
        fun i => if i = char.toNat then cnt i + 1 else cnt i) (fun _ => 0))
      (L.foldl (fun (C : Char → Option Nat) char =>
        fun d => if d = char then some 0 else C d) (fun _ => none)) 256).1, ?_, ?_, ?_⟩
  · rw [compute_first_occurrences, if_pos hchars]
    rfl
  · intro c hcmem
    rw [hs1 c, if_pos ⟨hchars c hcmem, hcmem⟩, hconv c]
  · intro c hcmem
    rw [hs1 c, if_neg (fun h => hcmem h.2), hC0 c, if_neg hcmem]

/-! `compute_rank_arr`: entry `p` is the running count of `bwt[p]` over
`bwt[0..p]`. -/

theorem char_toNat_inj {a b : Char} (h : a.toNat = b.toNat) : a = b := by
  apply Char.ext
  apply UInt32.eq_of_toBitVec_eq
  apply BitVec.eq_of_toNat_eq
  exact h

theorem countP_code_eq (l : List Char) (c : Char) :
    l.countP (fun d => decide (d.toNat = c.toNat)) =
      l.countP (fun d => decide (d = c)) := by
  apply List.countP_congr
  intro e _
  simp only [decide_eq_true_eq]
  exact ⟨fun h => char_toNat_inj h, fun h => by rw [h]⟩

theorem rankArr_foldl (l : List Char) :
    ∀ (acc : List Nat) (cnt : Char → Nat),
      (l.foldl (fun (st : List Nat × (Char → Nat)) char =>
        let c := st.2 char + 1
        (st.1 ++ [c], fun d => if d = char then c else st.2 d)) (acc, cnt)).1
      = acc ++ rankArrFrom cnt l := by
  induction l with
  | nil => intro acc cnt; simp [rankArrFrom]
  | cons a tl ih =>
    intro acc cnt
    rw [List.foldl_cons]
    rw [ih, rankArrFrom]
    simp

theorem rankArrFrom_length (l : List Char) :
    ∀ cnt, (rankArrFrom cnt l).length = l.length := by
  induction l with
  | nil => intro cnt; rfl
  | cons a tl ih =>
    intro cnt
    rw [rankArrFrom]
    simp [ih]

theorem compute_rank_arr_eq (L : List Char) :
    compute_rank_arr L = rankArrFrom (fun _ => 0) L := by
  rw [compute_rank_arr, rankArr_foldl L [] (fun _ => 0), List.nil_append]

theorem rankArrFrom_getD (l : List Char) :
    ∀ (cnt : Char → Nat) (p : Nat), p < l.length →
      (rankArrFrom cnt l).getD p 0
        = cnt (l.getD p '$') + cntOcc l (l.getD p '$') (p + 1) := by
  induction l with
  | nil => intro cnt p hp; simp at hp
  | cons a tl ih =>
    intro cnt p hp
    match p with
    | 0 =>
      rw [rankArrFrom]
      simp only [List.getD_cons_zero]
      have h1 : cntOcc (a :: tl) a 1 = 1 := by
        rw [cntOcc]
        simp [List.take]
      rw [h1]
    | p + 1 =>
      rw [rankArrFrom]
      simp only [List.getD_cons_succ]
      rw [ih _ p (by simpa using hp)]
      have h2 : cntOcc (a :: tl) (tl.getD p '$') (p + 1 + 1)
          = (if a = tl.getD p '$' then 1 else 0) + cntOcc tl (tl.getD p '$') (p + 1) := by
        rw [cntOcc, cntOcc, List.take_succ_cons, List.countP_cons]
        simp only [decide_eq_true_eq]
        omega
      rw [h2]
      by_cases hac : a = tl.getD p '$'
      · rw [if_pos hac, if_pos hac.symm, ← hac]
        omega
      · rw [if_neg hac, if_neg (fun h => hac h.symm)]
        omega

theorem rank_arr_len (L : List Char) : (compute_rank_arr L).length = L.length := by
  rw [compute_rank_arr_eq, rankArrFrom_length]

theorem rank_arr_getD (L : List Char) (p : Nat) (hp : p < L.length) :
    (compute_rank_arr L).getD p 0 = cntOcc L (L.getD p '$') (p + 1) := by
  rw [compute_rank_arr_eq, rankArrFrom_getD L _ p hp]
  omega

/-! `compute_checkpoint_arrs`: the snapshot stored at key `j` (with
`j % 5 = 0`) counts occurrences by code point over `bwt[0..j]`. -/

theorem countP_take_succ (l : List Char) (q : Char → Bool) (m : Nat) (hm : m < l.length) :
    (l.take (m + 1)).countP q
      = (l.take m).countP q + if q (l.getD m '$') then 1 else 0 := by
  rw [List.take_succ, List.countP_append, List.getElem?_eq_getElem hm,
      List.getD_eq_getElem _ '$' hm]
  simp [List.countP_singleton]

theorem cpsScan_succ (L : List Char) (m : Nat) :
    cpsScan L (m + 1) =
      (if m % 5 = 0 then
        ((fun kk => if kk = (m : Int) then
            some (fun d => if d = (L.getD m '$').toNat then (cpsScan L m).2 d + 1
              else (cpsScan L m).2 d)
          else (cpsScan L m).1 kk),
         (fun d => if d = (L.getD m '$').toNat then (cpsScan L m).2 d + 1
            else (cpsScan L m).2 d))
      else ((cpsScan L m).1,
        (fun d => if d = (L.getD m '$').toNat then (cpsScan L m).2 d + 1
          else (cpsScan L m).2 d))) := by
  conv_lhs => rw [cpsScan, List.range_succ, List.foldl_append]
  rfl

theorem cpsScan_snd (L : List Char) :
    ∀ m, m ≤ L.length → ∀ code, (cpsScan L m).2 code
      = (L.take m).countP (fun d => decide (d.toNat = code)) := by
  intro m
  induction m with
  | zero => intro _ code; simp [cpsScan]
  | succ m ih =>
    intro hm code
    have hsnd : (cpsScan L (m + 1)).2 =
        fun d => if d = (L.getD m '$').toNat then (cpsScan L m).2 d + 1
          else (cpsScan L m).2 d := by
      rw [cpsScan_succ]
      by_cases h5 : m % 5 = 0
      · rw [if_pos h5]
      · rw [if_neg h5]
    rw [hsnd]
    dsimp only
    rw [ih (by omega) code,
        countP_take_succ L _ m (by omega)]
    by_cases hcode : code = (L.getD m '$').toNat
    · rw [if_pos hcode]
      have hq : decide ((L.getD m '$').toNat = code) = true := decide_eq_true hcode.symm
      rw [hq]
      simp
    · rw [if_neg hcode]
      have hq : decide ((L.getD m '$').toNat = code) = false :=
        decide_eq_false (fun h => hcode h.symm)
      rw [hq]
      simp

theorem cpsScan_fst (L : List Char) :
    ∀ m, m ≤ L.length → ∀ j : Nat, j < m → j % 5 = 0 →
      ∃ f, (cpsScan L m).1 (j : Int) = some f ∧
        ∀ code, f code = (L.take (j + 1)).countP (fun d => decide (d.toNat = code)) := by
  intro m
  induction m with
  | zero => intro _ j hj _; omega
  | succ m ih =>
    intro hm j hj h5
    rcases Nat.lt_or_ge j m with hjm | hjm
    · obtain ⟨f, hf, hfval⟩ := ih (by omega) j hjm h5
      refine ⟨f, ?_, hfval⟩
      rw [cpsScan_succ]
      by_cases hm5 : m % 5 = 0
      · rw [if_pos hm5]
        dsimp only
        rw [if_neg (by omega : ¬ ((j : Int) = (m : Int)))]
        exact hf
      · rw [if_neg hm5]
        exact hf
    · have hjm' : j = m := by omega
      subst hjm'
      rw [cpsScan_succ, if_pos h5]
      dsimp only
      rw [if_pos rfl]
      refine ⟨_, rfl, ?_⟩
      intro code
      rw [countP_take_succ L _ j (by omega)]
      by_cases hcode : code = (L.getD j '$').toNat
      · rw [if_pos hcode, cpsScan_snd L j (by omega) code]
        have hq : decide ((L.getD j '$').toNat = code) = true := decide_eq_true hcode.symm
        rw [hq]
        simp
      · rw [if_neg hcode, cpsScan_snd L j (by omega) code]
        have hq : decide ((L.getD j '$').toNat = code) = false :=
          decide_eq_false (fun h => hcode h.symm)
        rw [hq]
        simp

/-- Specification of `compute_checkpoint_arrs` for code points below 256. -/
theorem cps_spec (L : List Char) (hchars : ∀ c ∈ L, c.toNat < 256) :
    ∃ G, compute_checkpoint_arrs L = some G ∧
      ∀ j : Nat, j < L.length → j % 5 = 0 →
        ∃ f, G (j : Int) = some f ∧
          ∀ code, f code = (L.take (j + 1)).countP (fun d => decide (d.toNat = code)) := by
  refine ⟨(cpsScan L L.length).1, ?_, ?_⟩
  · rw [compute_checkpoint_arrs, if_pos hchars]
    rfl
  · intro j hj h5
    exact cpsScan_fst L L.length (le_refl _) j hj h5

/-! `compute_rank`: checkpoint plus rescan computes the inclusive
occurrence count. -/

theorem pyGet_natCast (L : List Char) (i : Nat) : pyGet L (i : Int) = L.getD i '$' := by
  rw [pyGet, if_neg (by omega)]
  simp

theorem rescan_fold (L : List Char) (c : Char) (K : Nat) :
    ∀ (k : Nat), K + k < L.length → ∀ r0 : Nat, r0 = cntOcc L c (K + 1) →
      (List.range k).foldl
        (fun (r : Nat) (o : Nat) =>
          if pyGet L ((K : Int) + 1 + (o : Int)) = c then r + 1 else r) r0
      = cntOcc L c (K + 1 + k) := by
  intro k
  induction k with
  | zero => intro _ r0 hr0; simpa using hr0
  | succ k ih =>
    intro hk r0 hr0
    rw [List.range_succ, List.foldl_append, ih (by omega) r0 hr0]
    simp only [List.foldl_cons, List.foldl_nil]
    have hcast : (K : Int) + 1 + (k : Int) = ((K + 1 + k : Nat) : Int) := by push_cast; ring
    rw [hcast, pyGet_natCast]
    have hstep : K + 1 + (k + 1) = K + 1 + k + 1 := by omega
    rw [hstep, cntOcc_succ L c (K + 1 + k) (by omega)]
    by_cases hc : L.getD (K + 1 + k) '$' = c
    · rw [if_pos hc, if_pos hc]
    · rw [if_neg hc, if_neg hc]
      omega

theorem compute_rank_spec (L : List Char) (G : Int → Option (Nat → Nat))
    (hG : ∀ j : Nat, j < L.length → j % 5 = 0 →
      ∃ f, G (j : Int) = some f ∧
        ∀ code, f code = (L.take (j + 1)).countP (fun d => decide (d.toNat = code)))
    (idx : Int) (h0 : 0 ≤ idx) (hn : idx < (L.length : Int)) (c : Char) :
    compute_rank L idx G c 5 = some (cntOcc L c (idx.toNat + 1)) := by
  have hI : idx = ((idx.toNat : Nat) : Int) := by omega
  have hd : idx % 5 = ((idx.toNat % 5 : Nat) : Int) := by
    rw [hI]
    push_cast
    rfl
  have hK5 : (idx.toNat - idx.toNat % 5) % 5 = 0 := by
    have hdm := Nat.div_add_mod idx.toNat 5
    have he : idx.toNat - idx.toNat % 5 = 5 * (idx.toNat / 5) := by omega
    rw [he]
    exact Nat.mul_mod_right 5 _
  have hKlt : idx.toNat - idx.toNat % 5 < L.length := by omega
  obtain ⟨f, hf, hfval⟩ := hG (idx.toNat - idx.toNat % 5) hKlt hK5
  have hkey : idx - idx % 5 = ((idx.toNat - idx.toNat % 5 : Nat) : Int) := by
    rw [hd]
    have hle : idx.toNat % 5 ≤ idx.toNat := Nat.mod_le _ _
    omega
  simp only [compute_rank]
  rw [hkey, hf]
  have hfc : f c.toNat = cntOcc L c (idx.toNat - idx.toNat % 5 + 1) := by
    rw [hfval c.toNat, cntOcc]
    exact countP_code_eq _ c
  have hdn : (idx % 5).toNat = idx.toNat % 5 := by
    rw [hd]
    omega
  have hfold : (List.range (idx % 5).toNat).foldl
      (fun (r : Nat) (o : Nat) =>
        if pyGet L (((idx.toNat - idx.toNat % 5 : Nat) : Int) + 1 + (o : Int)) = c
          then r + 1 else r)
      (f c.toNat)
      = cntOcc L c (idx.toNat - idx.toNat % 5 + 1 + idx.toNat % 5) := by
    rw [hdn]
    apply rescan_fold L c (idx.toNat - idx.toNat % 5) (idx.toNat % 5)
    · omega
    · exact hfc
  show some ((List.range (idx % 5).toNat).foldl
      (fun (r : Nat) (o : Nat) =>
        if pyGet L (((idx.toNat - idx.toNat % 5 : Nat) : Int) + 1 + (o : Int)) = c
          then r + 1 else r) (f c.toNat))
    = some (cntOcc L c (idx.toNat + 1))
  rw [hfold]
  have harith : idx.toNat - idx.toNat % 5 + 1 + idx.toNat % 5 = idx.toNat + 1 := by omega
  rw [harith]

/-! Block structure of the first column: rows whose suffix starts with `c`
form the interval `[cntLt T c, cntLt T c + (count of c in T))`. -/

theorem countP_char_le_split (l : List Char) (c : Char) :
    l.countP (fun d => decide (d ≤ c)) =
      l.countP (fun d => decide (d < c)) + l.countP (fun d => decide (d = c)) := by
  induction l with
  | nil => simp
  | cons a tl ih =>
    rw [List.countP_cons, List.countP_cons, List.countP_cons, ih]
    simp only [decide_eq_true_eq]
    rcases lt_trichotomy a c with h | h | h
    · rw [if_pos (le_of_lt h), if_pos h, if_neg (ne_of_lt h)]
      omega
    · subst h
      rw [if_pos (le_refl a), if_neg (lt_irrefl a), if_pos rfl]
      omega
    · rw [if_neg (not_le.mpr h), if_neg (not_lt.mpr (le_of_lt h)), if_neg (ne_of_gt h)]
      omega

theorem countP_range_restrict : ∀ (n m : Nat), m ≤ n → ∀ (P : Nat → Prop),
    ∀ inst : DecidablePred P,
    (List.range n).countP (fun x => decide (x < m ∧ P x))
      = (List.range m).countP (fun x => decide (P x)) := by
  intro n
  induction n with
  | zero =>
    intro m hm P inst
    have hm0 : m = 0 := by omega
    subst hm0
    simp
  | succ n ih =>
    intro m hm P inst
    rcases Nat.lt_or_ge n m with hnm | hnm
    · have hm1 : m = n + 1 := by omega
      subst hm1
      apply List.countP_congr
      intro x hx
      have hxn : x < n + 1 := List.mem_range.mp hx
      simp only [decide_eq_true_eq]
      constructor
      · exact fun h => h.2
      · exact fun h => ⟨hxn, h⟩
    · rw [List.range_succ, List.countP_append, ih m hnm P inst]
      have hno : ¬ (n < m ∧ P n) := fun h => by omega
      simp only [List.countP_singleton, decide_eq_true_eq, if_neg hno]
      omega

theorem fcol_lt_iff {T : List Char} {sa : List Nat}
    (hperm : sa.Perm (List.range T.length))
    (hsort : ∀ p q, p < q → q < T.length →
      sufLt (T.drop (sa.getD p 0)) (T.drop (sa.getD q 0)) = true)
    (c : Char) {r : Nat} (hr : r < T.length) :
    (fcol T sa r < c ↔ r < cntLt T c) := by
  have hdc : ∀ x x', x' ≤ x → x < T.length →
      (fun y => decide (fcol T sa y < c)) x = true →
      (fun y => decide (fcol T sa y < c)) x' = true := by
    intro x x' hxx hx hPx
    have h1 : fcol T sa x < c := of_decide_eq_true hPx
    have h2 : fcol T sa x' ≤ fcol T sa x := fcol_mono hperm hsort hxx hx
    exact decide_eq_true (lt_of_le_of_lt h2 h1)
  have h := count_downward T.length (fun y => decide (fcol T sa y < c)) hdc r hr
  have hcnt : (List.range T.length).countP (fun y => decide (fcol T sa y < c))
      = T.countP (fun d => decide (d < c)) :=
    countP_rows_chars hperm (fun d => decide (d < c))
  rw [hcnt] at h
  simp only [decide_eq_true_eq] at h
  exact h

theorem fcol_le_iff {T : List Char} {sa : List Nat}
    (hperm : sa.Perm (List.range T.length))
    (hsort : ∀ p q, p < q → q < T.length →
      sufLt (T.drop (sa.getD p 0)) (T.drop (sa.getD q 0)) = true)
    (c : Char) {r : Nat} (hr : r < T.length) :
    (fcol T sa r ≤ c ↔ r < cntLt T c + T.countP (fun d => decide (d = c))) := by
  have hdc : ∀ x x', x' ≤ x → x < T.length →
      (fun y => decide (fcol T sa y ≤ c)) x = true →
      (fun y => decide (fcol T sa y ≤ c)) x' = true := by
    intro x x' hxx hx hPx
    have h1 : fcol T sa x ≤ c := of_decide_eq_true hPx
    have h2 : fcol T sa x' ≤ fcol T sa x := fcol_mono hperm hsort hxx hx
    exact decide_eq_true (le_trans h2 h1)
  have h := count_downward T.length (fun y => decide (fcol T sa y ≤ c)) hdc r hr
  have hcnt : (List.range T.length).countP (fun y => decide (fcol T sa y ≤ c))
      = T.countP (fun d => decide (d ≤ c)) :=
    countP_rows_chars hperm (fun d => decide (d ≤ c))
  rw [hcnt, countP_char_le_split] at h
  simp only [decide_eq_true_eq] at h
  rw [cntLt]
  exact h

theorem fcol_eq_iff {T : List Char} {sa : List Nat}
    (hperm : sa.Perm (List.range T.length))
    (hsort : ∀ p q, p < q → q < T.length →
      sufLt (T.drop (sa.getD p 0)) (T.drop (sa.getD q 0)) = true)
    (c : Char) {r : Nat} (hr : r < T.length) :
    (fcol T sa r = c ↔
      cntLt T c ≤ r ∧ r < cntLt T c + T.countP (fun d => decide (d = c))) := by
  constructor
  · intro h
    constructor
    · by_contra hlt
      have h2 : r < cntLt T c := by omega
      have h3 : fcol T sa r < c := (fcol_lt_iff hperm hsort c hr).mpr h2
      rw [h] at h3
      exact lt_irrefl _ h3
    · exact (fcol_le_iff hperm hsort c hr).mp (le_of_eq h)
  · intro ⟨h1, h2⟩
    have h3 : fcol T sa r ≤ c := (fcol_le_iff hperm hsort c hr).mpr h2
    have h4 : ¬ fcol T sa r < c := fun h5 => by
      have := (fcol_lt_iff hperm hsort c hr).mp h5
      omega
    exact le_antisymm h3 (not_lt.mp h4)

/-! The last-to-first map: basic properties. -/

theorem lfRow_lt {T : List Char} {sa : List Nat} (hT : T ≠ [])
    (hperm : sa.Perm (List.range T.length)) {q : Nat} (hq : q < T.length) :
    lfRow T sa q < T.length := by
  have hn : 1 ≤ T.length := List.length_pos.mpr hT
  exact rowOf_lt hperm (Nat.mod_lt _ (by omega))

theorem sa_lfRow {T : List Char} {sa : List Nat} (hT : T ≠ [])
    (hperm : sa.Perm (List.range T.length)) {q : Nat} (hq : q < T.length) :
    sa.getD (lfRow T sa q) 0 = (sa.getD q 0 + T.length - 1) % T.length := by
  have hn : 1 ≤ T.length := List.length_pos.mpr hT
  exact sa_rowOf hperm (Nat.mod_lt _ (by omega))

theorem fcol_lfRow {T : List Char} {sa : List Nat} (hT : T ≠ [])
    (hperm : sa.Perm (List.range T.length)) {q : Nat} (hq : q < T.length) :
    fcol T sa (lfRow T sa q) = (bwt_from_suffix_array T sa).getD q '$' := by
  rw [fcol, sa_lfRow hT hperm hq, bwt_getD_eq hT hperm hq]

theorem lfRow_inj {T : List Char} {sa : List Nat} (hT : T ≠ [])
    (hperm : sa.Perm (List.range T.length)) {q1 q2 : Nat}
    (h1 : q1 < T.length) (h2 : q2 < T.length)
    (he : lfRow T sa q1 = lfRow T sa q2) : q1 = q2 := by
  have hn : 1 ≤ T.length := List.length_pos.mpr hT
  have hv1 : sa.getD q1 0 < T.length := sa_getD_lt hperm h1
  have hv2 : sa.getD q2 0 < T.length := sa_getD_lt hperm h2
  have hs1 := sa_lfRow hT hperm h1
  have hs2 := sa_lfRow hT hperm h2
  have hmod : (sa.getD q1 0 + T.length - 1) % T.length
      = (sa.getD q2 0 + T.length - 1) % T.length := by
    rw [← hs1, ← hs2, he]
  rw [pred_mod _ _ hn hv1, pred_mod _ _ hn hv2] at hmod
  have hveq : sa.getD q1 0 = sa.getD q2 0 := by
    by_cases e1 : sa.getD q1 0 = 0
    · by_cases e2 : sa.getD q2 0 = 0
      · rw [e1, e2]
      · rw [if_pos e1, if_neg e2] at hmod
        omega
    · by_cases e2 : sa.getD q2 0 = 0
      · rw [if_neg e1, if_pos e2] at hmod
        omega
      · rw [if_neg e1, if_neg e2] at hmod
        omega
  exact sa_getD_inj hperm h1 h2 hveq

theorem lfRow_surj {T : List Char} {sa : List Nat} (hT : T ≠ [])
    (hperm : sa.Perm (List.range T.length)) {p : Nat} (hp : p < T.length) :
    ∃ q, q < T.length ∧ lfRow T sa q = p ∧
      sa.getD q 0 = (sa.getD p 0 + 1) % T.length := by
  have hn : 1 ≤ T.length := List.length_pos.mpr hT
  have hv : sa.getD p 0 < T.length := sa_getD_lt hperm hp
  have hsucc : (sa.getD p 0 + 1) % T.length < T.length := Nat.mod_lt _ (by omega)
  refine ⟨rowOf sa ((sa.getD p 0 + 1) % T.length), rowOf_lt hperm hsucc, ?_,
    sa_rowOf hperm hsucc⟩
  rw [lfRow, sa_rowOf hperm hsucc]
  have hmod : (((sa.getD p 0 + 1) % T.length) + T.length - 1) % T.length = sa.getD p 0 := by
    rw [succ_mod _ _ hv]
    by_cases hvn : sa.getD p 0 = T.length - 1
    · rw [if_pos hvn, pred_mod _ _ hn (by omega), if_pos rfl]
      omega
    · rw [if_neg hvn, pred_mod _ _ hn (by omega), if_neg (by omega)]
      omega
  rw [hmod]
  exact rowOf_getD hperm hp

theorem sufLt_cons_self (a : Char) (u v : List Char) :
    sufLt (a :: u) (a :: v) = sufLt u v := by
  rw [sufLt_cons, if_neg (lt_irrefl a), if_neg (lt_irrefl a)]

theorem lfRow_mono_c {T : List Char} {sa : List Nat} (hT : T ≠ [])
    (hperm : sa.Perm (List.range T.length))
    (hsort : ∀ p q, p < q → q < T.length →
      sufLt (T.drop (sa.getD p 0)) (T.drop (sa.getD q 0)) = true)
    (hsent : ∀ i, i < T.length - 1 → '$' < T.getD i '$')
    (hlast : T.getD (T.length - 1) '$' = '$')
    {q1 q2 : Nat} (h12 : q1 < q2) (hq2 : q2 < T.length)
    (hc : (bwt_from_suffix_array T sa).getD q1 '$'
        = (bwt_from_suffix_array T sa).getD q2 '$') :
    lfRow T sa q1 < lfRow T sa q2 := by
  have hq1 : q1 < T.length := lt_trans h12 hq2
  have hn : 1 ≤ T.length := List.length_pos.mpr hT
  have hv1 : sa.getD q1 0 < T.length := sa_getD_lt hperm hq1
  have hv2 : sa.getD q2 0 < T.length := sa_getD_lt hperm hq2
  by_cases hdollar : (bwt_from_suffix_array T sa).getD q1 '$' = '$'
  · exfalso
    have e1 : sa.getD q1 0 = 0 := (bwt_dollar hT hsent hlast hperm hq1).mp hdollar
    have e2 : sa.getD q2 0 = 0 := (bwt_dollar hT hsent hlast hperm hq2).mp (hc ▸ hdollar)
    have heq := sa_getD_inj hperm hq1 hq2 (by rw [e1, e2])
    omega
  · have e1 : sa.getD q1 0 ≠ 0 :=
      fun h => hdollar ((bwt_dollar hT hsent hlast hperm hq1).mpr h)
    have e2 : sa.getD q2 0 ≠ 0 := fun h => hdollar (by
      rw [hc]
      exact (bwt_dollar hT hsent hlast hperm hq2).mpr h)
    have hs := hsort q1 q2 h12 hq2
    have hb1 : (bwt_from_suffix_array T sa).getD q1 '$'
        = T.getD (sa.getD q1 0 - 1) '$' := by
      rw [bwt_getD_eq hT hperm hq1, pred_mod _ _ hn hv1, if_neg e1]
    have hb2 : (bwt_from_suffix_array T sa).getD q2 '$'
        = T.getD (sa.getD q2 0 - 1) '$' := by
      rw [bwt_getD_eq hT hperm hq2, pred_mod _ _ hn hv2, if_neg e2]
    have hd1 : T.drop (sa.getD q1 0 - 1)
        = T.getD (sa.getD q1 0 - 1) '$' :: T.drop (sa.getD q1 0) := by
      rw [drop_head_cons T _ (by omega)]
      have he : sa.getD q1 0 - 1 + 1 = sa.getD q1 0 := by omega
      rw [he]
    have hd2 : T.drop (sa.getD q2 0 - 1)
        = T.getD (sa.getD q2 0 - 1) '$' :: T.drop (sa.getD q2 0) := by
      rw [drop_head_cons T _ (by omega)]
      have he : sa.getD q2 0 - 1 + 1 = sa.getD q2 0 := by omega
      rw [he]
    have hs1 : sa.getD (lfRow T sa q1) 0 = sa.getD q1 0 - 1 := by
      rw [sa_lfRow hT hperm hq1, pred_mod _ _ hn hv1, if_neg e1]
    have hs2 : sa.getD (lfRow T sa q2) 0 = sa.getD q2 0 - 1 := by
      rw [sa_lfRow hT hperm hq2, pred_mod _ _ hn hv2, if_neg e2]
    have hcmp : sufLt (T.drop (sa.getD (lfRow T sa q1) 0))
        (T.drop (sa.getD (lfRow T sa q2) 0)) = true := by
      rw [hs1, hs2, hd1, hd2, ← hb1, ← hb2, ← hc, sufLt_cons_self]
      exact hs
    exact (sa_lt_iff hsort (lfRow_lt hT hperm hq1) (lfRow_lt hT hperm hq2)).mp hcmp

/-- The LF formula: the last-to-first map sends row `q` to
`C[bwt[q]] + occ(bwt[q], q) − 1`, exactly the step the source performs in
`bw_better_match_pattern` and `compute_idxes_from_top_bot`. -/
theorem lf_formula {T : List Char} {sa : List Nat} (hT : T ≠ [])
    (hperm : sa.Perm (List.range T.length))
    (hsort : ∀ p q, p < q → q < T.length →
      sufLt (T.drop (sa.getD p 0)) (T.drop (sa.getD q 0)) = true)
    (hsent : ∀ i, i < T.length - 1 → '$' < T.getD i '$')
    (hlast : T.getD (T.length - 1) '$' = '$')
    {q : Nat} (hq : q < T.length) {c : Char}
    (hc : (bwt_from_suffix_array T sa).getD q '$' = c) :
    lfRow T sa q = cntLt T c + cntOcc (bwt_from_suffix_array T sa) c (q + 1) - 1 := by
  have hn : 1 ≤ T.length := List.length_pos.mpr hT
  have ht : lfRow T sa q < T.length := lfRow_lt hT hperm hq
  have hLlen : (bwt_from_suffix_array T sa).length = T.length := bwt_len hperm
  have hfc : fcol T sa (lfRow T sa q) = c := by
    rw [fcol_lfRow hT hperm hq, hc]
  have hblock := (fcol_eq_iff hperm hsort c ht).mp hfc
  have hocc1 : cntOcc (bwt_from_suffix_array T sa) c (q + 1)
      = cntOcc (bwt_from_suffix_array T sa) c q + 1 := by
    rw [cntOcc_succ _ _ q (by omega), hc, if_pos rfl]
  have hA : (List.range T.length).countP
      (fun p => decide (p < lfRow T sa q ∧ fcol T sa p = c))
      = lfRow T sa q - cntLt T c := by
    have hcg : (List.range T.length).countP
        (fun p => decide (p < lfRow T sa q ∧ fcol T sa p = c))
        = (List.range T.length).countP
        (fun p => decide (cntLt T c ≤ p ∧ p < lfRow T sa q)) := by
      apply List.countP_congr
      intro x hx
      have hxn : x < T.length := List.mem_range.mp hx
      simp only [decide_eq_true_eq]
      constructor
      · intro hcase
        exact ⟨((fcol_eq_iff hperm hsort c hxn).mp hcase.2).1, hcase.1⟩
      · intro hcase
        refine ⟨hcase.2, ?_⟩
        exact (fcol_eq_iff hperm hsort c hxn).mpr ⟨hcase.1, by omega⟩
    rw [hcg, countP_range_interval T.length _ _ (by omega)]
  have hB : (List.range T.length).countP
      (fun x => decide (x < q ∧ (bwt_from_suffix_array T sa).getD x '$' = c))
      = cntOcc (bwt_from_suffix_array T sa) c (q + 1) - 1 := by
    have hres : (List.range T.length).countP
        (fun x => decide (x < q ∧ (bwt_from_suffix_array T sa).getD x '$' = c))
        = (List.range q).countP
        (fun x => decide ((bwt_from_suffix_array T sa).getD x '$' = c)) :=
      countP_range_restrict T.length q (by omega) _ _
    have h1 : (List.range q).countP
        (fun x => decide ((bwt_from_suffix_array T sa).getD x '$' = c))
        = cntOcc (bwt_from_suffix_array T sa) c q :=
      countP_range_getD (bwt_from_suffix_array T sa) (fun d => decide (d = c)) q
        (by omega)
    rw [hres, h1]
    omega
  have hAB : (List.range T.length).countP
      (fun x => decide (x < q ∧ (bwt_from_suffix_array T sa).getD x '$' = c))
      = (List.range T.length).countP
      (fun p => decide (p < lfRow T sa q ∧ fcol T sa p = c)) := by
    apply count_bij T.length _ _ (lfRow T sa)
    · intro x hx hPx
      refine ⟨lfRow_lt hT hperm hx, ?_, ?_⟩
      · exact lfRow_mono_c hT hperm hsort hsent hlast hPx.1 hq (by rw [hPx.2, hc])
      · rw [fcol_lfRow hT hperm hx, hPx.2]
    · intro x1 x2 hx1 hx2 _ _ he
      exact lfRow_inj hT hperm hx1 hx2 he
    · intro p hp hQp
      obtain ⟨x, hxn, hxe, _⟩ := lfRow_surj hT hperm hp
      have hLx : (bwt_from_suffix_array T sa).getD x '$' = c := by
        rw [← fcol_lfRow hT hperm hxn, hxe, hQp.2]
      refine ⟨x, hxn, ⟨?_, hLx⟩, hxe⟩
      rcases Nat.lt_trichotomy x q with hxy | hxy | hxy
      · exact hxy
      · exfalso
        rw [hxy] at hxe
        omega
      · exfalso
        have hmono := lfRow_mono_c hT hperm hsort hsent hlast hxy hxn (by rw [hc, hLx])
        omega
  omega

/-! Word matching on rows. -/

theorem matchRow_nil (T : List Char) (sa : List Nat) (r : Nat) :
    matchRow T sa [] r = true := rfl

theorem leadsWith_cons_head (c b : Char) (w bs : List Char) :
    leadsWith (c :: w) (b :: bs) = true ↔ (c = b ∧ leadsWith w bs = true) := by
  show (decide (c = b) && leadsWith w bs) = true ↔ _
  simp [Bool.and_eq_true]

theorem leadsWith_len : ∀ (w l : List Char), leadsWith w l = true → w.length ≤ l.length := by
  intro w
  induction w with
  | nil => intro l _; simp
  | cons c tl ih =>
    intro l h
    cases l with
    | nil => exact absurd h (by rw [leadsWith]; simp)
    | cons b bs =>
      obtain ⟨_, h2⟩ := (leadsWith_cons_head c b tl bs).mp h
      have := ih bs h2
      simp only [List.length_cons]
      omega

theorem leadsWith_append_drop :
    ∀ (X Y s : List Char), leadsWith (X ++ Y) s = true →
      leadsWith Y (s.drop X.length) = true := by
  intro X
  induction X with
  | nil => intro Y s h; simpa using h
  | cons a tl ih =>
    intro Y s h
    cases s with
    | nil =>
      rw [List.cons_append] at h
      exact absurd h (by rw [leadsWith]; simp)
    | cons b bs =>
      rw [List.cons_append] at h
      obtain ⟨_, h2⟩ := (leadsWith_cons_head a b (tl ++ Y) bs).mp h
      have h3 := ih Y bs h2
      simpa using h3

theorem matchRow_cons {T : List Char} {sa : List Nat}
    (hperm : sa.Perm (List.range T.length))
    (hlast : T.getD (T.length - 1) '$' = '$')
    {c : Char} (hc : c ≠ '$') {w : List Char} {r : Nat} (hr : r < T.length) :
    (matchRow T sa (c :: w) r = true ↔
      fcol T sa r = c ∧ sa.getD r 0 + 1 < T.length ∧
        matchRow T sa w (rowOf sa (sa.getD r 0 + 1)) = true) := by
  rw [matchRow, drop_head_cons T _ (sa_getD_lt hperm hr), leadsWith_cons_head]
  constructor
  · intro hcase
    obtain ⟨hhead, htail⟩ := hcase
    have hhead' : fcol T sa r = c := by rw [fcol, ← hhead]
    have hvlt : sa.getD r 0 + 1 < T.length := by
      have hv := sa_getD_lt hperm hr
      by_contra hge
      have hveq : sa.getD r 0 = T.length - 1 := by omega
      rw [fcol, hveq, hlast] at hhead'
      exact hc hhead'.symm
    refine ⟨hhead', hvlt, ?_⟩
    rw [matchRow, sa_rowOf hperm hvlt]
    exact htail
  · intro hcase
    obtain ⟨hhead, hvlt, htail⟩ := hcase
    refine ⟨by rw [fcol] at hhead; rw [hhead], ?_⟩
    rw [matchRow, sa_rowOf hperm hvlt] at htail
    exact htail

/-- If some row matches `X ++ Y` (`Y` non-empty), some row matches `Y`. -/
theorem match_sub {T : List Char} {sa : List Nat}
    (hperm : sa.Perm (List.range T.length)) (X Y : List Char) (hY : Y ≠ [])
    {r : Nat} (hr : r < T.length) (h : matchRow T sa (X ++ Y) r = true) :
    ∃ q, q < T.length ∧ matchRow T sa Y q = true := by
  rw [matchRow] at h
  have h2 := leadsWith_append_drop X Y _ h
  rw [List.drop_drop] at h2
  have hYlen := leadsWith_len Y _ h2
  rw [List.length_drop] at hYlen
  have hY1 : 1 ≤ Y.length := by
    cases Y with
    | nil => exact absurd rfl hY
    | cons _ _ => simp
  have hv : sa.getD r 0 + X.length < T.length := by omega
  refine ⟨rowOf sa (sa.getD r 0 + X.length), rowOf_lt hperm hv, ?_⟩
  rw [matchRow, sa_rowOf hperm hv]
  exact h2

theorem cntLt_bwt {T : List Char} {sa : List Nat} (hT : T ≠ [])
    (hlast : T.getD (T.length - 1) '$' = '$')
    (hperm : sa.Perm (List.range T.length)) (c : Char) :
    cntLt (bwt_from_suffix_array T sa) c = cntLt T c := by
  rw [cntLt, cntLt]
  exact (bwt_perm hT hlast hperm).countP_eq _

/-- One backward-search step: prepending `c` to the matched word moves the
row interval `[top, bot]` to the interval the source computes from
`first_occurrences` and the two inclusive occurrence counts. -/
theorem bw_step_interval {T : List Char} {sa : List Nat} (hT : T ≠ [])
    (hperm : sa.Perm (List.range T.length))
    (hsort : ∀ p q, p < q → q < T.length →
      sufLt (T.drop (sa.getD p 0)) (T.drop (sa.getD q 0)) = true)
    (hsent : ∀ i, i < T.length - 1 → '$' < T.getD i '$')
    (hlast : T.getD (T.length - 1) '$' = '$')
    {c : Char} (hcd : c ≠ '$')
    {W : List Char} {top bot : Int} (h0 : 0 ≤ top) (htb : top ≤ bot)
    (hb : bot < (T.length : Int))
    (hinv : ∀ r : Nat, r < T.length →
      (matchRow T sa W r = true ↔ top ≤ (r : Int) ∧ (r : Int) ≤ bot)) :
    ∀ r : Nat, r < T.length →
      (matchRow T sa (c :: W) r = true ↔
        ((cntLt T c : Int) + (cntOcc (bwt_from_suffix_array T sa) c top.toNat : Int)
            ≤ (r : Int) ∧
          (r : Int) ≤ (cntLt T c : Int)
            + (cntOcc (bwt_from_suffix_array T sa) c (bot.toNat + 1) : Int) - 1)) := by
  intro r hr
  have hn : 1 ≤ T.length := List.length_pos.mpr hT
  have hLlen : (bwt_from_suffix_array T sa).length = T.length := bwt_len hperm
  constructor
  · intro hm
    obtain ⟨hfc, hvlt, hmw⟩ := (matchRow_cons hperm hlast hcd hr).mp hm
    have hq : rowOf sa (sa.getD r 0 + 1) < T.length := rowOf_lt hperm hvlt
    have hsaq : sa.getD (rowOf sa (sa.getD r 0 + 1)) 0 = sa.getD r 0 + 1 :=
      sa_rowOf hperm hvlt
    have hmod : (sa.getD r 0 + 1 + T.length - 1) % T.length = sa.getD r 0 := by
      have he : sa.getD r 0 + 1 + T.length - 1 = sa.getD r 0 + T.length := by omega
      rw [he, Nat.add_mod_right]
      exact Nat.mod_eq_of_lt (sa_getD_lt hperm hr)
    have hLq : (bwt_from_suffix_array T sa).getD (rowOf sa (sa.getD r 0 + 1)) '$' = c := by
      rw [bwt_getD_eq hT hperm hq, hsaq, hmod]
      rw [fcol] at hfc
      exact hfc
    have hlf : lfRow T sa (rowOf sa (sa.getD r 0 + 1)) = r := by
      rw [lfRow, hsaq, hmod]
      exact rowOf_getD hperm hr
    have hiq := (hinv _ hq).mp hmw
    have hform := lf_formula hT hperm hsort hsent hlast hq hLq
    rw [hlf] at hform
    have hocc_q : cntOcc (bwt_from_suffix_array T sa) c (rowOf sa (sa.getD r 0 + 1) + 1)
        = cntOcc (bwt_from_suffix_array T sa) c (rowOf sa (sa.getD r 0 + 1)) + 1 := by
      rw [cntOcc_succ _ _ _ (by rw [hLlen]; exact hq), hLq, if_pos rfl]
    have hmono1 : cntOcc (bwt_from_suffix_array T sa) c top.toNat
        ≤ cntOcc (bwt_from_suffix_array T sa) c (rowOf sa (sa.getD r 0 + 1)) :=
      cntOcc_mono _ _ (by omega)
    have hmono2 : cntOcc (bwt_from_suffix_array T sa) c (rowOf sa (sa.getD r 0 + 1) + 1)
        ≤ cntOcc (bwt_from_suffix_array T sa) c (bot.toNat + 1) :=
      cntOcc_mono _ _ (by omega)
    omega
  · intro hbounds
    have hocc_le_total : cntOcc (bwt_from_suffix_array T sa) c (bot.toNat + 1)
        ≤ T.countP (fun d => decide (d = c)) := by
      have h1 : cntOcc (bwt_from_suffix_array T sa) c (bot.toNat + 1)
          ≤ cntOcc (bwt_from_suffix_array T sa) c (bwt_from_suffix_array T sa).length :=
        cntOcc_mono _ _ (by omega)
      rw [cntOcc_full] at h1
      have h2 := countP_bwt_chars hT hlast hperm (fun d => decide (d = c))
      omega
    have hfcr : fcol T sa r = c := by
      apply (fcol_eq_iff hperm hsort c hr).mpr
      constructor
      · omega
      · omega
    have hvlt : sa.getD r 0 + 1 < T.length := by
      by_contra hge
      have hv := sa_getD_lt hperm hr
      have hveq : sa.getD r 0 = T.length - 1 := by omega
      rw [fcol, hveq, hlast] at hfcr
      exact hcd hfcr.symm
    obtain ⟨q, hqlt, hqlf, hsaq⟩ := lfRow_surj hT hperm hr
    have hLq : (bwt_from_suffix_array T sa).getD q '$' = c := by
      rw [← fcol_lfRow hT hperm hqlt, hqlf]
      exact hfcr
    have hform := lf_formula hT hperm hsort hsent hlast hqlt hLq
    rw [hqlf] at hform
    have hocc_q : cntOcc (bwt_from_suffix_array T sa) c (q + 1)
        = cntOcc (bwt_from_suffix_array T sa) c q + 1 := by
      rw [cntOcc_succ _ _ _ (by rw [hLlen]; exact hqlt), hLq, if_pos rfl]
    have hq_ge : top.toNat ≤ q := by
      by_contra hlt
      have hle : q + 1 ≤ top.toNat := by omega
      have hm := cntOcc_mono (bwt_from_suffix_array T sa) c hle
      omega
    have hq_le : q ≤ bot.toNat := by
      by_contra hgt
      have hle : bot.toNat + 1 ≤ q := by omega
      have hm := cntOcc_mono (bwt_from_suffix_array T sa) c hle
      omega
    have hmq : matchRow T sa W q = true := (hinv q hqlt).mpr ⟨by omega, by omega⟩
    apply (matchRow_cons hperm hlast hcd hr).mpr
    refine ⟨hfcr, hvlt, ?_⟩
    have hsaq' : sa.getD q 0 = sa.getD r 0 + 1 := by
      rw [hsaq, Nat.mod_eq_of_lt hvlt]
    have hqe : rowOf sa (sa.getD r 0 + 1) = q := by
      rw [← hsaq', rowOf_getD hperm hqlt]
    rw [hqe]
    exact hmq

/-- The loop of `bw_better_match_pattern`, run on the reversed remaining
pattern `rest` from a state whose closed interval `[top, bot]` is exactly
the set of rows matching the already-processed word `W`: it returns a
half-open interval that is exactly the set of rows matching
`rest.reverse ++ W` (with `(0, 0)` when no row matches). -/
theorem bw_loop_spec {T : List Char} {sa : List Nat} (hT : T ≠ [])
    (hperm : sa.Perm (List.range T.length))
    (hsort : ∀ p q, p < q → q < T.length →
      sufLt (T.drop (sa.getD p 0)) (T.drop (sa.getD q 0)) = true)
    (hsent : ∀ i, i < T.length - 1 → '$' < T.getD i '$')
    (hlast : T.getD (T.length - 1) '$' = '$')
    (F : Char → Option Nat)
    (hF : ∀ c, c ∈ bwt_from_suffix_array T sa →
      F c = some (cntLt (bwt_from_suffix_array T sa) c))
    (G : Int → Option (Nat → Nat))
    (hG : ∀ j : Nat, j < (bwt_from_suffix_array T sa).length → j % 5 = 0 →
      ∃ f, G (j : Int) = some f ∧
        ∀ code, f code = ((bwt_from_suffix_array T sa).take (j + 1)).countP
          (fun d => decide (d.toNat = code))) :
    ∀ (rest : List Char), (∀ c ∈ rest, c ∈ bwt_from_suffix_array T sa ∧ c ≠ '$') →
    ∀ (W : List Char) (top bot : Int), 0 ≤ top → top ≤ bot → bot < (T.length : Int) →
      (∀ r : Nat, r < T.length →
        (matchRow T sa W r = true ↔ top ≤ (r : Int) ∧ (r : Int) ≤ bot)) →
      ∃ lo hi : Int,
        bwMatchLoop (bwt_from_suffix_array T sa) F G rest top bot = some (lo, hi) ∧
        0 ≤ lo ∧ hi ≤ (T.length : Int) ∧ lo ≤ hi ∧
        (∀ r : Nat, r < T.length →
          (matchRow T sa (rest.reverse ++ W) r = true ↔
            lo ≤ (r : Int) ∧ (r : Int) < hi)) := by
  intro rest
  induction rest with
  | nil =>
    intro _ W top bot h0 htb hb hinv
    refine ⟨top, bot + 1, rfl, h0, by omega, by omega, ?_⟩
    intro r hr
    rw [List.reverse_nil, List.nil_append, hinv r hr]
    constructor
    · intro h; exact ⟨h.1, by omega⟩
    · intro h; exact ⟨h.1, by omega⟩
  | cons c rest ih =>
    intro hchars W top bot h0 htb hb hinv
    obtain ⟨hcmem, hcd⟩ := hchars c (List.mem_cons_self c rest)
    have hn : 1 ≤ T.length := List.length_pos.mpr hT
    have hLlen : (bwt_from_suffix_array T sa).length = T.length := bwt_len hperm
    have hFc := hF c hcmem
    have h0b : (0 : Int) ≤ bot := le_trans h0 htb
    have hcrt := compute_rank_spec (bwt_from_suffix_array T sa) G hG top h0
      (by rw [hLlen]; omega) c
    have hcrb := compute_rank_spec (bwt_from_suffix_array T sa) G hG bot h0b
      (by rw [hLlen]; omega) c
    have hmark : pyGet (bwt_from_suffix_array T sa) top
        = (bwt_from_suffix_array T sa).getD top.toNat '$' := by
      rw [pyGet, if_neg (by omega)]
    have hstep := bw_step_interval hT hperm hsort hsent hlast hcd h0 htb hb hinv
    have hcnt := cntLt_bwt hT hlast hperm c
    have htop2 : (cntLt (bwt_from_suffix_array T sa) c : Int)
        + (cntOcc (bwt_from_suffix_array T sa) c (top.toNat + 1) : Int)
        - (if (bwt_from_suffix_array T sa).getD top.toNat '$' = c then (1 : Int) else 0)
        = (cntLt (bwt_from_suffix_array T sa) c : Int)
          + (cntOcc (bwt_from_suffix_array T sa) c top.toNat : Int) := by
      have hsucc : cntOcc (bwt_from_suffix_array T sa) c (top.toNat + 1)
          = cntOcc (bwt_from_suffix_array T sa) c top.toNat
            + if (bwt_from_suffix_array T sa).getD top.toNat '$' = c then 1 else 0 :=
        cntOcc_succ _ _ _ (by rw [hLlen]; omega)
      by_cases hm : (bwt_from_suffix_array T sa).getD top.toNat '$' = c
      · rw [if_pos hm] at hsucc ⊢
        omega
      · rw [if_neg hm] at hsucc ⊢
        omega
    have htotal : cntLt (bwt_from_suffix_array T sa) c
        + (bwt_from_suffix_array T sa).countP (fun d => decide (d = c))
        ≤ T.length := by
      rw [cntLt, ← countP_char_le_split]
      have hle := List.countP_le_length
        (fun d => decide (d ≤ c)) (l := bwt_from_suffix_array T sa)
      omega
    have hocc_total : cntOcc (bwt_from_suffix_array T sa) c (bot.toNat + 1)
        ≤ (bwt_from_suffix_array T sa).countP (fun d => decide (d = c)) := by
      have h1 : cntOcc (bwt_from_suffix_array T sa) c (bot.toNat + 1)
          ≤ cntOcc (bwt_from_suffix_array T sa) c (bwt_from_suffix_array T sa).length :=
        cntOcc_mono _ _ (by omega)
      rw [cntOcc_full] at h1
      exact h1
    simp only [bwMatchLoop]
    rw [hFc, hcrt, hcrb, hmark]
    dsimp only
    rw [htop2]
    by_cases hempty : (cntLt (bwt_from_suffix_array T sa) c : Int)
        + (cntOcc (bwt_from_suffix_array T sa) c (bot.toNat + 1) : Int) - 1
        - ((cntLt (bwt_from_suffix_array T sa) c : Int)
          + (cntOcc (bwt_from_suffix_array T sa) c top.toNat : Int)) < 0
    · rw [if_pos hempty]
      refine ⟨0, 0, rfl, le_refl 0, by omega, le_refl 0, ?_⟩
      intro r hr
      constructor
      · intro hmr
        exfalso
        have hsplit : (c :: rest).reverse ++ W = rest.reverse ++ (c :: W) := by simp
        rw [hsplit] at hmr
        obtain ⟨q, hq, hmq⟩ := match_sub hperm _ _ (by simp) hr hmr
        have hbounds := (hstep q hq).mp hmq
        omega
      · intro hbounds
        omega
    · rw [if_neg hempty]
      have hinv' : ∀ r : Nat, r < T.length →
          (matchRow T sa (c :: W) r = true ↔
            (cntLt (bwt_from_suffix_array T sa) c : Int)
              + (cntOcc (bwt_from_suffix_array T sa) c top.toNat : Int) ≤ (r : Int) ∧
            (r : Int) ≤ (cntLt (bwt_from_suffix_array T sa) c : Int)
              + (cntOcc (bwt_from_suffix_array T sa) c (bot.toNat + 1) : Int) - 1) := by
        intro r hr
        have hs := hstep r hr
        constructor
        · intro hm
          have hbounds := hs.mp hm
          exact ⟨by omega, by omega⟩
        · intro hbounds
          exact hs.mpr ⟨by omega, by omega⟩
      obtain ⟨lo, hi, heq, hlo0, hhin, hlohi, hiff⟩ :=
        ih (fun d hd => hchars d (List.mem_cons_of_mem c hd)) (c :: W)
          ((cntLt (bwt_from_suffix_array T sa) c : Int)
            + (cntOcc (bwt_from_suffix_array T sa) c top.toNat : Int))
          ((cntLt (bwt_from_suffix_array T sa) c : Int)
            + (cntOcc (bwt_from_suffix_array T sa) c (bot.toNat + 1) : Int) - 1)
          (by omega) (by omega) (by omega) hinv'
      refine ⟨lo, hi, heq, hlo0, hhin, hlohi, ?_⟩
      intro r hr
      have hsplit : (c :: rest).reverse ++ W = rest.reverse ++ (c :: W) := by simp
      rw [hsplit]
      exact hiff r hr

/-! The LF walk of `compute_idxes_from_top_bot`. -/

/-- One iteration of the `while True` loop moves row `p` to `lfRow p`. -/
theorem lfWalk_step {T : List Char} {sa : List Nat} (hT : T ≠ [])
    (hperm : sa.Perm (List.range T.length))
    (hsort : ∀ p q, p < q → q < T.length →
      sufLt (T.drop (sa.getD p 0)) (T.drop (sa.getD q 0)) = true)
    (hsent : ∀ i, i < T.length - 1 → '$' < T.getD i '$')
    (hlast : T.getD (T.length - 1) '$' = '$')
    (F : Char → Option Nat)
    (hF : ∀ c, c ∈ bwt_from_suffix_array T sa →
      F c = some (cntLt (bwt_from_suffix_array T sa) c))
    (P : Nat → Option Nat) {p : Nat} (hp : p < T.length) (f plus : Nat) :
    lfWalk (bwt_from_suffix_array T sa) F (compute_rank_arr (bwt_from_suffix_array T sa))
        P (f + 1) p plus =
      if (P (lfRow T sa p)).isSome then some (lfRow T sa p, plus + 1)
      else lfWalk (bwt_from_suffix_array T sa) F
        (compute_rank_arr (bwt_from_suffix_array T sa)) P f (lfRow T sa p) (plus + 1) := by
  have hLlen : (bwt_from_suffix_array T sa).length = T.length := bwt_len hperm
  have hmemL : (bwt_from_suffix_array T sa).getD p '$' ∈ bwt_from_suffix_array T sa := by
    rw [List.getD_eq_getElem _ '$' (by omega)]
    exact List.getElem_mem (by omega)
  have hrank : (compute_rank_arr (bwt_from_suffix_array T sa)).getD p 0
      = cntOcc (bwt_from_suffix_array T sa) ((bwt_from_suffix_array T sa).getD p '$')
        (p + 1) :=
    rank_arr_getD _ p (by omega)
  have hocc1 : cntOcc (bwt_from_suffix_array T sa)
      ((bwt_from_suffix_array T sa).getD p '$') (p + 1)
      = cntOcc (bwt_from_suffix_array T sa)
        ((bwt_from_suffix_array T sa).getD p '$') p + 1 := by
    rw [cntOcc_succ _ _ _ (by omega), if_pos rfl]
  have hform := lf_formula hT hperm hsort hsent hlast hp rfl
  have hp2 : cntLt (bwt_from_suffix_array T sa) ((bwt_from_suffix_array T sa).getD p '$')
      + (compute_rank_arr (bwt_from_suffix_array T sa)).getD p 0 - 1 = lfRow T sa p := by
    rw [hrank, cntLt_bwt hT hlast hperm, hform]
  rw [lfWalk, hF _ hmemL]
  dsimp only
  rw [hp2]

/-- The walk from a row whose suffix offset is `v ≥ 1` stops, within `v`
steps, at a sampled row whose offset is `v` minus the number of steps. -/
theorem lfWalk_core {T : List Char} {sa : List Nat} (hT : T ≠ [])
    (hperm : sa.Perm (List.range T.length))
    (hsort : ∀ p q, p < q → q < T.length →
      sufLt (T.drop (sa.getD p 0)) (T.drop (sa.getD q 0)) = true)
    (hsent : ∀ i, i < T.length - 1 → '$' < T.getD i '$')
    (hlast : T.getD (T.length - 1) '$' = '$')
    (F : Char → Option Nat)
    (hF : ∀ c, c ∈ bwt_from_suffix_array T sa →
      F c = some (cntLt (bwt_from_suffix_array T sa) c))
    (K : Nat) (P : Nat → Option Nat)
    (hP : ∀ p, p < T.length → ((P p).isSome ↔ sa.getD p 0 % K = 0)) :
    ∀ v : Nat, 1 ≤ v → ∀ (fuel p plus : Nat), p < T.length → sa.getD p 0 = v →
      v ≤ fuel →
      ∃ t stop, 1 ≤ t ∧ t ≤ v ∧
        lfWalk (bwt_from_suffix_array T sa) F
          (compute_rank_arr (bwt_from_suffix_array T sa)) P fuel p plus
          = some (stop, plus + t) ∧
        stop < T.length ∧ sa.getD stop 0 = v - t ∧ (v - t) % K = 0 := by
  intro v
  induction v using Nat.strong_induction_on with
  | _ v ihv =>
    intro hv1 fuel p plus hp hsap hfuel
    have hn : 1 ≤ T.length := List.length_pos.mpr hT
    have hvlt : v < T.length := by
      rw [← hsap]
      exact sa_getD_lt hperm hp
    obtain ⟨f, rfl⟩ : ∃ f, fuel = f + 1 := ⟨fuel - 1, by omega⟩
    rw [lfWalk_step hT hperm hsort hsent hlast F hF P hp f plus]
    have hlf_lt : lfRow T sa p < T.length := lfRow_lt hT hperm hp
    have hsalf : sa.getD (lfRow T sa p) 0 = v - 1 := by
      rw [sa_lfRow hT hperm hp, hsap, pred_mod _ _ hn hvlt, if_neg (by omega)]
    by_cases hstop : (v - 1) % K = 0
    · have hPsome : (P (lfRow T sa p)).isSome := (hP _ hlf_lt).mpr (by
        rw [hsalf]; exact hstop)
      rw [if_pos hPsome]
      exact ⟨1, lfRow T sa p, le_refl 1, by omega, rfl, hlf_lt, by rw [hsalf], by
        have he : v - 1 = v - 1 := rfl
        exact hstop⟩
    · have hPnone : ¬ (P (lfRow T sa p)).isSome := fun h => hstop (by
        rw [← hsalf]; exact (hP _ hlf_lt).mp h)
      rw [if_neg hPnone]
      have hv2 : 1 ≤ v - 1 := by
        by_contra hcon
        apply hstop
        have he : v - 1 = 0 := by omega
        rw [he]
        exact Nat.zero_mod K
      obtain ⟨t, stop, ht1, htv, heq, hstoplt, hsastop, hmod⟩ :=
        ihv (v - 1) (by omega) hv2 f (lfRow T sa p) (plus + 1) hlf_lt hsalf (by omega)
      refine ⟨t + 1, stop, by omega, by omega, ?_, hstoplt, by omega, ?_⟩
      · have hassoc : plus + 1 + t = plus + (t + 1) := by omega
        rw [← hassoc]
        exact heq
      · have he : v - (t + 1) = v - 1 - t := by omega
        rw [he]
        exact hmod

/-- The full walk from any row `r`, with the fuel the source's caller
supplies, stops at a sampled row and recovers exactly `sa[r]`. -/
theorem lfWalk_row {T : List Char} {sa : List Nat} (hT : T ≠ [])
    (hperm : sa.Perm (List.range T.length))
    (hsort : ∀ p q, p < q → q < T.length →
      sufLt (T.drop (sa.getD p 0)) (T.drop (sa.getD q 0)) = true)
    (hsent : ∀ i, i < T.length - 1 → '$' < T.getD i '$')
    (hlast : T.getD (T.length - 1) '$' = '$')
    (F : Char → Option Nat)
    (hF : ∀ c, c ∈ bwt_from_suffix_array T sa →
      F c = some (cntLt (bwt_from_suffix_array T sa) c))
    (K : Nat) (P : Nat → Option Nat)
    (hP : ∀ p, p < T.length → ((P p).isSome ↔ sa.getD p 0 % K = 0))
    (hPval : ∀ p, p < T.length → sa.getD p 0 % K = 0 → P p = some (sa.getD p 0))
    {r : Nat} (hr : r < T.length) :
    ∃ stop t, lfWalk (bwt_from_suffix_array T sa) F
        (compute_rank_arr (bwt_from_suffix_array T sa)) P (T.length + 1) r 0
        = some (stop, t) ∧
      stop < T.length ∧ P stop = some (sa.getD stop 0) ∧
      (sa.getD stop 0 + t) % T.length = sa.getD r 0 := by
  have hn : 1 ≤ T.length := List.length_pos.mpr hT
  have hv : sa.getD r 0 < T.length := sa_getD_lt hperm hr
  by_cases h0 : sa.getD r 0 = 0
  · -- first step wraps to offset n - 1
    obtain ⟨f, hfe⟩ : ∃ f, T.length + 1 = f + 1 := ⟨T.length, rfl⟩
    rw [hfe, lfWalk_step hT hperm hsort hsent hlast F hF P hr f 0]
    have hlf_lt : lfRow T sa r < T.length := lfRow_lt hT hperm hr
    have hsalf : sa.getD (lfRow T sa r) 0 = T.length - 1 := by
      rw [sa_lfRow hT hperm hr, h0, pred_mod _ _ hn (by omega), if_pos rfl]
    by_cases hstop : (T.length - 1) % K = 0
    · have hPsome : (P (lfRow T sa r)).isSome := (hP _ hlf_lt).mpr (by
        rw [hsalf]; exact hstop)
      rw [if_pos hPsome]
      refine ⟨lfRow T sa r, 1, rfl, hlf_lt, hPval _ hlf_lt (by rw [hsalf]; exact hstop), ?_⟩
      rw [hsalf, h0]
      have he : T.length - 1 + 1 = T.length := by omega
      rw [he, Nat.mod_self]
    · have hPnone : ¬ (P (lfRow T sa r)).isSome := fun h => hstop (by
        rw [← hsalf]; exact (hP _ hlf_lt).mp h)
      rw [if_neg hPnone]
      have hn2 : 1 ≤ T.length - 1 := by
        by_contra hcon
        apply hstop
        have he : T.length - 1 = 0 := by omega
        rw [he]
        exact Nat.zero_mod K
      obtain ⟨t, stop, ht1, htv, heq, hstoplt, hsastop, hmod⟩ :=
        lfWalk_core hT hperm hsort hsent hlast F hF K P hP (T.length - 1) hn2 f
          (lfRow T sa r) 1 hlf_lt hsalf (by omega)
      refine ⟨stop, 1 + t, heq, hstoplt, hPval _ hstoplt (by rw [hsastop]; exact hmod), ?_⟩
      rw [hsastop, h0]
      have he : T.length - 1 - t + (1 + t) = T.length := by omega
      rw [he, Nat.mod_self]
  · obtain ⟨t, stop, ht1, htv, heq, hstoplt, hsastop, hmod⟩ :=
      lfWalk_core hT hperm hsort hsent hlast F hF K P hP (sa.getD r 0) (by omega)
        (T.length + 1) r 0 hr rfl (by omega)
    refine ⟨stop, 0 + t, heq, hstoplt, hPval _ hstoplt (by rw [hsastop]; exact hmod), ?_⟩
    rw [hsastop]
    have he : sa.getD r 0 - t + (0 + t) = sa.getD r 0 := by omega
    rw [he]
    exact Nat.mod_eq_of_lt hv

/-! Occurrence lists versus matching rows. -/

theorem leadsWith_getD :
    ∀ (w l : List Char), leadsWith w l = true →
      ∀ j, j < w.length → l.getD j '$' = w.getD j '$' := by
  intro w
  induction w with
  | nil => intro l _ j hj; simp at hj
  | cons c tl ih =>
    intro l h j hj
    cases l with
    | nil => exact absurd h (by rw [leadsWith]; simp)
    | cons b bs =>
      obtain ⟨hcb, h2⟩ := (leadsWith_cons_head c b tl bs).mp h
      match j with
      | 0 => simpa using hcb.symm
      | j + 1 =>
        simp only [List.getD_cons_succ]
        exact ih bs h2 j (by simpa using hj)

theorem leadsWith_append_left :
    ∀ (w u v : List Char), w.length ≤ u.length →
      leadsWith w (u ++ v) = leadsWith w u := by
  intro w
  induction w with
  | nil => intro u v _; rfl
  | cons c tl ih =>
    intro u v hlen
    cases u with
    | nil => simp at hlen
    | cons b bs =>
      rw [List.cons_append]
      show (decide (c = b) && leadsWith tl (bs ++ v)) = (decide (c = b) && leadsWith tl bs)
      rw [ih bs v (by simpa using hlen)]

theorem range_map_sa {T : List Char} {sa : List Nat}
    (hperm : sa.Perm (List.range T.length)) :
    (List.range T.length).map (fun r => sa.getD r 0) = sa := by
  have hl : sa.length = T.length := sa_len hperm
  apply List.ext_getElem
  · simp [hl]
  · intro i h1 h2
    simp only [List.getElem_map, List.getElem_range]
    rw [List.getD_eq_getElem _ 0 (by simpa using h2)]

theorem countP_rows_vals {T : List Char} {sa : List Nat}
    (hperm : sa.Perm (List.range T.length)) (p : Nat → Bool) :
    (List.range T.length).countP (fun r => p (sa.getD r 0))
      = (List.range T.length).countP p := by
  have h1 : (List.range T.length).countP (fun r => p (sa.getD r 0))
      = ((List.range T.length).map (fun r => sa.getD r 0)).countP p := by
    rw [List.countP_map]
    rfl
  rw [h1, range_map_sa hperm]
  exact hperm.countP_eq p

theorem countP_range_drop_zero : ∀ (n m : Nat), m ≤ n → ∀ (p : Nat → Bool),
    (∀ v, m ≤ v → v < n → p v = false) →
    (List.range n).countP p = (List.range m).countP p := by
  intro n
  induction n with
  | zero =>
    intro m hm p _
    have hm0 : m = 0 := by omega
    rw [hm0]
  | succ n ih =>
    intro m hm p hz
    rcases Nat.lt_or_ge n m with hnm | hnm
    · have hm1 : m = n + 1 := by omega
      rw [hm1]
    · rw [List.range_succ, List.countP_append, ih m hnm p
        (fun v hv1 hv2 => hz v hv1 (by omega))]
      have hpn : p n = false := hz n hnm (by omega)
      simp [hpn]

/-- The number of rows matching `w` equals the number of occurrences of `w`
in `T`. -/
theorem count_match_occ {T : List Char} {sa : List Nat}
    (hperm : sa.Perm (List.range T.length)) (w : List Char) (hw : w ≠ []) :
    (List.range T.length).countP (fun r => matchRow T sa w r)
      = (occList w T).length := by
  have hw1 : 1 ≤ w.length := by
    cases w with
    | nil => exact absurd rfl hw
    | cons _ _ => simp
  have h1 : (List.range T.length).countP (fun r => matchRow T sa w r)
      = (List.range T.length).countP (fun v => leadsWith w (T.drop v)) := by
    have h2 : (List.range T.length).countP
        (fun r => (fun v => leadsWith w (T.drop v)) (sa.getD r 0))
        = (List.range T.length).countP (fun v => leadsWith w (T.drop v)) :=
      countP_rows_vals hperm (fun v => leadsWith w (T.drop v))
    exact h2
  rw [h1, occList, ← List.countP_eq_length_filter]
  apply countP_range_drop_zero T.length (T.length + 1 - w.length) (by omega)
  intro v hv1 hv2
  by_contra hcon
  have htrue : leadsWith w (T.drop v) = true := by
    cases hb : leadsWith w (T.drop v)
    · exact absurd hb hcon
    · rfl
  have hlen := leadsWith_len w _ htrue
  rw [List.length_drop] at hlen
  omega

/-- Appending the sentinel does not change the occurrence list of a
sentinel-free word. -/
theorem occList_sentinel (R w : List Char) (hw : w ≠ []) (hdol : '$' ∉ w) :
    occList w (R ++ ['$']) = occList w R := by
  have hw1 : 1 ≤ w.length := by
    cases w with
    | nil => exact absurd rfl hw
    | cons _ _ => simp
  rw [occList, occList]
  have hlenT : (R ++ ['$']).length = R.length + 1 := by simp
  by_cases hwR : w.length ≤ R.length + 1
  · have hm2 : (R ++ ['$']).length + 1 - w.length = (R.length + 1 - w.length) + 1 := by
      rw [hlenT]
      omega
    rw [hm2, List.range_succ, List.filter_append]
    have hlast0 : (List.filter (fun i => leadsWith w ((R ++ ['$']).drop i))
        [R.length + 1 - w.length]) = [] := by
      have hfalse : leadsWith w ((R ++ ['$']).drop (R.length + 1 - w.length)) = false := by
        by_contra hcon
        have htrue : leadsWith w ((R ++ ['$']).drop (R.length + 1 - w.length)) = true := by
          cases hb : leadsWith w ((R ++ ['$']).drop (R.length + 1 - w.length))
          · exact absurd hb hcon
          · rfl
        have hdolpos : ((R ++ ['$']).drop (R.length + 1 - w.length)).getD
            (w.length - 1) '$' = '$' := by
          rw [List.getD_eq_getElem?_getD, List.getElem?_drop]
          have he : R.length + 1 - w.length + (w.length - 1) = R.length := by omega
          rw [he]
          have hR : (R ++ ['$'])[R.length]? = some '$' := by
            rw [List.getElem?_append_right (le_refl R.length)]
            simp
          rw [hR]
          rfl
        have hgd := leadsWith_getD w _ htrue (w.length - 1) (by omega)
        rw [hdolpos] at hgd
        have hmem : '$' ∈ w := by
          rw [hgd]
          have hlt : w.length - 1 < w.length := by omega
          rw [List.getD_eq_getElem _ '$' hlt]
          exact List.getElem_mem hlt
        exact hdol hmem
      simp [hfalse]
    rw [hlast0, List.append_nil]
    apply List.filter_congr
    intro i hi
    have hiR : i < R.length + 1 - w.length := List.mem_range.mp hi
    have hile : i ≤ R.length := by omega
    rw [List.drop_append_of_le_length hile]
    exact leadsWith_append_left w (R.drop i) ['$'] (by rw [List.length_drop]; omega)
  · have hm2 : (R ++ ['$']).length + 1 - w.length = 0 := by
      rw [hlenT]
      omega
    have hm1 : R.length + 1 - w.length = 0 := by omega
    rw [hm2, hm1]
    rfl

theorem mapM_option_of_eq {α β : Type} (f : α → Option β) (g : α → β) :
    ∀ l : List α, (∀ x ∈ l, f x = some (g x)) → l.mapM f = some (l.map g) := by
  intro l
  induction l with
  | nil => intro _; rfl
  | cons a tl ih =>
    intro h
    rw [List.mapM_cons, h a (List.mem_cons_self a tl),
        ih (fun x hx => h x (List.mem_cons_of_mem a hx))]
    rfl

/-- `compute_idxes_from_top_bot` on rows `[lo, hi)` returns, in row order,
exactly the suffix offsets stored in those rows of the suffix array. -/
theorem compute_idxes_spec {T : List Char} {sa : List Nat} (hT : T ≠ [])
    (hperm : sa.Perm (List.range T.length))
    (hsort : ∀ p q, p < q → q < T.length →
      sufLt (T.drop (sa.getD p 0)) (T.drop (sa.getD q 0)) = true)
    (hsent : ∀ i, i < T.length - 1 → '$' < T.getD i '$')
    (hlast : T.getD (T.length - 1) '$' = '$')
    (F : Char → Option Nat)
    (hF : ∀ c, c ∈ bwt_from_suffix_array T sa →
      F c = some (cntLt (bwt_from_suffix_array T sa) c))
    (K : Nat) (P : Nat → Option Nat)
    (hP : ∀ p, p < T.length → ((P p).isSome ↔ sa.getD p 0 % K = 0))
    (hPval : ∀ p, p < T.length → sa.getD p 0 % K = 0 → P p = some (sa.getD p 0))
    (lo hi : Int) (h0 : 0 ≤ lo) (hhi : hi ≤ (T.length : Int)) :
    compute_idxes_from_top_bot lo hi P (bwt_from_suffix_array T sa)
        (compute_rank_arr (bwt_from_suffix_array T sa)) F
      = some ((List.range (hi - lo).toNat).map (fun o => sa.getD (lo.toNat + o) 0)) := by
  have hLlen : (bwt_from_suffix_array T sa).length = T.length := bwt_len hperm
  rw [compute_idxes_from_top_bot]
  have hrows : (List.range (hi - lo).toNat).map (fun (o : Nat) => (lo + (o : Int)).toNat)
      = (List.range (hi - lo).toNat).map (fun o => lo.toNat + o) := by
    apply List.map_congr_left
    intro o _
    omega
  rw [hrows]
  have heach : ∀ i ∈ (List.range (hi - lo).toNat).map (fun o => lo.toNat + o),
      (fun i => match lfWalk (bwt_from_suffix_array T sa) F
          (compute_rank_arr (bwt_from_suffix_array T sa)) P
          ((bwt_from_suffix_array T sa).length + 1) i 0 with
        | none => none
        | some (p, plus_count) =>
          some (((P p).getD 0 + plus_count) % (bwt_from_suffix_array T sa).length)) i
        = some (sa.getD i 0) := by
    intro i hi_mem
    obtain ⟨o, ho, hoe⟩ := List.mem_map.mp hi_mem
    have hok : o < (hi - lo).toNat := List.mem_range.mp ho
    have hilt : i < T.length := by omega
    obtain ⟨stop, t, hweq, hstoplt, hPstop, hmod⟩ :=
      lfWalk_row hT hperm hsort hsent hlast F hF K P hP hPval hilt
    have hfuel : (bwt_from_suffix_array T sa).length + 1 = T.length + 1 := by
      rw [hLlen]
    dsimp only
    rw [hfuel, hweq]
    dsimp only
    rw [hPstop, Option.getD_some, hLlen, hmod]
  rw [mapM_option_of_eq _ (fun i => sa.getD i 0) _ heach, List.map_map]
  rfl

/-! Sentinel-terminated text: the hypotheses of the FM machinery hold for
`T = R ++ "$"` whenever every character of `R` exceeds the sentinel. -/

theorem sentinel_ne (R : List Char) : R ++ ['$'] ≠ [] := by simp

theorem sentinel_last (R : List Char) :
    (R ++ ['$']).getD ((R ++ ['$']).length - 1) '$' = '$' := by
  have hl : (R ++ ['$']).length = R.length + 1 := by simp
  rw [hl]
  have he : R.length + 1 - 1 = R.length := by omega
  rw [he, List.getD_eq_getElem _ '$' (by simp)]
  rw [List.getElem_append_right (le_refl R.length)]
  simp

theorem sentinel_pre (R : List Char) (hchar : ∀ c ∈ R, '$' < c) :
    ∀ i, i < (R ++ ['$']).length - 1 → '$' < (R ++ ['$']).getD i '$' := by
  intro i hi
  have hl : (R ++ ['$']).length = R.length + 1 := by simp
  have hiR : i < R.length := by omega
  have hgd : (R ++ ['$']).getD i '$' = R.getD i '$' := by
    rw [List.getD_eq_getElem _ '$' (by simp; omega),
        List.getElem_append_left hiR, List.getD_eq_getElem _ '$' hiR]
  rw [hgd]
  apply hchar
  rw [List.getD_eq_getElem _ '$' hiR]
  exact List.getElem_mem hiR

theorem sentinel_lastUnique (R : List Char) (hchar : ∀ c ∈ R, '$' < c) :
    lastUnique (R ++ ['$']) := by
  intro i hi
  rw [sentinel_last]
  exact ne_of_gt (sentinel_pre R hchar i hi)

theorem sentinel_bwt_chars (R : List Char) (hchar : ∀ c ∈ R, c.toNat < 256)
    {sa : List Nat} (hperm : sa.Perm (List.range (R ++ ['$']).length)) :
    ∀ c ∈ bwt_from_suffix_array (R ++ ['$']) sa, c.toNat < 256 := by
  intro c hc
  have hcT : c ∈ R ++ ['$'] :=
    (bwt_perm (sentinel_ne R) (sentinel_last R) hperm).subset hc
  rcases List.mem_append.mp hcT with h | h
  · exact hchar c h
  · have he : c = '$' := by simpa using h
    rw [he]
    decide

/-- C1 (amended): for a non-empty reference `R` whose characters all exceed
the sentinel and have code points below 256 (the source indexes 256-entry
arrays by `ord`, so larger code points raise `IndexError`; see the
counterexample), every stride `K ≥ 1`, and every non-empty substring `w` of
`R`: the index built by `suffix_array`, `bwt_from_suffix_array`,
`compute_first_occurrences`, `compute_checkpoint_arrs`, `compute_rank_arr`
and `partial_suffix_array` succeeds, `bw_better_match_pattern` returns an
interval `(lo, hi)` with `hi − lo` the number of occurrences of `w` in
`T = R ++ "$"`, and `compute_idxes_from_top_bot` returns exactly the
starting offsets of `w` in `R` as a multiset. -/
theorem C1_theorem (R : List Char) (hR : R ≠ [])
    (hchar : ∀ c ∈ R, '$' < c ∧ c.toNat < 256)
    (K : Nat) (hK : 1 ≤ K) (w : List Char) (hw : w ≠ [])
    (hsub : ∃ u v, R = u ++ w ++ v) :
    ∃ fo cps lo hi idxes,
      compute_first_occurrences
        (bwt_from_suffix_array (R ++ ['$']) (suffix_array (R ++ ['$']))) = some fo ∧
      compute_checkpoint_arrs
        (bwt_from_suffix_array (R ++ ['$']) (suffix_array (R ++ ['$']))) = some cps ∧
      bw_better_match_pattern
        (bwt_from_suffix_array (R ++ ['$']) (suffix_array (R ++ ['$']))) w fo cps
        = some (lo, hi) ∧
      hi - lo = ((occList w (R ++ ['$'])).length : Int) ∧
      compute_idxes_from_top_bot lo hi
        (partial_suffix_array (suffix_array (R ++ ['$'])) K)
        (bwt_from_suffix_array (R ++ ['$']) (suffix_array (R ++ ['$'])))
        (compute_rank_arr
          (bwt_from_suffix_array (R ++ ['$']) (suffix_array (R ++ ['$'])))) fo
        = some idxes ∧
      idxes.Perm (occList w R) := by
  have hT : R ++ ['$'] ≠ [] := sentinel_ne R
  have hlast : (R ++ ['$']).getD ((R ++ ['$']).length - 1) '$' = '$' := sentinel_last R
  have hsent : ∀ i, i < (R ++ ['$']).length - 1 → '$' < (R ++ ['$']).getD i '$' :=
    sentinel_pre R (fun c hc => (hchar c hc).1)
  obtain ⟨hperm, hsort'⟩ := suffix_array_spec (R ++ ['$']) hT
  have hsort := hsort' (sentinel_lastUnique R (fun c hc => (hchar c hc).1))
  have hLchars : ∀ c ∈ bwt_from_suffix_array (R ++ ['$']) (suffix_array (R ++ ['$'])),
      c.toNat < 256 := sentinel_bwt_chars R (fun c hc => (hchar c hc).2) hperm
  have hLlen : (bwt_from_suffix_array (R ++ ['$']) (suffix_array (R ++ ['$']))).length
      = (R ++ ['$']).length := bwt_len hperm
  have hn : 1 ≤ (R ++ ['$']).length := List.length_pos.mpr hT
  have hw1 : 1 ≤ w.length := by
    cases w with
    | nil => exact absurd rfl hw
    | cons _ _ => simp
  obtain ⟨F, hFeq, hFmem, hFnone⟩ := fo_spec _ hLchars
  obtain ⟨G, hGeq, hGval⟩ := cps_spec _ hLchars
  have hwR : ∀ c ∈ w, c ∈ R := by
    obtain ⟨u, v, huv⟩ := hsub
    intro c hc
    rw [huv]
    exact List.mem_append.mpr (Or.inl (List.mem_append.mpr (Or.inr hc)))
  have hdolw : '$' ∉ w := fun h => absurd (hchar '$' (hwR _ h)).1 (lt_irrefl '$')
  have hwchars : ∀ c ∈ w.reverse,
      c ∈ bwt_from_suffix_array (R ++ ['$']) (suffix_array (R ++ ['$'])) ∧ c ≠ '$' := by
    intro c hc
    rw [List.mem_reverse] at hc
    have hcR := hwR c hc
    constructor
    · exact (bwt_perm hT hlast hperm).mem_iff.mpr (List.mem_append.mpr (Or.inl hcR))
    · intro h
      rw [h] at hcR
      exact absurd (hchar '$' hcR).1 (lt_irrefl '$')
  have hinv0 : ∀ r : Nat, r < (R ++ ['$']).length →
      (matchRow (R ++ ['$']) (suffix_array (R ++ ['$'])) [] r = true ↔
        (0 : Int) ≤ (r : Int) ∧ (r : Int) ≤ (((R ++ ['$']).length : Int) - 1)) := by
    intro r hr
    constructor
    · intro _
      exact ⟨by omega, by omega⟩
    · intro _
      rfl
  obtain ⟨lo, hi, hloop, hlo0, hhiN, hlohi, hiff⟩ :=
    bw_loop_spec hT hperm hsort hsent hlast F hFmem G hGval
      w.reverse hwchars [] 0 (((R ++ ['$']).length : Int) - 1)
      (by omega) (by omega) (by omega) hinv0
  have hbw : bw_better_match_pattern
      (bwt_from_suffix_array (R ++ ['$']) (suffix_array (R ++ ['$']))) w F G
      = some (lo, hi) := by
    rw [bw_better_match_pattern]
    have he : (((bwt_from_suffix_array (R ++ ['$'])
        (suffix_array (R ++ ['$']))).length : Int) - 1)
        = ((R ++ ['$']).length : Int) - 1 := by
      rw [hLlen]
    rw [he]
    exact hloop
  have hiffw : ∀ r : Nat, r < (R ++ ['$']).length →
      (matchRow (R ++ ['$']) (suffix_array (R ++ ['$'])) w r = true ↔
        lo ≤ (r : Int) ∧ (r : Int) < hi) := by
    intro r hr
    have h := hiff r hr
    rw [List.reverse_reverse, List.append_nil] at h
    exact h
  have hcount : (occList w (R ++ ['$'])).length = hi.toNat - lo.toNat := by
    rw [← count_match_occ hperm w hw]
    have hcg : (List.range (R ++ ['$']).length).countP
        (fun r => matchRow (R ++ ['$']) (suffix_array (R ++ ['$'])) w r)
        = (List.range (R ++ ['$']).length).countP
        (fun r => decide (lo.toNat ≤ r ∧ r < hi.toNat)) := by
      apply List.countP_congr
      intro r hrmem
      have hr : r < (R ++ ['$']).length := List.mem_range.mp hrmem
      have h := hiffw r hr
      rw [h]
      simp only [decide_eq_true_eq]
      constructor
      · intro hb
        exact ⟨by omega, by omega⟩
      · intro hb
        exact ⟨by omega, by omega⟩
    rw [hcg, countP_range_interval _ _ _ (by omega)]
  have hsaperm' : (suffix_array (R ++ ['$'])).Perm
      (List.range (suffix_array (R ++ ['$'])).length) := by
    rw [sa_len hperm]
    exact hperm
  have hpsa := psa_spec (suffix_array (R ++ ['$'])) K hsaperm' hK
  have hP : ∀ p, p < (R ++ ['$']).length →
      (((partial_suffix_array (suffix_array (R ++ ['$'])) K) p).isSome ↔
        (suffix_array (R ++ ['$'])).getD p 0 % K = 0) := by
    intro p hp
    rw [hpsa, psaIntended]
    by_cases hc : p < (suffix_array (R ++ ['$'])).length ∧
        (suffix_array (R ++ ['$'])).getD p 0 % K = 0
    · rw [if_pos hc]
      constructor
      · intro _
        exact hc.2
      · intro _
        rfl
    · rw [if_neg hc]
      simp only [Option.isSome_none, Bool.false_eq_true, false_iff]
      intro hcon
      exact hc ⟨by rw [sa_len hperm]; exact hp, hcon⟩
  have hPval : ∀ p, p < (R ++ ['$']).length →
      (suffix_array (R ++ ['$'])).getD p 0 % K = 0 →
      (partial_suffix_array (suffix_array (R ++ ['$'])) K) p
        = some ((suffix_array (R ++ ['$'])).getD p 0) := by
    intro p hp hm
    rw [hpsa, psaIntended, if_pos ⟨by rw [sa_len hperm]; exact hp, hm⟩]
  have hidx := compute_idxes_spec hT hperm hsort hsent hlast F hFmem K _ hP hPval
    lo hi hlo0 hhiN
  refine ⟨F, G, lo, hi,
    (List.range (hi - lo).toNat).map
      (fun o => (suffix_array (R ++ ['$'])).getD (lo.toNat + o) 0),
    hFeq, hGeq, hbw, ?_, hidx, ?_⟩
  · rw [hcount]
    omega
  · rw [← occList_sentinel R w hw hdolw]
    have hnd1 : ((List.range (hi - lo).toNat).map
        (fun o => (suffix_array (R ++ ['$'])).getD (lo.toNat + o) 0)).Nodup := by
      apply List.Nodup.map_on ?_ (List.nodup_range _)
      intro x hx y hy hxy
      have hxk : x < (hi - lo).toNat := List.mem_range.mp hx
      have hyk : y < (hi - lo).toNat := List.mem_range.mp hy
      have hinj := sa_getD_inj hperm
        (show lo.toNat + x < (R ++ ['$']).length by omega)
        (show lo.toNat + y < (R ++ ['$']).length by omega) hxy
      omega
    have hnd2 : (occList w (R ++ ['$'])).Nodup :=
      List.Nodup.filter _ (List.nodup_range _)
    apply (List.perm_ext_iff_of_nodup hnd1 hnd2).mpr
    intro v
    constructor
    · intro hv
      obtain ⟨o, ho, hoe⟩ := List.mem_map.mp hv
      have hok : o < (hi - lo).toNat := List.mem_range.mp ho
      have hrowlt : lo.toNat + o < (R ++ ['$']).length := by omega
      have hmrow : matchRow (R ++ ['$']) (suffix_array (R ++ ['$'])) w (lo.toNat + o)
          = true :=
        (hiffw _ hrowlt).mpr ⟨by omega, by omega⟩
      rw [matchRow] at hmrow
      rw [← hoe]
      rw [occList, List.mem_filter, List.mem_range]
      have hlen := leadsWith_len w _ hmrow
      rw [List.length_drop] at hlen
      have hvn : (suffix_array (R ++ ['$'])).getD (lo.toNat + o) 0 < (R ++ ['$']).length :=
        sa_getD_lt hperm hrowlt
      exact ⟨by omega, hmrow⟩
    · intro hv
      rw [occList, List.mem_filter, List.mem_range] at hv
      obtain ⟨hvb, hvl⟩ := hv
      have hvn : v < (R ++ ['$']).length := by omega
      have hrlt : rowOf (suffix_array (R ++ ['$'])) v < (R ++ ['$']).length :=
        rowOf_lt hperm hvn
      have hsarow : (suffix_array (R ++ ['$'])).getD
          (rowOf (suffix_array (R ++ ['$'])) v) 0 = v := sa_rowOf hperm hvn
      have hmrow : matchRow (R ++ ['$']) (suffix_array (R ++ ['$'])) w
          (rowOf (suffix_array (R ++ ['$'])) v) = true := by
        rw [matchRow, hsarow]
        exact hvl
      have hint := (hiffw _ hrlt).mp hmrow
      apply List.mem_map.mpr
      refine ⟨rowOf (suffix_array (R ++ ['$'])) v - lo.toNat,
        List.mem_range.mpr (by omega), ?_⟩
      have he : lo.toNat + (rowOf (suffix_array (R ++ ['$'])) v - lo.toNat)
          = rowOf (suffix_array (R ++ ['$'])) v := by omega
      rw [he, hsarow]

/-- C1 counterexample to the original claim: the reference `R = [chr 300]`
consists of characters above the sentinel, yet building the index fails —
`compute_first_occurrences` indexes the 256-entry `counts` array with
`ord(char) = 300` and raises `IndexError` (modelled as `none`) — so
backward search never receives an index at all.  The claim therefore needs
the additional hypothesis that all code points are below 256. -/
theorem C1_counterexample :
    (∀ c ∈ [Char.ofNat 300], '$' < c) ∧ ([Char.ofNat 300] : List Char) ≠ [] ∧
    compute_first_occurrences
      (bwt_from_suffix_array ([Char.ofNat 300] ++ ['$'])
        (suffix_array ([Char.ofNat 300] ++ ['$']))) = none := by
  refine ⟨by decide, by decide, ?_⟩
  rfl

/-- Witness for C1 at `R = "aba"`, `K = 1`, `w = "a"`. -/
theorem C1_witness :
    ∃ fo cps lo hi idxes,
      compute_first_occurrences
        (bwt_from_suffix_array (['a', 'b', 'a'] ++ ['$'])
          (suffix_array (['a', 'b', 'a'] ++ ['$']))) = some fo ∧
      compute_checkpoint_arrs
        (bwt_from_suffix_array (['a', 'b', 'a'] ++ ['$'])
          (suffix_array (['a', 'b', 'a'] ++ ['$']))) = some cps ∧
      bw_better_match_pattern
        (bwt_from_suffix_array (['a', 'b', 'a'] ++ ['$'])
          (suffix_array (['a', 'b', 'a'] ++ ['$']))) ['a'] fo cps
        = some (lo, hi) ∧
      hi - lo = ((occList ['a'] (['a', 'b', 'a'] ++ ['$'])).length : Int) ∧
      compute_idxes_from_top_bot lo hi
        (partial_suffix_array (suffix_array (['a', 'b', 'a'] ++ ['$'])) 1)
        (bwt_from_suffix_array (['a', 'b', 'a'] ++ ['$'])
          (suffix_array (['a', 'b', 'a'] ++ ['$'])))
        (compute_rank_arr
          (bwt_from_suffix_array (['a', 'b', 'a'] ++ ['$'])
            (suffix_array (['a', 'b', 'a'] ++ ['$'])))) fo
        = some idxes ∧
      idxes.Perm (occList ['a'] ['a', 'b', 'a']) :=
  C1_theorem ['a', 'b', 'a'] (by decide) (by decide) 1 (by decide) ['a'] (by decide)
    ⟨[], ['b', 'a'], rfl⟩

end BWAlign
